import Mathlib

/-!
Verification of `SocialNetwork.cpp`: the adjacency graph, the union-find structure and
the facade composing them, as a shallow embedding of `src/SocialNetwork.cpp`.

Modelling conventions.

* `int` identifiers are `Int`.  No arithmetic is performed on identifiers, so no
  wrap-around is involved; the two integer conversions of `recommendFriends`
  (`(int)candidates.size()` and the implicit `int → size_t` of `resize(K)`) are
  modelled with explicit reduction modulo `2^32` and `2^64`.  Ranks and the mutual-friend
  counter only grow by single increments bounded by the number of entries, and are
  unbounded integers here.
* `unordered_map<int, T>` is an association list `IntMap T` and `unordered_set<int>`
  is a duplicate-free `List Int`.  The order of the list is the iteration order of
  the container.  The C++ standard leaves that order unspecified, so reachable
  states are closed under arbitrary reordering (`Graph.Reorder`, `UnionFind.Reorder`).
* Loops that are not structurally bounded (`find`, the BFS `while`, the path
  reconstruction `for`) take fuel; running out of fuel is `none`, so a result
  `some _` states that the C++ loop terminates.
* `std::length_error` thrown by `vector::resize` is `Except.error Error.lengthError`.
-/

namespace SocialNetwork

/-! ## Containers -/

/-- An `unordered_map<int, β>`; the list order is the iteration order. -/
abbrev IntMap (β : Type) := List (Int × β)

namespace IntMap

/-- Lookup of a key: `m.find(x)` (`none` is `m.end()`). -/
def find? {β : Type} : IntMap β → Int → Option β
  | [], _ => none
  | (k, v) :: m, x => if k = x then some v else find? m x

/-- Membership of a key: `m.find(x) != m.end()`. -/
def contains {β : Type} (m : IntMap β) (x : Int) : Bool := (m.find? x).isSome

/-- The keys in iteration order. -/
def keys {β : Type} (m : IntMap β) : List Int := m.map Prod.fst

/-- Assignment `m[x] = v`: overwrites the entry of `x`, or creates it. -/
def set {β : Type} : IntMap β → Int → β → IntMap β
  | [], x, v => [(x, v)]
  | (k, w) :: m, x, v => if k = x then (k, v) :: m else (k, w) :: set m x v

/-- Reading `m[x]` on an `unordered_map<int,int>`: `operator[]` value-initialises a
missing entry to `0`; returns the (possibly extended) map and the value read. -/
def index (m : IntMap Int) (x : Int) : IntMap Int × Int :=
  match m.find? x with
  | some v => (m, v)
  | none => (m.set x 0, 0)

end IntMap

/-- Insertion `s.insert(v)` into an `unordered_set<int>`. -/
def setInsert (s : List Int) (v : Int) : List Int := if v ∈ s then s else s ++ [v]

/-! ## Union-Find -/

/-- State of `class UnionFind`. -/
structure UnionFind where
  parent : IntMap Int
  rankv : IntMap Int
deriving DecidableEq, Repr

namespace UnionFind

/-- The freshly constructed structure. -/
def empty : UnionFind := ⟨[], []⟩

/-- Method `UnionFind::add`. -/
def add (uf : UnionFind) (x : Int) : UnionFind :=
  if uf.parent.contains x then uf else ⟨uf.parent.set x x, uf.rankv.set x 0⟩

/-- Method `UnionFind::find` with an explicit recursion budget. -/
def findAux : Nat → UnionFind → Int → Option (UnionFind × Int)
  | 0, _, _ => none
  | fuel + 1, uf, x =>
    let (p1, px) := uf.parent.index x
    if px ≠ x then
      match findAux fuel ⟨p1, uf.rankv⟩ px with
      | none => none
      | some (uf2, r) => some (⟨uf2.parent.set x r, uf2.rankv⟩, r)
    else some (⟨p1, uf.rankv⟩, px)

/-- Method `UnionFind::find`: the recursion budget is two more than the number of entries,
which also covers an unknown `x`, where `parent[x]` first inserts `x` (and then possibly `0`)
before the chain is followed. -/
def find (uf : UnionFind) (x : Int) : Option (UnionFind × Int) :=
  findAux (uf.parent.length + 2) uf x

/-- The linking part of `UnionFind::unite`, after both roots are found and differ. -/
def link (uf : UnionFind) (ra rb : Int) : UnionFind :=
  let (k1, rka) := uf.rankv.index ra
  let (k2, rkb) := k1.index rb
  if rka < rkb then ⟨uf.parent.set ra rb, k2⟩
  else if rka > rkb then ⟨uf.parent.set rb ra, k2⟩
  else ⟨uf.parent.set rb ra, k2.set ra (rka + 1)⟩

/-- Method `UnionFind::unite`. -/
def unite (uf : UnionFind) (a b : Int) : Option UnionFind :=
  match ((uf.add a).add b).find a with
  | none => none
  | some (uf1, ra) =>
    match uf1.find b with
    | none => none
    | some (uf2, rb) => if ra = rb then some uf2 else some (uf2.link ra rb)

/-- The loop of `UnionFind::getCommunities` over the entries still to visit. -/
def communitiesLoop : List Int → UnionFind → IntMap (List Int) →
    Option (UnionFind × IntMap (List Int))
  | [], uf, groups => some (uf, groups)
  | node :: rest, uf, groups =>
    match uf.find node with
    | none => none
    | some (uf1, root) =>
      communitiesLoop rest uf1 (groups.set root ((groups.find? root).getD [] ++ [node]))

/-- Method `UnionFind::getCommunities`.  `find` on a known id only overwrites existing
entries, so the traversal of `parent` visits the keys present at the start. -/
def getCommunities (uf : UnionFind) : Option (UnionFind × IntMap (List Int)) :=
  communitiesLoop uf.parent.keys uf []

end UnionFind

/-! ## Graph -/

/-- State of `class Graph`. -/
structure Graph where
  adj : IntMap (List Int)
deriving DecidableEq, Repr

/-- Exceptions the program can raise. -/
inductive Error where
  | lengthError
deriving DecidableEq, Repr

deriving instance DecidableEq for Except

/-- Conversion `size_t → int` as in `(int)candidates.size()`. -/
def toInt32 (n : Nat) : Int := ((n : Int) + 2 ^ 31) % 2 ^ 32 - 2 ^ 31

/-- Implicit conversion `int → size_t` (64-bit). -/
def toSizeT (k : Int) : Nat := (k % 2 ^ 64).toNat

/-- Value of `vector<pair<int,int>>::max_size()`: `PTRDIFF_MAX / sizeof(pair<int,int>)`. -/
def vectorMaxSize : Nat := (2 ^ 63 - 1) / 8

/-- Library call `vector<pair<int,int>>::resize(n)`: truncates, or appends value-initialised
elements, and throws `std::length_error` when `n` exceeds `max_size()`. -/
def vectorResize (xs : List (Int × Nat)) (n : Nat) : Except Error (List (Int × Nat)) :=
  if n ≤ xs.length then .ok (xs.take n)
  else if vectorMaxSize < n then .error Error.lengthError
  else .ok (xs ++ List.replicate (n - xs.length) (0, 0))

/-- The comparator lambda passed to `sort` in `recommendFriends`. -/
def recLess (a b : Int × Nat) : Prop :=
  if a.2 ≠ b.2 then a.2 > b.2 else a.1 < b.1

instance recLessDecidable : DecidableRel recLess := fun a b => by
  unfold recLess; exact inferInstance

/-- Search state of `Graph::shortestPath`. -/
structure BfsState where
  parent : IntMap Int
  queue : List Int
  visited : List Int
deriving DecidableEq, Repr

namespace Graph

/-- The freshly constructed graph. -/
def empty : Graph := ⟨[]⟩

/-- Method `Graph::hasUser`. -/
def hasUser (g : Graph) (u : Int) : Bool := g.adj.contains u

/-- Method `Graph::addUser`. -/
def addUser (g : Graph) (u : Int) : Graph :=
  if g.hasUser u then g else ⟨g.adj.set u []⟩

/-- Method `Graph::neighbors`. -/
def neighbors (g : Graph) (u : Int) : List Int := (g.adj.find? u).getD []

/-- Method `Graph::addFriendship`. -/
def addFriendship (g : Graph) (u v : Int) : Graph :=
  let g1 := (g.addUser u).addUser v
  let g2 : Graph := ⟨g1.adj.set u (setInsert (g1.neighbors u) v)⟩
  ⟨g2.adj.set v (setInsert (g2.neighbors v) u)⟩

/-- Method `Graph::getUsers`. -/
def getUsers (g : Graph) : List Int := g.adj.keys

/-- The `for (int v : neighbors(u))` loop of `shortestPath`. -/
def visitNeighbors (u : Int) : List Int → BfsState → BfsState
  | [], st => st
  | v :: vs, st =>
    if v ∈ st.visited then visitNeighbors u vs st
    else visitNeighbors u vs
      { parent := st.parent.set v u, queue := st.queue ++ [v],
        visited := setInsert st.visited v }

/-- The `while (!q.empty())` loop of `shortestPath`. -/
def bfsLoop (g : Graph) (dst : Int) : Nat → BfsState → Option BfsState
  | 0, _ => none
  | fuel + 1, st =>
    match st.queue with
    | [] => some st
    | u :: q =>
      if u = dst then some { st with queue := q }
      else bfsLoop g dst fuel (visitNeighbors u (g.neighbors u) { st with queue := q })

/-- The reconstruction loop `for (cur = dst; cur != -1; cur = parent[cur])`. -/
def walkBack : Nat → IntMap Int → Int → List Int → Option (List Int)
  | 0, _, _, _ => none
  | fuel + 1, parent, cur, path =>
    if cur ≠ -1 then
      let (p1, next) := parent.index cur
      walkBack fuel p1 next (path ++ [cur])
    else some path

/-- Method `Graph::shortestPath`; both loops get a budget of one more than the number
of users. -/
def shortestPath (g : Graph) (src dst : Int) : Option (List Int) :=
  if !g.hasUser src || !g.hasUser dst then some []
  else
    match bfsLoop g dst (g.adj.length + 1)
        { parent := [(src, -1)], queue := [src], visited := [src] } with
    | none => none
    | some st =>
      if dst ∉ st.visited then some []
      else (walkBack (g.adj.length + 1) st.parent dst []).map List.reverse

/-- Method `Graph::mutualFriendsCount`. -/
def mutualFriendsCount (g : Graph) (u v : Int) : Nat :=
  let Nu := g.neighbors u
  let Nv := g.neighbors v
  if Nu.length < Nv.length then Nu.countP (fun x => decide (x ∈ Nv))
  else Nv.countP (fun y => decide (y ∈ Nu))

/-- The candidate-collecting loop `for (int v : getUsers())` of `recommendFriends`. -/
def collectCandidates (g : Graph) (u : Int) (excluded : List Int) :
    List Int → List (Int × Nat) → List (Int × Nat)
  | [], cands => cands
  | v :: vs, cands =>
    if v ∈ excluded then collectCandidates g u excluded vs cands
    else if 0 < g.mutualFriendsCount u v then
      collectCandidates g u excluded vs (cands ++ [(v, g.mutualFriendsCount u v)])
    else collectCandidates g u excluded vs cands

/-- Method `Graph::recommendFriends`.  `std::sort` is an insertion sort with the
comparator of the source. -/
def recommendFriends (g : Graph) (u : Int) (K : Int) : Except Error (List (Int × Nat)) :=
  if !g.hasUser u then .ok []
  else
    let excluded := setInsert (g.neighbors u) u
    let candidates := collectCandidates g u excluded g.getUsers []
    let sorted := candidates.insertionSort recLess
    if K < toInt32 sorted.length then vectorResize sorted (toSizeT K) else .ok sorted

end Graph

/-! ## Facade -/

/-- State of `class SocialNetwork`. -/
structure Network where
  graph : Graph
  uf : UnionFind
deriving DecidableEq, Repr

namespace Network

/-- The freshly constructed facade. -/
def empty : Network := ⟨Graph.empty, UnionFind.empty⟩

/-- Method `SocialNetwork::addUser`. -/
def addUser (s : Network) (u : Int) : Network := ⟨s.graph.addUser u, s.uf.add u⟩

/-- Method `SocialNetwork::addFriendship`. -/
def addFriendship (s : Network) (u v : Int) : Option Network :=
  (s.uf.unite u v).map fun uf1 => ⟨s.graph.addFriendship u v, uf1⟩

/-- Method `SocialNetwork::shortestPath`. -/
def shortestPath (s : Network) (src dst : Int) : Option (List Int) :=
  s.graph.shortestPath src dst

/-- Method `SocialNetwork::recommendFriends`. -/
def recommendFriends (s : Network) (u : Int) (K : Int) : Except Error (List (Int × Nat)) :=
  s.graph.recommendFriends u K

/-- Method `SocialNetwork::communities`. -/
def communities (s : Network) : Option (Network × IntMap (List Int)) :=
  s.uf.getCommunities.map fun r => (⟨s.graph, r.1⟩, r.2)

/-- Method `SocialNetwork::users`. -/
def users (s : Network) : List Int := s.graph.getUsers

/-- Applies `addFriendship` for each pair in turn. -/
def addFriendships : Network → List (Int × Int) → Option Network
  | s, [] => some s
  | s, (u, v) :: es => (s.addFriendship u v).bind fun s1 => addFriendships s1 es

end Network

/-- The sample dataset built in `main`: users `1..8`, then seven friendships. -/
def sampleNetwork : Option Network :=
  Network.addFriendships
    ([1, 2, 3, 4, 5, 6, 7, 8].foldl Network.addUser Network.empty)
    [(1, 2), (1, 3), (2, 3), (2, 4), (3, 5), (6, 7), (7, 8)]

/-- The facade after the single call `addFriendship(1, 2)` on the empty network. -/
def pairNetwork : Network :=
  ⟨⟨[(1, [2]), (2, [1])]⟩, ⟨[(1, 1), (2, 1)], [(1, 1), (2, 0)]⟩⟩

/-- A hand-built state with the parent chain `3 → 2 → 1`, to try `find` and
`getCommunities` on. -/
def chainUF : UnionFind := ⟨[(1, 1), (2, 1), (3, 2)], [(1, 1), (2, 0), (3, 0)]⟩

/-- A graph in which user 1 has three candidates, one with two mutual friends and two tied
with one: friendships `6 - 3`, `5 - 2`, `4 - 2`, `4 - 3`, `1 - 2`, `1 - 3`, added in this
order, so that the candidates are met in the order 6, 5, 4. -/
def rankingGraph : Graph :=
  (((((Graph.empty.addFriendship 6 3).addFriendship 5 2).addFriendship 4 2).addFriendship 4
    3).addFriendship 1 2).addFriendship 1 3

/-- A star around user 1: `addFriendship(0, 1)` followed by `addFriendship(i - n, 1)` for
`i = 0, …, n - 1`.  User 0 then has the `n` candidates `-n, …, -1`, each with the one
mutual friend 1. -/
def starGraph (n : Nat) : Graph :=
  ((List.range n).map fun i : Nat => (i : Int) - n).foldl (fun g t => g.addFriendship t 1)
    (Graph.empty.addFriendship 0 1)

/-! ## Specification vocabulary -/

namespace Graph

/-- Friendship edge: `b` is in `neighbors(a)`. -/
def Adj (g : Graph) (a b : Int) : Prop := b ∈ g.neighbors a

/-- A friendship path of zero or more edges leads from `a` to `b`. -/
def Connected (g : Graph) (a b : Int) : Prop := Relation.ReflTransGen g.Adj a b

/-- Representation invariant of the containers: keys and set elements are unique. -/
def Valid (g : Graph) : Prop := g.adj.keys.Nodup ∧ ∀ p ∈ g.adj, p.2.Nodup

instance validDecidable (g : Graph) : Decidable g.Valid := by
  unfold Valid; exact inferInstance

/-- The same graph with another iteration order of its hash containers. -/
def Reorder (g g' : Graph) : Prop :=
  g.adj.keys.Perm g'.adj.keys ∧ ∀ u, (g.neighbors u).Perm (g'.neighbors u)

/-- States of the graph that a sequence of `addUser` / `addFriendship` calls can produce,
under any iteration order of the containers. -/
inductive Reachable : Graph → Prop
  | empty : Reachable Graph.empty
  | addUser {g : Graph} (u : Int) : Reachable g → Reachable (g.addUser u)
  | addFriendship {g : Graph} (u v : Int) : Reachable g → Reachable (g.addFriendship u v)
  | reorder {g g' : Graph} : Reachable g → g.Reorder g' → Reachable g'

/-- What one round of the candidate loop of `recommendFriends` appends for user `v`. -/
def candidate (g : Graph) (u : Int) (excluded : List Int) (v : Int) : Option (Int × Nat) :=
  if v ∈ excluded then none
  else if 0 < g.mutualFriendsCount u v then some (v, g.mutualFriendsCount u v) else none

/-- The qualifying candidates for `u`, in the order in which `getUsers` lists them. -/
def qualifying (g : Graph) (u : Int) : List Int :=
  g.getUsers.filter fun v =>
    decide (v ≠ u ∧ v ∉ g.neighbors u ∧ 0 < g.mutualFriendsCount u v)

/-- The candidate list of `recommendFriends` after `sort`, before truncation. -/
def ranked (g : Graph) (u : Int) : List (Int × Nat) :=
  (g.getUsers.filterMap (g.candidate u (setInsert (g.neighbors u) u))).insertionSort recLess

/-- The order of the result: count descending, identifier ascending on ties. -/
def Before (a b : Int × Nat) : Prop := a.2 > b.2 ∨ (a.2 = b.2 ∧ a.1 < b.1)

/-- Invariant of reachable graphs. -/
structure WF (g : Graph) : Prop where
  valid : g.Valid
  closed : ∀ u v, v ∈ g.neighbors u → g.hasUser v = true
  symm : ∀ u v, v ∈ g.neighbors u → u ∈ g.neighbors v

/-- Loop invariant of the search in `shortestPath` started at `src`. -/
structure BfsInv (g : Graph) (src : Int) (st : BfsState) : Prop where
  nodupVisited : st.visited.Nodup
  known : ∀ v ∈ st.visited, g.hasUser v = true
  connected : ∀ v ∈ st.visited, g.Connected src v
  queueVisited : ∀ v ∈ st.queue, v ∈ st.visited

/-- A walk of exactly `n` friendship edges from `a` to `b`. -/
inductive Walk (g : Graph) (a : Int) : Nat → Int → Prop
  | refl : Walk g a 0 a
  | tail {n : Nat} {b c : Int} : Walk g a n b → g.Adj b c → Walk g a (n + 1) c

/-- The sequence `p` is a friendship path from `a` to `b`: it starts with `a`, ends with `b`
and consecutive elements are adjacent; it has `p.length - 1` edges. -/
def IsPath (g : Graph) (p : List Int) (a b : Int) : Prop :=
  p.head? = some a ∧ p.getLast? = some b ∧ p.Chain' g.Adj

/-- The parent map of the search is a tree rooted at `src`; `d` is the depth in that tree. -/
structure BfsTree (g : Graph) (src : Int) (d : Int → Nat) (st : BfsState) : Prop where
  base : g.BfsInv src st
  srcVisited : src ∈ st.visited
  srcParent : st.parent.find? src = some (-1)
  dSrc : d src = 0
  tree : ∀ v ∈ st.visited, v ≠ src →
    ∃ p, st.parent.find? v = some p ∧ p ∈ st.visited ∧ g.Adj p v ∧ d v = d p + 1
  depthLt : ∀ v ∈ st.visited, d v < st.visited.length

/-- Invariant of the `while` loop of `shortestPath` between two iterations. -/
structure BfsOuter (g : Graph) (src : Int) (d : Int → Nat) (st : BfsState) : Prop where
  toTree : g.BfsTree src d st
  sorted : st.queue.Pairwise (fun a b => d a ≤ d b)
  bound : ∀ u ∈ st.queue.head?, ∀ v ∈ st.visited, d v ≤ d u + 1
  processed : ∀ x ∈ st.visited, x ∉ st.queue →
    ∀ w, g.Adj x w → w ∈ st.visited ∧ d w ≤ d x + 1

/-- Invariant of the `for` loop over the neighbours of the dequeued user `u`. -/
structure BfsInner (g : Graph) (src : Int) (d : Int → Nat) (u : Int) (st : BfsState) :
    Prop where
  toTree : g.BfsTree src d st
  uVisited : u ∈ st.visited
  sorted : st.queue.Pairwise (fun a b => d a ≤ d b)
  upper : ∀ v ∈ st.visited, d v ≤ d u + 1
  lower : ∀ x ∈ st.queue, d u ≤ d x
  processed : ∀ x ∈ st.visited, x ∉ st.queue → x ≠ u →
    ∀ w, g.Adj x w → w ∈ st.visited ∧ d w ≤ d x + 1

/-- What the search has established when the `while` loop is left. -/
structure BfsDone (g : Graph) (src dst : Int) (d : Int → Nat) (st : BfsState) : Prop where
  toTree : g.BfsTree src d st
  complete : ∀ n, g.Walk src n dst → dst ∈ st.visited ∧ d dst ≤ n

end Graph

namespace UnionFind

/-- The rank recorded for `x`; an absent entry reads as `0`, as `rankv[x]` would. -/
def rank (uf : UnionFind) (x : Int) : Int := (uf.rankv.find? x).getD 0

/-- Following parent links from `x` ends in the root `r` (a key mapped to itself). -/
inductive RootOf (uf : UnionFind) : Int → Int → Prop
  | root {r : Int} : uf.parent.find? r = some r → RootOf uf r r
  | step {x p r : Int} : uf.parent.find? x = some p → p ≠ x → RootOf uf p r → RootOf uf x r

/-- Both ids are known and have the same root. -/
def SameClass (uf : UnionFind) (a b : Int) : Prop := ∃ r, uf.RootOf a r ∧ uf.RootOf b r

/-- Invariant of the disjoint-set structure. -/
structure WF (uf : UnionFind) : Prop where
  nodupParent : uf.parent.keys.Nodup
  nodupRank : uf.rankv.keys.Nodup
  sameKeys : ∀ x, uf.rankv.contains x = uf.parent.contains x
  closed : ∀ x p, uf.parent.find? x = some p → uf.parent.contains p = true
  rankLt : ∀ x p, uf.parent.find? x = some p → p ≠ x → uf.rank x < uf.rank p

/-- The same structure with another iteration order of its hash containers. -/
def Reorder (uf uf' : UnionFind) : Prop :=
  uf.parent.Perm uf'.parent ∧ uf.rankv.Perm uf'.rankv

/-- Number of entries whose rank exceeds that of `x`: bounds the length of the parent
chain starting at `x`. -/
def above (uf : UnionFind) (x : Int) : Nat :=
  uf.parent.keys.countP (fun k => decide (uf.rank x < uf.rank k))

/-- Relation between the state before and after calls of `find`: ranks and keys are
untouched and every id keeps its root. -/
structure Compressed (uf uf' : UnionFind) : Prop where
  rankv_eq : uf'.rankv = uf.rankv
  keys_eq : uf'.parent.keys = uf.parent.keys
  rootOf : ∀ y s, uf.RootOf y s → uf'.RootOf y s

/-- The members listed under the key `r` in the result of `getCommunities`. -/
def members (groups : IntMap (List Int)) (r : Int) : List Int := (groups.find? r).getD []

/-- States of the disjoint-set structure that a sequence of `add`, `unite`, `find` on a
known id and `getCommunities` calls can produce, under any iteration order of the
containers. -/
inductive Reachable : UnionFind → Prop
  | empty : Reachable UnionFind.empty
  | add {uf : UnionFind} (x : Int) : Reachable uf → Reachable (uf.add x)
  | unite {uf uf' : UnionFind} (a b : Int) :
      Reachable uf → uf.unite a b = some uf' → Reachable uf'
  | find {uf uf' : UnionFind} (x r : Int) :
      Reachable uf → uf.parent.contains x = true → uf.find x = some (uf', r) → Reachable uf'
  | getCommunities {uf uf' : UnionFind} {groups : IntMap (List Int)} :
      Reachable uf → uf.getCommunities = some (uf', groups) → Reachable uf'
  | reorder {uf uf' : UnionFind} : Reachable uf → uf.Reorder uf' → Reachable uf'

/-- Number of distinct roots: the keys of `parent` that are mapped to themselves. -/
def numRoots (uf : UnionFind) : Nat :=
  uf.parent.keys.countP fun k => decide (uf.parent.find? k = some k)

/-- Exactly `n` parent links lead from `x` to the root `r`. -/
inductive RootIn (uf : UnionFind) : Int → Int → Nat → Prop
  | root {r : Int} : uf.parent.find? r = some r → RootIn uf r r 0
  | step {x p r : Int} {n : Nat} :
      uf.parent.find? x = some p → p ≠ x → RootIn uf p r n → RootIn uf x r (n + 1)

/-- The id `y` lies on the parent chain that starts at the known id `x` (ends included). -/
inductive OnPath (uf : UnionFind) : Int → Int → Prop
  | here {x : Int} : uf.parent.contains x = true → OnPath uf x x
  | next {x p y : Int} : uf.parent.find? x = some p → p ≠ x → OnPath uf p y → OnPath uf x y

/-- The parent map is acyclic: following parent links from any key ends in a root. -/
def Acyclic (uf : UnionFind) : Prop :=
  ∀ x, uf.parent.contains x = true → ∃ r, uf.RootOf x r

/-- What a call `find(x)` that returns `r` and leaves the state `uf'` has done to `uf`. -/
structure FindPost (uf : UnionFind) (x : Int) (uf' : UnionFind) (r : Int) : Prop where
  rankv_eq : uf'.rankv = uf.rankv
  keys_eq : uf'.parent.keys = uf.parent.keys
  onPath : ∀ y, uf.OnPath x y → uf'.parent.find? y = some r
  offPath : ∀ y, ¬ uf.OnPath x y → uf'.parent.find? y = uf.parent.find? y
  rootOf : ∀ y s, uf'.RootOf y s ↔ uf.RootOf y s

/-- Union by rank keeps the trees balanced: ranks are non-negative and the class of a root
of rank `k` has at least `2^k` members. -/
structure Balanced (uf : UnionFind) : Prop where
  rankNonneg : ∀ x, 0 ≤ uf.rank x
  size : ∀ r, uf.parent.find? r = some r →
    ∃ S : Finset Int, (∀ x ∈ S, uf.RootOf x r) ∧ 2 ^ (uf.rank r).toNat ≤ S.card

end UnionFind

namespace Network

/-- Invariant of the facade: both structures are well formed, know the same ids, and the
classes of the disjoint-set are the connected components of the graph. -/
structure WF (s : Network) : Prop where
  graph : s.graph.WF
  uf : s.uf.WF
  sameUsers : ∀ x, s.uf.parent.contains x = s.graph.hasUser x
  classes : ∀ a b, s.uf.SameClass a b ↔ (s.graph.hasUser a = true ∧ s.graph.Connected a b)

/-- States of the facade that a sequence of `addUser` / `addFriendship` (and `communities`)
calls can produce, under any iteration order of the containers. -/
inductive Reachable : Network → Prop
  | empty : Reachable Network.empty
  | addUser {s : Network} (u : Int) : Reachable s → Reachable (s.addUser u)
  | addFriendship {s s' : Network} (u v : Int) :
      Reachable s → s.addFriendship u v = some s' → Reachable s'
  | communities {s s' : Network} {groups : IntMap (List Int)} :
      Reachable s → s.communities = some (s', groups) → Reachable s'
  | reorder {s : Network} {g : Graph} {uf : UnionFind} :
      Reachable s → s.graph.Reorder g → s.uf.Reorder uf → Reachable ⟨g, uf⟩

end Network

/-! ## Containers: lemmas -/

namespace IntMap

variable {β : Type}

theorem find?_set (m : IntMap β) (x y : Int) (v : β) :
    (m.set x v).find? y = if x = y then some v else m.find? y := by
  induction m with
  | nil => simp [set, find?]
  | cons p m ih =>
    obtain ⟨k, w⟩ := p
    by_cases hk : k = x
    · subst hk
      by_cases hy : k = y <;> simp [set, find?, hy]
    · by_cases hy : k = y
      · subst hy
        simp [set, find?, hk, Ne.symm hk]
      · simp [set, find?, hk, hy, ih]

theorem find?_eq_none_iff (m : IntMap β) (x : Int) : m.find? x = none ↔ x ∉ m.keys := by
  induction m with
  | nil => simp [find?, keys]
  | cons p m ih =>
    obtain ⟨k, w⟩ := p
    by_cases hk : k = x
    · simp [find?, keys, hk]
    · simp only [find?, hk, if_false, keys, List.map_cons, List.mem_cons, not_or]
      constructor
      · intro h; exact ⟨Ne.symm hk, (ih.mp h)⟩
      · intro h; exact ih.mpr h.2

theorem contains_iff (m : IntMap β) (x : Int) : m.contains x = true ↔ x ∈ m.keys := by
  unfold contains
  rw [Option.isSome_iff_ne_none, Ne, find?_eq_none_iff, not_not]

theorem contains_eq_false_iff (m : IntMap β) (x : Int) : m.contains x = false ↔ x ∉ m.keys := by
  rw [← contains_iff]; simp

theorem keys_set (m : IntMap β) (x : Int) (v : β) :
    (m.set x v).keys = if x ∈ m.keys then m.keys else m.keys ++ [x] := by
  induction m with
  | nil => simp [set, keys]
  | cons p m ih =>
    obtain ⟨k, w⟩ := p
    by_cases hk : k = x
    · subst hk; simp [set, keys]
    · have hk2 : ¬ x = k := Ne.symm hk
      simp only [keys] at ih
      simp only [set, hk, if_false, keys, List.map_cons, List.mem_cons, hk2, false_or, ih]
      split <;> simp

theorem length_set (m : IntMap β) (x : Int) (v : β) :
    (m.set x v).length = if x ∈ m.keys then m.length else m.length + 1 := by
  have h := congrArg List.length (keys_set m x v)
  simp only [keys, List.length_map] at h
  rw [h]; split <;> simp [keys, *]

theorem mem_of_find? {m : IntMap β} {x : Int} {v : β} (h : m.find? x = some v) : (x, v) ∈ m := by
  induction m with
  | nil => simp [find?] at h
  | cons p m ih =>
    obtain ⟨k, w⟩ := p
    by_cases hk : k = x
    · simp [find?, hk] at h; simp [hk, h]
    · simp only [find?, hk, if_false] at h
      exact List.mem_cons_of_mem _ (ih h)

theorem find?_of_mem {m : IntMap β} {x : Int} {v : β} (hn : m.keys.Nodup) (h : (x, v) ∈ m) :
    m.find? x = some v := by
  induction m with
  | nil => simp at h
  | cons p m ih =>
    obtain ⟨k, w⟩ := p
    simp only [keys, List.map_cons, List.nodup_cons] at hn
    rcases List.mem_cons.mp h with h1 | h1
    · cases h1; simp [find?]
    · have hx : x ∈ IntMap.keys m := List.mem_map.mpr ⟨(x, v), h1, rfl⟩
      have hk : ¬ k = x := by
        intro e; subst e; exact hn.1 hx
      simp only [find?, hk, if_false]
      exact ih hn.2 h1

theorem find?_perm {m m' : IntMap β} (hn : m.keys.Nodup) (hp : m.Perm m') (x : Int) :
    m.find? x = m'.find? x := by
  have hn' : m'.keys.Nodup := (hp.map Prod.fst).nodup_iff.mp hn
  cases h : m.find? x with
  | none =>
    have h1 : x ∉ m.keys := (find?_eq_none_iff m x).mp h
    have h2 : x ∉ m'.keys := fun hx => h1 ((hp.map Prod.fst).mem_iff.mpr hx)
    exact ((find?_eq_none_iff m' x).mpr h2).symm
  | some v =>
    exact (find?_of_mem hn' (hp.mem_iff.mp (mem_of_find? h))).symm

theorem nodup_keys_set {m : IntMap β} (hn : m.keys.Nodup) (x : Int) (v : β) :
    (m.set x v).keys.Nodup := by
  rw [keys_set]
  split
  · exact hn
  · rename_i hx
    exact List.Nodup.append hn (List.nodup_singleton x) (by simpa using hx)

theorem index_of_find? {m : IntMap Int} {x v : Int} (h : m.find? x = some v) :
    m.index x = (m, v) := by
  simp [index, h]

theorem keys_set_of_mem {β : Type} {m : IntMap β} {x : Int} (h : x ∈ m.keys) (v : β) :
    (m.set x v).keys = m.keys := by
  rw [keys_set, if_pos h]

theorem find?_isSome_of_contains {β : Type} {m : IntMap β} {x : Int} (h : m.contains x = true) :
    ∃ v, m.find? x = some v := Option.isSome_iff_exists.mp h

theorem contains_of_find? {β : Type} {m : IntMap β} {x : Int} {v : β} (h : m.find? x = some v) :
    m.contains x = true := by
  simp [contains, h]

theorem contains_eq_of_keys_eq {β γ : Type} {m : IntMap β} {m' : IntMap γ}
    (h : m'.keys = m.keys) (x : Int) : m'.contains x = m.contains x := by
  rw [Bool.eq_iff_iff, contains_iff, contains_iff, h]

end IntMap

theorem mem_setInsert (s : List Int) (v x : Int) : x ∈ setInsert s v ↔ x ∈ s ∨ x = v := by
  unfold setInsert
  split
  · rename_i h
    constructor
    · exact Or.inl
    · rintro (h1 | h1)
      · exact h1
      · subst h1; exact h
  · simp

theorem nodup_setInsert {s : List Int} (hs : s.Nodup) (v : Int) : (setInsert s v).Nodup := by
  unfold setInsert
  split
  · exact hs
  · rename_i h
    exact List.Nodup.append hs (List.nodup_singleton v) (by simpa using h)

/-! ## Graph: basic lemmas -/

namespace Graph

theorem hasUser_iff (g : Graph) (u : Int) : g.hasUser u = true ↔ u ∈ g.adj.keys :=
  IntMap.contains_iff g.adj u

theorem neighbors_of_not_hasUser {g : Graph} {u : Int} (h : ¬ g.hasUser u = true) :
    g.neighbors u = [] := by
  have h1 : g.adj.find? u = none := by
    rw [IntMap.find?_eq_none_iff]; exact fun hx => h ((hasUser_iff g u).mpr hx)
  simp [neighbors, h1]

theorem hasUser_of_mem_neighbors {g : Graph} {u v : Int} (h : v ∈ g.neighbors u) :
    g.hasUser u = true := by
  by_contra hc
  rw [neighbors_of_not_hasUser hc] at h
  simp at h

theorem neighbors_set (m : IntMap (List Int)) (u x : Int) (l : List Int) :
    (Graph.mk (m.set u l)).neighbors x = if u = x then l else (Graph.mk m).neighbors x := by
  simp only [neighbors, IntMap.find?_set]
  split <;> rfl

theorem neighbors_addUser (g : Graph) (u x : Int) : (g.addUser u).neighbors x = g.neighbors x := by
  unfold addUser
  split
  · rfl
  · rename_i h
    rw [neighbors_set]
    split
    · rename_i hx
      subst hx
      exact (neighbors_of_not_hasUser h).symm
    · rfl

theorem keys_addUser (g : Graph) (u : Int) :
    (g.addUser u).adj.keys = if u ∈ g.adj.keys then g.adj.keys else g.adj.keys ++ [u] := by
  unfold addUser
  by_cases h : g.hasUser u = true
  · simp [h, (hasUser_iff g u).mp h]
  · have h2 : u ∉ g.adj.keys := fun hx => h ((hasUser_iff g u).mpr hx)
    simp [h, h2, IntMap.keys_set]

theorem hasUser_addUser (g : Graph) (u x : Int) :
    (g.addUser u).hasUser x = true ↔ g.hasUser x = true ∨ x = u := by
  rw [hasUser_iff, hasUser_iff, keys_addUser]
  split
  · rename_i h
    constructor
    · exact Or.inl
    · rintro (h1 | h1)
      · exact h1
      · subst h1; exact h
  · simp

theorem keys_addFriendship (g : Graph) (u v : Int) :
    (g.addFriendship u v).adj.keys = ((g.addUser u).addUser v).adj.keys := by
  have hu : u ∈ ((g.addUser u).addUser v).adj.keys := by
    rw [← hasUser_iff, hasUser_addUser, hasUser_addUser]; exact Or.inl (Or.inr rfl)
  have hv : v ∈ ((g.addUser u).addUser v).adj.keys := by
    rw [← hasUser_iff, hasUser_addUser]; exact Or.inr rfl
  simp only [addFriendship, IntMap.keys_set, hu, hv, if_true]

theorem hasUser_addFriendship (g : Graph) (u v x : Int) :
    (g.addFriendship u v).hasUser x = true ↔ g.hasUser x = true ∨ x = u ∨ x = v := by
  rw [hasUser_iff, keys_addFriendship, ← hasUser_iff, hasUser_addUser, hasUser_addUser, or_assoc]

theorem neighbors_addFriendship (g : Graph) (u v x : Int) :
    (g.addFriendship u v).neighbors x =
      if v = x then setInsert (if u = v then setInsert (g.neighbors u) v else g.neighbors v) u
      else if u = x then setInsert (g.neighbors u) v else g.neighbors x := by
  have e : ∀ y, (Graph.mk ((g.addUser u).addUser v).adj).neighbors y = g.neighbors y := fun y => by
    show ((g.addUser u).addUser v).neighbors y = _
    rw [neighbors_addUser, neighbors_addUser]
  simp only [addFriendship, neighbors_set, neighbors_addUser, e]

theorem mem_neighbors_addFriendship (g : Graph) (u v x y : Int) :
    y ∈ (g.addFriendship u v).neighbors x ↔
      y ∈ g.neighbors x ∨ (x = u ∧ y = v) ∨ (x = v ∧ y = u) := by
  rw [neighbors_addFriendship]
  by_cases hv : v = x
  · subst hv
    by_cases hu : u = v
    · subst hu
      simp only [if_true, mem_setInsert]
      tauto
    · simp only [if_true, hu, if_false, mem_setInsert]
      have : ¬ v = u := Ne.symm hu
      tauto
  · by_cases hu : u = x
    · subst hu
      simp only [hv, if_false, if_true, mem_setInsert]
      have : ¬ u = v := Ne.symm hv
      tauto
    · simp only [hv, hu, if_false]
      have h1 : ¬ x = u := Ne.symm hu
      have h2 : ¬ x = v := Ne.symm hv
      tauto

theorem nodup_neighbors_addFriendship {g : Graph} (h : ∀ x, (g.neighbors x).Nodup) (u v x : Int) :
    ((g.addFriendship u v).neighbors x).Nodup := by
  rw [neighbors_addFriendship]
  split
  · apply nodup_setInsert
    split
    · exact nodup_setInsert (h u) v
    · exact h v
  · split
    · exact nodup_setInsert (h u) v
    · exact h x

theorem Valid.nodup_neighbors {g : Graph} (h : g.Valid) (u : Int) : (g.neighbors u).Nodup := by
  unfold neighbors
  cases hf : g.adj.find? u with
  | none => simp
  | some l => exact h.2 (u, l) (IntMap.mem_of_find? hf)

theorem valid_of_nodup {g : Graph} (hk : g.adj.keys.Nodup) (hn : ∀ u, (g.neighbors u).Nodup) :
    g.Valid := by
  refine ⟨hk, fun p hp => ?_⟩
  have h1 : g.adj.find? p.1 = some p.2 := IntMap.find?_of_mem hk hp
  have h2 := hn p.1
  simpa [neighbors, h1] using h2

theorem valid_empty : Graph.empty.Valid := by decide

theorem valid_addUser {g : Graph} (h : g.Valid) (u : Int) : (g.addUser u).Valid := by
  apply valid_of_nodup
  · unfold addUser
    split
    · exact h.1
    · exact IntMap.nodup_keys_set h.1 u []
  · intro x; rw [neighbors_addUser]; exact h.nodup_neighbors x

theorem valid_addFriendship {g : Graph} (h : g.Valid) (u v : Int) :
    (g.addFriendship u v).Valid := by
  apply valid_of_nodup
  · rw [keys_addFriendship]
    exact (valid_addUser (valid_addUser h u) v).1
  · exact nodup_neighbors_addFriendship h.nodup_neighbors u v

theorem Reorder.hasUser_eq {g g' : Graph} (h : g.Reorder g') (x : Int) :
    g'.hasUser x = g.hasUser x := by
  rw [Bool.eq_iff_iff, hasUser_iff, hasUser_iff]
  exact (h.1.mem_iff).symm

theorem Reorder.mem_neighbors {g g' : Graph} (h : g.Reorder g') (x y : Int) :
    y ∈ g'.neighbors x ↔ y ∈ g.neighbors x := ((h.2 x).mem_iff).symm

theorem Reorder.reorder_refl (g : Graph) : g.Reorder g := ⟨List.Perm.refl _, fun _ => List.Perm.refl _⟩

theorem Reorder.valid {g g' : Graph} (h : g.Reorder g') (hv : g.Valid) : g'.Valid :=
  valid_of_nodup (h.1.nodup_iff.mp hv.1) fun u => (h.2 u).nodup_iff.mp (hv.nodup_neighbors u)

theorem wf_empty : Graph.empty.WF where
  valid := valid_empty
  closed := by intro u v h; simp [Graph.empty, neighbors, IntMap.find?] at h
  symm := by intro u v h; simp [Graph.empty, neighbors, IntMap.find?] at h

theorem wf_addUser {g : Graph} (h : g.WF) (u : Int) : (g.addUser u).WF where
  valid := valid_addUser h.valid u
  closed := by
    intro x y hy
    rw [neighbors_addUser] at hy
    exact (hasUser_addUser g u y).mpr (Or.inl (h.closed x y hy))
  symm := by
    intro x y hy
    rw [neighbors_addUser] at hy ⊢
    exact h.symm x y hy

theorem wf_addFriendship {g : Graph} (h : g.WF) (u v : Int) : (g.addFriendship u v).WF where
  valid := valid_addFriendship h.valid u v
  closed := by
    intro x y hy
    rw [hasUser_addFriendship]
    rcases (mem_neighbors_addFriendship g u v x y).mp hy with h1 | ⟨_, h1⟩ | ⟨_, h1⟩
    · exact Or.inl (h.closed x y h1)
    · exact Or.inr (Or.inr h1)
    · exact Or.inr (Or.inl h1)
  symm := by
    intro x y hy
    rw [mem_neighbors_addFriendship] at hy ⊢
    rcases hy with h1 | ⟨h1, h2⟩ | ⟨h1, h2⟩
    · exact Or.inl (h.symm x y h1)
    · exact Or.inr (Or.inr ⟨h2, h1⟩)
    · exact Or.inr (Or.inl ⟨h2, h1⟩)

theorem Reorder.graph_wf {g g' : Graph} (h : g.Reorder g') (hw : g.WF) : g'.WF where
  valid := h.valid hw.valid
  closed := by
    intro x y hy
    rw [h.hasUser_eq]
    exact hw.closed x y ((h.mem_neighbors x y).mp hy)
  symm := by
    intro x y hy
    rw [h.mem_neighbors] at hy ⊢
    exact hw.symm x y hy

theorem Reachable.wf {g : Graph} (h : g.Reachable) : g.WF := by
  induction h with
  | empty => exact wf_empty
  | addUser u _ ih => exact wf_addUser ih u
  | addFriendship u v _ ih => exact wf_addFriendship ih u v
  | reorder _ hr ih => exact hr.graph_wf ih

theorem countP_mem_eq_card_inter {s t : List Int} (hs : s.Nodup) :
    s.countP (fun x => decide (x ∈ t)) = (s.toFinset ∩ t.toFinset).card := by
  rw [List.countP_eq_length_filter, ← List.toFinset_card_of_nodup (hs.filter _)]
  congr 1
  ext x
  simp [List.mem_filter]

theorem collectCandidates_eq (g : Graph) (u : Int) (excl : List Int) (vs : List Int)
    (acc : List (Int × Nat)) :
    collectCandidates g u excl vs acc = acc ++ vs.filterMap (g.candidate u excl) := by
  induction vs generalizing acc with
  | nil => simp [collectCandidates]
  | cons v vs ih =>
    by_cases h1 : v ∈ excl
    · simp [collectCandidates, candidate, h1, ih]
    · by_cases h2 : 0 < g.mutualFriendsCount u v
      · simp [collectCandidates, candidate, h1, h2, ih]
      · simp [collectCandidates, candidate, h1, h2, ih]

theorem candidate_fst {g : Graph} {u : Int} {excl : List Int} {v : Int} {p : Int × Nat}
    (h : g.candidate u excl v = some p) : p.1 = v := by
  unfold candidate at h
  split at h
  · cases h
  · split at h
    · cases h; rfl
    · cases h

theorem map_fst_filterMap_candidate (g : Graph) (u : Int) (excl : List Int) (vs : List Int) :
    List.Sublist ((vs.filterMap (g.candidate u excl)).map Prod.fst) vs := by
  induction vs with
  | nil => simp
  | cons v vs ih =>
    rw [List.filterMap_cons]
    cases h : g.candidate u excl v with
    | none => exact ih.cons v
    | some p =>
      simp only [List.map_cons]
      rw [candidate_fst h]
      exact ih.cons₂ v

theorem nodup_candidates {g : Graph} (hk : g.adj.keys.Nodup) (u : Int) (excl : List Int) :
    (g.getUsers.filterMap (g.candidate u excl)).Nodup :=
  List.Nodup.of_map Prod.fst (hk.sublist (map_fst_filterMap_candidate g u excl g.adj.keys))

theorem recLess_trans {a b c : Int × Nat} (h1 : recLess a b) (h2 : recLess b c) : recLess a c := by
  unfold recLess at *
  split at h1 <;> split at h2 <;> split <;> omega

theorem recLess_asymm {a b : Int × Nat} (h1 : recLess a b) (h2 : recLess b a) : False := by
  unfold recLess at *
  split at h1 <;> split at h2 <;> omega

theorem recLess_total {a b : Int × Nat} (h : a ≠ b) : recLess a b ∨ recLess b a := by
  have h3 : a.1 ≠ b.1 ∨ a.2 ≠ b.2 := by
    by_contra hc
    push_neg at hc
    exact h (Prod.ext hc.1 hc.2)
  unfold recLess
  split <;> split <;> omega

theorem sorted_orderedInsert_recLess (a : Int × Nat) :
    ∀ l : List (Int × Nat), l.Sorted recLess → a ∉ l →
      (l.orderedInsert recLess a).Sorted recLess
  | [], _, _ => by simp
  | b :: l, hs, ha => by
    have hab : a ≠ b := fun e => ha (e ▸ List.mem_cons_self _ _)
    have hal : a ∉ l := fun e => ha (List.mem_cons_of_mem _ e)
    rw [List.orderedInsert]
    split
    · rename_i hlt
      refine List.sorted_cons.mpr ⟨?_, hs⟩
      intro c hc
      rcases List.mem_cons.mp hc with e | e
      · subst e; exact hlt
      · exact recLess_trans hlt (List.rel_of_sorted_cons hs c e)
    · rename_i hlt
      have hba : recLess b a := (recLess_total hab).resolve_left hlt
      refine List.sorted_cons.mpr ⟨?_, sorted_orderedInsert_recLess a l hs.of_cons hal⟩
      intro c hc
      rcases (List.mem_orderedInsert recLess).mp hc with e | e
      · subst e; exact hba
      · exact List.rel_of_sorted_cons hs c e

theorem sorted_insertionSort_recLess :
    ∀ l : List (Int × Nat), l.Nodup → (l.insertionSort recLess).Sorted recLess
  | [], _ => by simp
  | a :: l, h => by
    rw [List.insertionSort]
    have h2 := List.nodup_cons.mp h
    exact sorted_orderedInsert_recLess a _ (sorted_insertionSort_recLess l h2.2)
      (fun hm => h2.1 ((List.mem_insertionSort recLess).mp hm))

theorem insertionSort_recLess_perm {l l' : List (Int × Nat)} (hn : l.Nodup) (hp : l.Perm l') :
    l.insertionSort recLess = l'.insertionSort recLess := by
  have hn' : l'.Nodup := hp.nodup_iff.mp hn
  have hp' : (l.insertionSort recLess).Perm (l'.insertionSort recLess) :=
    ((List.perm_insertionSort recLess l).trans hp).trans (List.perm_insertionSort recLess l').symm
  exact @List.eq_of_perm_of_sorted _ recLess ⟨fun a b h1 h2 => (recLess_asymm h1 h2).elim⟩ _ _ hp'
    (sorted_insertionSort_recLess l hn) (sorted_insertionSort_recLess l' hn')

theorem mutualFriendsCount_eq_card {g : Graph} (h : g.Valid) (x y : Int) :
    g.mutualFriendsCount x y = ((g.neighbors x).toFinset ∩ (g.neighbors y).toFinset).card := by
  unfold Graph.mutualFriendsCount
  simp only
  split
  · exact countP_mem_eq_card_inter (h.nodup_neighbors x)
  · rw [countP_mem_eq_card_inter (h.nodup_neighbors y), Finset.inter_comm]

theorem Reorder.mutualFriendsCount_eq {g g' : Graph} (h : g.Reorder g') (hv : g.Valid)
    (x y : Int) : g'.mutualFriendsCount x y = g.mutualFriendsCount x y := by
  rw [mutualFriendsCount_eq_card hv, mutualFriendsCount_eq_card (h.valid hv),
    List.toFinset_eq_of_perm _ _ (h.2 x), List.toFinset_eq_of_perm _ _ (h.2 y)]

theorem Reorder.candidate_eq {g g' : Graph} (h : g.Reorder g') (hv : g.Valid) (u v : Int) :
    g'.candidate u (setInsert (g'.neighbors u) u) v =
      g.candidate u (setInsert (g.neighbors u) u) v := by
  unfold candidate
  have e : v ∈ setInsert (g'.neighbors u) u ↔ v ∈ setInsert (g.neighbors u) u := by
    rw [mem_setInsert, mem_setInsert, h.mem_neighbors]
  simp only [e, h.mutualFriendsCount_eq hv]

/-- The result of `recommendFriends` does not depend on the iteration order of the
hash containers. -/
theorem Reorder.recommendFriends_eq {g g' : Graph} (h : g.Reorder g') (hv : g.Valid)
    (u K : Int) : g'.recommendFriends u K = g.recommendFriends u K := by
  have hc : (collectCandidates g' u (setInsert (g'.neighbors u) u) g'.getUsers []).insertionSort
      recLess = (collectCandidates g u (setInsert (g.neighbors u) u) g.getUsers []).insertionSort
      recLess := by
    rw [collectCandidates_eq, collectCandidates_eq, List.nil_append, List.nil_append]
    have e : g'.candidate u (setInsert (g'.neighbors u) u) =
        g.candidate u (setInsert (g.neighbors u) u) := funext (h.candidate_eq hv u)
    rw [e]
    exact (insertionSort_recLess_perm (nodup_candidates hv.1 u _)
      (List.Perm.filterMap _ h.1)).symm
  unfold recommendFriends
  simp only [h.hasUser_eq, hc]

/-! ### Integer conversions in `recommendFriends` -/

theorem toInt32_of_lt {n : Nat} (h : n < 2 ^ 31) : toInt32 n = n := by
  unfold toInt32
  norm_num at h ⊢
  omega

theorem toSizeT_of_neg {K : Int} (h1 : K < 0) (h2 : -2 ^ 31 ≤ K) :
    vectorMaxSize < toSizeT K ∧ 2 ^ 31 ≤ toSizeT K := by
  unfold toSizeT vectorMaxSize
  have : K % 2 ^ 64 = K + 2 ^ 64 := by
    norm_num at h2 ⊢
    omega
  rw [this]
  norm_num at h2 ⊢
  omega

theorem length_candidates_le (g : Graph) (u : Int) (excl : List Int) :
    ((collectCandidates g u excl g.getUsers []).insertionSort recLess).length ≤
      g.adj.length := by
  rw [List.length_insertionSort, collectCandidates_eq, List.nil_append]
  have := List.length_filterMap_le (g.candidate u excl) g.getUsers
  simpa [getUsers, IntMap.keys] using this

/-- Every negative `K` makes `recommendFriends` throw for a known user (graphs with fewer
than `2^31` users, `K` in the range of `int`). -/
theorem recommendFriends_of_neg (g : Graph) (hn : g.adj.length < 2 ^ 31) (u : Int)
    (hu : g.hasUser u = true) (K : Int) (h1 : K < 0) (h2 : -2 ^ 31 ≤ K) :
    g.recommendFriends u K = .error Error.lengthError := by
  have hl := length_candidates_le g u (setInsert (g.neighbors u) u)
  have h3 := toSizeT_of_neg h1 h2
  unfold recommendFriends
  simp only [hu, Bool.not_true, Bool.false_eq_true, if_false]
  rw [toInt32_of_lt (lt_of_le_of_lt hl hn)]
  have h4 : K < ((((collectCandidates g u (setInsert (g.neighbors u) u) g.getUsers
      []).insertionSort recLess).length : Nat) : Int) := by omega
  rw [if_pos h4]
  unfold vectorResize
  rw [if_neg (by omega), if_pos h3.1]

/-- `K = 0` gives the empty list (graphs with fewer than `2^31` users). -/
theorem recommendFriends_zero (g : Graph) (hn : g.adj.length < 2 ^ 31) (u : Int) :
    g.recommendFriends u 0 = .ok [] := by
  have hl := length_candidates_le g u (setInsert (g.neighbors u) u)
  unfold recommendFriends
  split
  · rfl
  · simp only
    rw [toInt32_of_lt (lt_of_le_of_lt hl hn)]
    split
    · simp [vectorResize, toSizeT]
    · rename_i h
      have : ((collectCandidates g u (setInsert (g.neighbors u) u) g.getUsers
          []).insertionSort recLess).length = 0 := by omega
      rw [List.length_eq_zero.mp this]

/-! ### Ranking of the candidates -/

theorem recLess_iff_before (a b : Int × Nat) : recLess a b ↔ Before a b := by
  unfold recLess Before
  split <;> omega

theorem toInt32_bounds (n : Nat) : toInt32 n < 2 ^ 31 ∧ toInt32 n ≤ n := by
  unfold toInt32
  norm_num
  omega

theorem toSizeT_of_nonneg {K : Int} (h1 : 0 ≤ K) (h2 : K < 2 ^ 31) : toSizeT K = K.toNat := by
  unfold toSizeT
  have : K % 2 ^ 64 = K := by
    norm_num at h2 ⊢
    omega
  rw [this]

theorem candidate_eq_some_iff (g : Graph) (u v : Int) (p : Int × Nat) :
    g.candidate u (setInsert (g.neighbors u) u) v = some p ↔
      (v ≠ u ∧ v ∉ g.neighbors u ∧ 0 < g.mutualFriendsCount u v) ∧
        p = (v, g.mutualFriendsCount u v) := by
  have hm := mem_setInsert (g.neighbors u) u v
  unfold candidate
  by_cases h1 : v ∈ g.neighbors u
  · have : v ∈ setInsert (g.neighbors u) u := hm.mpr (Or.inl h1)
    rw [if_pos this]
    simp [h1]
  · by_cases h2 : v = u
    · have : v ∈ setInsert (g.neighbors u) u := hm.mpr (Or.inr h2)
      rw [if_pos this]
      simp [h2]
    · have : v ∉ setInsert (g.neighbors u) u := fun h => (hm.mp h).elim h1 h2
      by_cases h3 : 0 < g.mutualFriendsCount u v
      · simp [h1, h2, h3, this, eq_comm]
      · simp [h1, h2, h3, this]

theorem filterMap_candidate_eq (g : Graph) (u : Int) (l : List Int) :
    l.filterMap (g.candidate u (setInsert (g.neighbors u) u)) =
      (l.filter fun v =>
        decide (v ≠ u ∧ v ∉ g.neighbors u ∧ 0 < g.mutualFriendsCount u v)).map
        fun v => (v, g.mutualFriendsCount u v) := by
  induction l with
  | nil => rfl
  | cons v l ih =>
    rw [List.filterMap_cons, List.filter_cons]
    by_cases h : v ≠ u ∧ v ∉ g.neighbors u ∧ 0 < g.mutualFriendsCount u v
    · have := (candidate_eq_some_iff g u v (v, g.mutualFriendsCount u v)).mpr ⟨h, rfl⟩
      have hd : decide (v ≠ u ∧ v ∉ g.neighbors u ∧ 0 < g.mutualFriendsCount u v) = true :=
        decide_eq_true h
      rw [this, hd]
      simp only [if_true, List.map_cons, ih]
    · have hn : g.candidate u (setInsert (g.neighbors u) u) v = none := by
        cases hc : g.candidate u (setInsert (g.neighbors u) u) v with
        | none => rfl
        | some p => exact absurd ((candidate_eq_some_iff g u v p).mp hc).1 h
      have hd : decide (v ≠ u ∧ v ∉ g.neighbors u ∧ 0 < g.mutualFriendsCount u v) = false :=
        decide_eq_false h
      rw [hn, hd]
      simp only [Bool.false_eq_true, if_false, ih]

theorem ranked_perm (g : Graph) (u : Int) :
    (g.ranked u).Perm ((g.qualifying u).map fun v => (v, g.mutualFriendsCount u v)) := by
  unfold ranked qualifying
  rw [← filterMap_candidate_eq]
  exact List.perm_insertionSort _ _

theorem length_ranked (g : Graph) (u : Int) : (g.ranked u).length = (g.qualifying u).length := by
  simpa using (ranked_perm g u).length_eq

theorem sorted_ranked {g : Graph} (hv : g.Valid) (u : Int) : (g.ranked u).Sorted recLess :=
  sorted_insertionSort_recLess _ (nodup_candidates hv.1 u _)

theorem nodup_qualifying {g : Graph} (hv : g.Valid) (u : Int) : (g.qualifying u).Nodup :=
  hv.1.filter _

/-- For `K ≥ 0` the result of `recommendFriends` is a prefix of the sorted candidate list;
the prefix has `K` entries when the list is longer than `K` and its length fits in `int`. -/
theorem recommendFriends_eq_take (g : Graph) (u : Int) (hu : g.hasUser u = true) (K : Int)
    (hK : 0 ≤ K) :
    ∃ n, g.recommendFriends u K = .ok ((g.ranked u).take n) ∧
      ((g.ranked u).length < 2 ^ 31 → n = K.toNat) := by
  have hb := toInt32_bounds (g.ranked u).length
  have hr : g.recommendFriends u K =
      if K < toInt32 (g.ranked u).length then vectorResize (g.ranked u) (toSizeT K)
      else .ok (g.ranked u) := by
    unfold recommendFriends ranked
    simp only [hu, Bool.not_true, Bool.false_eq_true, if_false, collectCandidates_eq,
      List.nil_append]
  rw [hr]
  by_cases hlt : K < toInt32 (g.ranked u).length
  · rw [if_pos hlt, toSizeT_of_nonneg hK (by omega)]
    refine ⟨K.toNat, ?_, fun _ => rfl⟩
    unfold vectorResize
    rw [if_pos (by omega)]
  · rw [if_neg hlt]
    by_cases hlen : (g.ranked u).length < 2 ^ 31
    · refine ⟨K.toNat, ?_, fun _ => rfl⟩
      rw [toInt32_of_lt hlen] at hlt
      rw [List.take_of_length_le (by omega)]
    · exact ⟨(g.ranked u).length, by rw [List.take_length], fun h => absurd h hlen⟩

theorem recommendFriends_unknown (g : Graph) (u : Int) (hu : ¬ g.hasUser u = true) (K : Int) :
    g.recommendFriends u K = .ok [] := by
  unfold recommendFriends
  simp [hu]

theorem mem_ranked {g : Graph} {u : Int} {p : Int × Nat} (h : p ∈ g.ranked u) :
    g.hasUser p.1 = true ∧ p.1 ≠ u ∧ p.1 ∉ g.neighbors u ∧
      p.2 = g.mutualFriendsCount u p.1 ∧ 0 < p.2 := by
  unfold ranked at h
  rw [List.mem_insertionSort, List.mem_filterMap] at h
  obtain ⟨v, hv, hc⟩ := h
  obtain ⟨⟨h1, h2, h3⟩, rfl⟩ := (candidate_eq_some_iff g u v p).mp hc
  exact ⟨(hasUser_iff g v).mpr hv, h1, h2, rfl, h3⟩

theorem pairwise_before_ranked {g : Graph} (hv : g.Valid) (u : Int) :
    (g.ranked u).Pairwise Before :=
  (sorted_ranked hv u).imp fun h => (recLess_iff_before _ _).mp h

theorem nodup_fst_ranked {g : Graph} (hv : g.Valid) (u : Int) :
    ((g.ranked u).map Prod.fst).Nodup := by
  have h1 : ((g.getUsers.filterMap (g.candidate u (setInsert (g.neighbors u) u))).map
      Prod.fst).Nodup := hv.1.sublist (map_fst_filterMap_candidate g u _ g.adj.keys)
  exact ((List.perm_insertionSort recLess _).map Prod.fst).nodup_iff.mpr h1

/-! ### The truncation step and the range of `int` -/

/-- Truncation within the range of `int`: for a known user `u`, `K ≥ 0` and a candidate set
`C` of fewer than `2^31` elements, `recommendFriends(u, K)` has exactly `min(K, |C|)`
entries, every qualifying candidate it omits ranks after every returned entry, and the
result is the first `K` entries of any listing of the candidates sorted by (count
descending, identifier ascending), whatever the order in which the users are enumerated. -/
theorem recommendFriends_top_K (g : Graph) (hv : g.Valid) (u : Int) (hu : g.hasUser u = true)
    (K : Int) (hK : 0 ≤ K) (hC : (g.qualifying u).length < 2 ^ 31) :
    ∃ res, g.recommendFriends u K = .ok res ∧
      (g.qualifying u).Nodup ∧
      (∀ v, v ∈ g.qualifying u ↔ (g.hasUser v = true ∧ v ≠ u ∧ v ∉ g.neighbors u ∧
        0 < g.mutualFriendsCount u v)) ∧
      res.length = min K.toNat (g.qualifying u).length ∧
      (∀ v ∈ g.qualifying u, v ∉ res.map Prod.fst → ∀ p ∈ res,
        p.2 > g.mutualFriendsCount u v ∨ (p.2 = g.mutualFriendsCount u v ∧ p.1 < v)) ∧
      (∀ l : List (Int × Nat),
        l.Perm ((g.qualifying u).map fun v => (v, g.mutualFriendsCount u v)) →
        l.Pairwise (fun a b => a.2 > b.2 ∨ (a.2 = b.2 ∧ a.1 < b.1)) →
        res = l.take K.toNat) ∧
      (∀ g', g.Reorder g' → g'.recommendFriends u K = .ok res) := by
  obtain ⟨n, hn, hnK⟩ := Graph.recommendFriends_eq_take g u hu K hK
  have hlen := Graph.length_ranked g u
  have hnK' : n = K.toNat := hnK (by rw [hlen]; exact hC)
  subst hnK'
  have hpw := Graph.pairwise_before_ranked hv u
  refine ⟨_, hn, Graph.nodup_qualifying hv u, ?_, ?_, ?_, ?_, ?_⟩
  · intro v
    unfold Graph.qualifying
    rw [List.mem_filter, decide_eq_true_eq, Graph.hasUser_iff]
    rfl
  · rw [List.length_take, hlen]
  · intro v hvq hvr p hp
    have hvm : (v, g.mutualFriendsCount u v) ∈ g.ranked u :=
      (Graph.ranked_perm g u).mem_iff.mpr (List.mem_map.mpr ⟨v, hvq, rfl⟩)
    rw [← List.take_append_drop K.toNat (g.ranked u)] at hvm hpw
    rcases List.mem_append.mp hvm with h1 | h1
    · exact absurd (List.mem_map.mpr ⟨_, h1, rfl⟩) hvr
    · exact (List.pairwise_append.mp hpw).2.2 p hp _ h1
  · intro l hl hs
    have hs' : l.Sorted recLess := hs.imp fun h => (Graph.recLess_iff_before _ _).mpr h
    have := @List.eq_of_perm_of_sorted _ recLess
      ⟨fun a b h1 h2 => (Graph.recLess_asymm h1 h2).elim⟩ _ _
      ((Graph.ranked_perm g u).trans hl.symm) (Graph.sorted_ranked hv u) hs'
    rw [this]
  · intro g' hg'
    rw [hg'.recommendFriends_eq hv, hn]

/-- Instance: the graph with the friendships `1 - 2`, `3 - 2`, `4 - 2`, user 1, `K = 1`:
the result is `[(3, 1)]`, the first of the two candidates. -/
theorem recommendFriends_top_K_witness :
    (((Graph.empty.addFriendship 1 2).addFriendship 3 2).addFriendship 4 2).Valid ∧
    (((Graph.empty.addFriendship 1 2).addFriendship 3 2).addFriendship 4 2).hasUser 1 = true ∧
    (0 : Int) ≤ 1 ∧
    ((((Graph.empty.addFriendship 1 2).addFriendship 3 2).addFriendship 4 2).qualifying 1).length
      < 2 ^ 31 ∧
    (((Graph.empty.addFriendship 1 2).addFriendship 3 2).addFriendship 4 2).recommendFriends 1 1 =
      .ok [(3, 1)] := by
  refine ⟨by decide, by decide, by decide, by decide, ?_⟩
  obtain ⟨res, h1, _, _, _, _, h2, _⟩ :=
    recommendFriends_top_K (((Graph.empty.addFriendship 1 2).addFriendship 3 2).addFriendship 4 2)
      (by decide) 1 (by decide) 1 (by decide) (by decide)
  rw [h1, h2 [(3, 1), (4, 1)] (by decide) (by decide)]
  rfl

theorem reachable_foldl_addFriendship (c : Int) (l : List Int) :
    ∀ g : Graph, g.Reachable → (l.foldl (fun g t => g.addFriendship t c) g).Reachable := by
  induction l with
  | nil => exact fun g h => h
  | cons t l ih => exact fun g h => ih _ (Reachable.addFriendship t c h)

theorem hasUser_foldl_addFriendship (c : Int) (l : List Int) :
    ∀ (g : Graph) (x : Int), g.hasUser c = true →
      ((l.foldl (fun g t => g.addFriendship t c) g).hasUser x = true ↔
        g.hasUser x = true ∨ x ∈ l) := by
  induction l with
  | nil => intro g x _; simp
  | cons t l ih =>
    intro g x hc
    rw [List.foldl_cons, ih _ x ((hasUser_addFriendship g t c c).mpr (Or.inl hc)),
      hasUser_addFriendship, List.mem_cons]
    constructor
    · rintro ((h | h | h) | h)
      · exact Or.inl h
      · exact Or.inr (Or.inl h)
      · exact Or.inl (h ▸ hc)
      · exact Or.inr (Or.inr h)
    · rintro (h | h | h)
      · exact Or.inl (Or.inl h)
      · exact Or.inl (Or.inr (Or.inl h))
      · exact Or.inr h

theorem mem_neighbors_foldl_addFriendship (c : Int) (l : List Int) :
    ∀ (g : Graph) (x y : Int),
      y ∈ (l.foldl (fun g t => g.addFriendship t c) g).neighbors x ↔
        y ∈ g.neighbors x ∨ (x ∈ l ∧ y = c) ∨ (x = c ∧ y ∈ l) := by
  induction l with
  | nil => intro g x y; simp
  | cons t l ih =>
    intro g x y
    rw [List.foldl_cons, ih, mem_neighbors_addFriendship, List.mem_cons, List.mem_cons]
    tauto

theorem mem_qualifying (g : Graph) (u v : Int) :
    v ∈ g.qualifying u ↔ (g.hasUser v = true ∧ v ≠ u ∧ v ∉ g.neighbors u ∧
      0 < g.mutualFriendsCount u v) := by
  unfold qualifying
  rw [List.mem_filter, decide_eq_true_eq, hasUser_iff]
  rfl

theorem mutualFriendsCount_pos_iff {g : Graph} (hv : g.Valid) (x y : Int) :
    0 < g.mutualFriendsCount x y ↔ ∃ w, w ∈ g.neighbors x ∧ w ∈ g.neighbors y := by
  rw [mutualFriendsCount_eq_card hv, Finset.card_pos]
  constructor
  · rintro ⟨w, hw⟩
    rw [Finset.mem_inter, List.mem_toFinset, List.mem_toFinset] at hw
    exact ⟨w, hw⟩
  · rintro ⟨w, hw⟩
    exact ⟨w, by rw [Finset.mem_inter, List.mem_toFinset, List.mem_toFinset]; exact hw⟩

/-- When the number of candidates is in `[2^31, 2^32)`, the cast `(int)candidates.size()` is
negative, the test `(int)candidates.size() > K` fails for every `K ≥ 0`, and the whole sorted
list is returned. -/
theorem recommendFriends_of_wrap (g : Graph) (u : Int) (hu : g.hasUser u = true) (K : Int)
    (hK : 0 ≤ K) (h1 : 2 ^ 31 ≤ (g.ranked u).length) (h2 : (g.ranked u).length < 2 ^ 32) :
    g.recommendFriends u K = .ok (g.ranked u) := by
  have hr : g.recommendFriends u K =
      if K < toInt32 (g.ranked u).length then vectorResize (g.ranked u) (toSizeT K)
      else .ok (g.ranked u) := by
    unfold recommendFriends ranked
    simp only [hu, Bool.not_true, Bool.false_eq_true, if_false, collectCandidates_eq,
      List.nil_append]
  have hneg : toInt32 (g.ranked u).length < 0 := by
    unfold toInt32
    norm_num at h1 h2 ⊢
    omega
  rw [hr, if_neg (by omega)]

theorem reachable_starGraph (n : Nat) : (starGraph n).Reachable :=
  reachable_foldl_addFriendship 1 _ _ (Reachable.addFriendship 0 1 Reachable.empty)

theorem hasUser_starGraph (n : Nat) (x : Int) :
    (starGraph n).hasUser x = true ↔ x = 0 ∨ x = 1 ∨ (-(n : Int) ≤ x ∧ x < 0) := by
  unfold starGraph
  rw [hasUser_foldl_addFriendship 1 _ _ x (by decide), hasUser_addFriendship, List.mem_map]
  constructor
  · rintro ((h | h | h) | ⟨i, hi, rfl⟩)
    · cases h
    · exact Or.inl h
    · exact Or.inr (Or.inl h)
    · rw [List.mem_range] at hi
      exact Or.inr (Or.inr ⟨by omega, by omega⟩)
  · rintro (h | h | ⟨h1, h2⟩)
    · exact Or.inl (Or.inr (Or.inl h))
    · exact Or.inl (Or.inr (Or.inr h))
    · exact Or.inr ⟨(x + n).toNat, List.mem_range.mpr (by omega), by omega⟩

theorem mem_neighbors_starGraph (n : Nat) (x y : Int) :
    y ∈ (starGraph n).neighbors x ↔
      (x = 0 ∧ y = 1) ∨ (x = 1 ∧ y = 0) ∨ ((-(n : Int) ≤ x ∧ x < 0) ∧ y = 1) ∨
        (x = 1 ∧ (-(n : Int) ≤ y ∧ y < 0)) := by
  have hm : ∀ z : Int, z ∈ ((List.range n).map fun i : Nat => (i : Int) - n) ↔
      (-(n : Int) ≤ z ∧ z < 0) := by
    intro z
    rw [List.mem_map]
    constructor
    · rintro ⟨i, hi, rfl⟩
      rw [List.mem_range] at hi
      exact ⟨by omega, by omega⟩
    · rintro ⟨h1, h2⟩
      exact ⟨(z + n).toNat, List.mem_range.mpr (by omega), by omega⟩
  unfold starGraph
  rw [mem_neighbors_foldl_addFriendship, mem_neighbors_addFriendship, hm, hm]
  have : y ∉ Graph.empty.neighbors x := by simp [Graph.empty, neighbors, IntMap.find?]
  tauto

theorem mem_qualifying_starGraph (n : Nat) (v : Int) :
    v ∈ (starGraph n).qualifying 0 ↔ (-(n : Int) ≤ v ∧ v < 0) := by
  have hv := (reachable_starGraph n).wf.valid
  rw [mem_qualifying, hasUser_starGraph, mutualFriendsCount_pos_iff hv, mem_neighbors_starGraph]
  constructor
  · rintro ⟨h1 | h1 | h1, h2, h3, _⟩
    · exact absurd h1 h2
    · exact absurd (Or.inl ⟨rfl, h1⟩) h3
    · exact h1
  · intro h
    refine ⟨Or.inr (Or.inr h), by omega, ?_, 1, ?_, ?_⟩
    · rintro (⟨_, h1⟩ | ⟨h1, _⟩ | ⟨⟨_, h1⟩, _⟩ | ⟨h1, _⟩) <;> omega
    · rw [mem_neighbors_starGraph]; exact Or.inl ⟨rfl, rfl⟩
    · rw [mem_neighbors_starGraph]; exact Or.inr (Or.inr (Or.inl ⟨h, rfl⟩))

theorem length_qualifying_starGraph (n : Nat) : ((starGraph n).qualifying 0).length = n := by
  have hv := (reachable_starGraph n).wf.valid
  have hn : ((List.range n).map fun i : Nat => (i : Int) - n).Nodup :=
    (List.nodup_range n).map fun a b h => by
      have h' : (a : Int) - n = (b : Int) - n := h
      omega
  have hp : ((starGraph n).qualifying 0).Perm ((List.range n).map fun i : Nat => (i : Int) - n) := by
    rw [List.perm_ext_iff_of_nodup (nodup_qualifying hv 0) hn]
    intro v
    rw [mem_qualifying_starGraph, List.mem_map]
    constructor
    · rintro ⟨h1, h2⟩
      exact ⟨(v + n).toNat, List.mem_range.mpr (by omega), by omega⟩
    · rintro ⟨i, hi, rfl⟩
      rw [List.mem_range] at hi
      exact ⟨by omega, by omega⟩
  rw [hp.length_eq, List.length_map, List.length_range]

/-! ### Breadth-first search -/

theorem length_setInsert_of_not_mem {s : List Int} {v : Int} (h : v ∉ s) :
    (setInsert s v).length = s.length + 1 := by
  simp [setInsert, h]

theorem BfsInv.visit {g : Graph} {src u v : Int} {st : BfsState} (hw : g.WF)
    (hst : g.BfsInv src st) (hu : g.Connected src u) (hv : v ∈ g.neighbors u) :
    g.BfsInv src
      { parent := st.parent.set v u, queue := st.queue ++ [v],
        visited := setInsert st.visited v } := by
  refine ⟨nodup_setInsert hst.nodupVisited v, ?_, ?_, ?_⟩
  · intro w hw1
    rcases (mem_setInsert _ _ _).mp hw1 with h1 | h1
    · exact hst.known w h1
    · subst h1; exact hw.closed u w hv
  · intro w hw1
    rcases (mem_setInsert _ _ _).mp hw1 with h1 | h1
    · exact hst.connected w h1
    · subst h1; exact Relation.ReflTransGen.tail hu hv
  · intro w hw1
    rcases List.mem_append.mp hw1 with h1 | h1
    · exact (mem_setInsert _ _ _).mpr (Or.inl (hst.queueVisited w h1))
    · exact (mem_setInsert _ _ _).mpr (Or.inr (List.mem_singleton.mp h1))

theorem visitNeighbors_inv {g : Graph} {src u : Int} (hw : g.WF) (hu : g.Connected src u) :
    ∀ (vs : List Int) (st : BfsState), (∀ v ∈ vs, v ∈ g.neighbors u) → g.BfsInv src st →
      g.BfsInv src (visitNeighbors u vs st) ∧
      (visitNeighbors u vs st).queue.length + st.visited.length =
        st.queue.length + (visitNeighbors u vs st).visited.length
  | [], st, _, hst => ⟨hst, rfl⟩
  | v :: vs, st, hvs, hst => by
    have hv : v ∈ g.neighbors u := hvs v (List.mem_cons_self _ _)
    have hrest : ∀ w ∈ vs, w ∈ g.neighbors u := fun w hw => hvs w (List.mem_cons_of_mem _ hw)
    by_cases hmem : v ∈ st.visited
    · simp only [visitNeighbors, hmem, if_true]
      exact visitNeighbors_inv hw hu vs st hrest hst
    · simp only [visitNeighbors, hmem, if_false]
      obtain ⟨h1, h2⟩ := visitNeighbors_inv hw hu vs _ hrest (hst.visit hw hu hv)
      refine ⟨h1, ?_⟩
      simp only [List.length_append, List.length_singleton,
        length_setInsert_of_not_mem hmem] at h2
      omega

theorem BfsInv.length_visited_le {g : Graph} {src : Int} {st : BfsState}
    (h : g.BfsInv src st) : st.visited.length ≤ g.adj.length := by
  have hsub : st.visited ⊆ g.adj.keys := fun v hv => (hasUser_iff g v).mp (h.known v hv)
  have := (List.subperm_of_subset h.nodupVisited hsub).length_le
  simpa [IntMap.keys] using this

theorem bfsLoop_inv {g : Graph} {src : Int} (dst : Int) (hw : g.WF) :
    ∀ (fuel : Nat) (st : BfsState), g.BfsInv src st →
      st.queue.length + (g.adj.length - st.visited.length) < fuel →
      ∃ st', bfsLoop g dst fuel st = some st' ∧ g.BfsInv src st'
  | 0, _, _, hlt => by omega
  | fuel + 1, st, hst, hlt => by
    unfold bfsLoop
    cases hq : st.queue with
    | nil => exact ⟨st, rfl, hst⟩
    | cons u q =>
      have hpop : g.BfsInv src { st with queue := q } :=
        ⟨hst.nodupVisited, hst.known, hst.connected,
          fun v hv => hst.queueVisited v (hq ▸ List.mem_cons_of_mem _ hv)⟩
      by_cases hd : u = dst
      · exact ⟨{ st with queue := q }, by simp [hd], hpop⟩
      · simp only [hd, if_false]
        have huv : u ∈ st.visited := hst.queueVisited u (hq ▸ List.mem_cons_self _ _)
        obtain ⟨h1, h2⟩ := visitNeighbors_inv hw (hst.connected u huv) (g.neighbors u)
          { st with queue := q } (fun _ h => h) hpop
        apply bfsLoop_inv dst hw fuel _ h1
        have h3 := h1.length_visited_le
        have h4 := hst.length_visited_le
        simp only [hq, List.length_cons] at hlt
        simp only at h2
        omega

theorem length_pos_of_hasUser {g : Graph} {u : Int} (h : g.hasUser u = true) :
    0 < g.adj.length := by
  have h1 := (hasUser_iff g u).mp h
  have h2 := List.length_pos_of_mem h1
  simpa [IntMap.keys] using h2

theorem bfsLoop_start {g : Graph} (hw : g.WF) {src : Int} (hs : g.hasUser src = true)
    (dst : Int) :
    ∃ st', bfsLoop g dst (g.adj.length + 1)
        { parent := [(src, -1)], queue := [src], visited := [src] } = some st' ∧
      g.BfsInv src st' := by
  apply bfsLoop_inv dst hw
  · refine ⟨List.nodup_singleton src, ?_, ?_, ?_⟩
    · intro v hv; rw [List.mem_singleton.mp hv]; exact hs
    · intro v hv; rw [List.mem_singleton.mp hv]; exact Relation.ReflTransGen.refl
    · intro v hv; exact hv
  · have := length_pos_of_hasUser hs
    simp only [List.length_singleton]
    omega

/-! ### The search tree -/

theorem BfsTree.visit_tree {g : Graph} {src u v : Int} {d : Int → Nat} {st : BfsState} (hw : g.WF)
    (h : g.BfsTree src d st) (hu : u ∈ st.visited) (hv : v ∉ st.visited)
    (huv : v ∈ g.neighbors u) :
    g.BfsTree src (Function.update d v (d u + 1))
      { parent := st.parent.set v u, queue := st.queue ++ [v],
        visited := setInsert st.visited v } := by
  have hd : ∀ x ∈ st.visited, Function.update d v (d u + 1) x = d x := by
    intro x hx
    have hxv : x ≠ v := fun e => hv (e ▸ hx)
    exact Function.update_noteq hxv _ _
  have hdv : Function.update d v (d u + 1) v = d u + 1 := Function.update_same _ _ _
  have hne : ∀ x ∈ st.visited, ¬ v = x := fun x hx e => hv (e ▸ hx)
  refine ⟨h.base.visit hw (h.base.connected u hu) huv, ?_, ?_, ?_, ?_, ?_⟩
  · exact (mem_setInsert _ _ _).mpr (Or.inl h.srcVisited)
  · show (st.parent.set v u).find? src = some (-1)
    rw [IntMap.find?_set, if_neg (hne src h.srcVisited)]; exact h.srcParent
  · rw [hd src h.srcVisited]; exact h.dSrc
  · intro x hx hxs
    rcases (mem_setInsert _ _ _).mp hx with hx | hx
    · obtain ⟨p, h1, h2, h3, h4⟩ := h.tree x hx hxs
      refine ⟨p, ?_, (mem_setInsert _ _ _).mpr (Or.inl h2), h3, ?_⟩
      · show (st.parent.set v u).find? x = some p
        rw [IntMap.find?_set, if_neg (hne x hx)]; exact h1
      · rw [hd x hx, hd p h2]; exact h4
    · subst hx
      refine ⟨u, ?_, (mem_setInsert _ _ _).mpr (Or.inl hu), huv, ?_⟩
      · show (st.parent.set x u).find? x = some u
        rw [IntMap.find?_set, if_pos rfl]
      · rw [hdv, hd u hu]
  · intro x hx
    show _ < (setInsert st.visited v).length
    rw [length_setInsert_of_not_mem hv]
    rcases (mem_setInsert _ _ _).mp hx with hx | hx
    · rw [hd x hx]; have := h.depthLt x hx; omega
    · subst hx; rw [hdv]; have := h.depthLt u hu; omega

theorem BfsInner.visit_inner {g : Graph} {src u v : Int} {d : Int → Nat} {st : BfsState} (hw : g.WF)
    (h : g.BfsInner src d u st) (hv : v ∉ st.visited) (huv : v ∈ g.neighbors u) :
    g.BfsInner src (Function.update d v (d u + 1)) u
      { parent := st.parent.set v u, queue := st.queue ++ [v],
        visited := setInsert st.visited v } := by
  have hd : ∀ x ∈ st.visited, Function.update d v (d u + 1) x = d x := by
    intro x hx
    have hxv : x ≠ v := fun e => hv (e ▸ hx)
    exact Function.update_noteq hxv _ _
  have hdv : Function.update d v (d u + 1) v = d u + 1 := Function.update_same _ _ _
  have hdu := hd u h.uVisited
  have hq : ∀ x ∈ st.queue, x ∈ st.visited := h.toTree.base.queueVisited
  refine ⟨h.toTree.visit_tree hw h.uVisited hv huv, (mem_setInsert _ _ _).mpr (Or.inl h.uVisited),
    ?_, ?_, ?_, ?_⟩
  · show (st.queue ++ [v]).Pairwise _
    rw [List.pairwise_append]
    refine ⟨?_, List.pairwise_singleton _ _, ?_⟩
    · exact h.sorted.imp_of_mem fun ha hb hab => by
        rw [hd _ (hq _ ha), hd _ (hq _ hb)]; exact hab
    · intro a ha b hb
      rw [List.mem_singleton.mp hb, hdv, hd a (hq a ha)]
      exact h.upper a (hq a ha)
  · intro x hx
    rw [hdu]
    rcases (mem_setInsert _ _ _).mp hx with hx | hx
    · rw [hd x hx]; exact h.upper x hx
    · subst hx; rw [hdv]
  · intro x hx
    rw [hdu]
    rcases List.mem_append.mp hx with hx | hx
    · rw [hd x (hq x hx)]; exact h.lower x hx
    · rw [List.mem_singleton.mp hx, hdv]; omega
  · intro x hx hxq hxu w hxw
    have hxq1 : x ∉ st.queue := fun e => hxq (List.mem_append.mpr (Or.inl e))
    have hxv : x ≠ v := fun e => hxq (List.mem_append.mpr (Or.inr (List.mem_singleton.mpr e)))
    have hx1 : x ∈ st.visited := ((mem_setInsert _ _ _).mp hx).resolve_right hxv
    obtain ⟨h1, h2⟩ := h.processed x hx1 hxq1 hxu w hxw
    exact ⟨(mem_setInsert _ _ _).mpr (Or.inl h1), by rw [hd w h1, hd x hx1]; exact h2⟩

theorem visitNeighbors_tree {g : Graph} {src u : Int} (hw : g.WF) :
    ∀ (vs : List Int) (st : BfsState) (d : Int → Nat), g.BfsInner src d u st →
      (∀ v ∈ vs, v ∈ g.neighbors u) →
      ∃ d', g.BfsInner src d' u (visitNeighbors u vs st) ∧
        (∀ x ∈ st.visited, x ∈ (visitNeighbors u vs st).visited) ∧
        (∀ v ∈ vs, v ∈ (visitNeighbors u vs st).visited)
  | [], st, d, h, _ => ⟨d, h, fun _ hx => hx, fun _ hv => by simp at hv⟩
  | v :: vs, st, d, h, hvs => by
    have hv : v ∈ g.neighbors u := hvs v (List.mem_cons_self _ _)
    have hrest : ∀ w ∈ vs, w ∈ g.neighbors u := fun w hw => hvs w (List.mem_cons_of_mem _ hw)
    by_cases hmem : v ∈ st.visited
    · simp only [visitNeighbors, hmem, if_true]
      obtain ⟨d', h1, h2, h3⟩ := visitNeighbors_tree hw vs st d h hrest
      refine ⟨d', h1, h2, fun w hw1 => ?_⟩
      rcases List.mem_cons.mp hw1 with e | e
      · subst e; exact h2 w hmem
      · exact h3 w e
    · simp only [visitNeighbors, hmem, if_false]
      obtain ⟨d', h1, h2, h3⟩ := visitNeighbors_tree hw vs _ _ (h.visit_inner hw hmem hv) hrest
      refine ⟨d', h1, fun x hx => h2 x ((mem_setInsert _ _ _).mpr (Or.inl hx)), fun w hw1 => ?_⟩
      rcases List.mem_cons.mp hw1 with e | e
      · subst e; exact h2 w ((mem_setInsert _ _ _).mpr (Or.inr rfl))
      · exact h3 w e

theorem BfsTree.pop_tree {g : Graph} {src : Int} {d : Int → Nat} {st : BfsState} {u : Int}
    {q : List Int} (h : g.BfsTree src d st) (hq : st.queue = u :: q) :
    g.BfsTree src d { st with queue := q } :=
  ⟨⟨h.base.nodupVisited, h.base.known, h.base.connected,
      fun v hv => h.base.queueVisited v (hq ▸ List.mem_cons_of_mem _ hv)⟩,
    h.srcVisited, h.srcParent, h.dSrc, h.tree, h.depthLt⟩

theorem BfsOuter.pop {g : Graph} {src : Int} {d : Int → Nat} {st : BfsState} {u : Int}
    {q : List Int} (h : g.BfsOuter src d st) (hq : st.queue = u :: q) :
    g.BfsInner src d u { st with queue := q } := by
  have hs := h.sorted
  rw [hq, List.pairwise_cons] at hs
  refine ⟨h.toTree.pop_tree hq, h.toTree.base.queueVisited u (hq ▸ List.mem_cons_self _ _), hs.2,
    ?_, fun x hx => hs.1 x hx, ?_⟩
  · exact h.bound u (by rw [hq]; rfl)
  · intro x hx hxq hxu w hxw
    apply h.processed x hx _ w hxw
    rw [hq]
    intro e
    rcases List.mem_cons.mp e with e | e
    · exact hxu e
    · exact hxq e

theorem BfsInner.finish {g : Graph} {src : Int} {d : Int → Nat} {st : BfsState} {u : Int}
    (h : g.BfsInner src d u st) (hall : ∀ w ∈ g.neighbors u, w ∈ st.visited) :
    g.BfsOuter src d st := by
  refine ⟨h.toTree, h.sorted, ?_, ?_⟩
  · intro u1 hu1 v hv
    have h1 : u1 ∈ st.queue := List.mem_of_mem_head? hu1
    have h2 := h.lower u1 h1
    have h3 := h.upper v hv
    omega
  · intro x hx hxq w hxw
    by_cases e : x = u
    · subst e
      have h1 := hall w hxw
      exact ⟨h1, h.upper w h1⟩
    · exact h.processed x hx hxq e w hxw

theorem BfsOuter.walk_bound {g : Graph} {src : Int} {d : Int → Nat} {st : BfsState}
    (h : g.BfsOuter src d st) (k : Nat) (hk : ∀ x ∈ st.visited, d x < k → x ∉ st.queue)
    {n : Nat} {a : Int} (hwalk : g.Walk src n a) (hn : n ≤ k) : a ∈ st.visited ∧ d a ≤ n := by
  induction hwalk with
  | refl => exact ⟨h.toTree.srcVisited, by rw [h.toTree.dSrc]⟩
  | @tail m b c _ hbc ih =>
    obtain ⟨h1, h2⟩ := ih (by omega)
    obtain ⟨h3, h4⟩ := h.processed b h1 (hk b h1 (by omega)) c hbc
    exact ⟨h3, by omega⟩

theorem bfsLoop_tree {g : Graph} {src : Int} (dst : Int) (hw : g.WF) :
    ∀ (fuel : Nat) (st : BfsState) (d : Int → Nat), g.BfsOuter src d st →
      st.queue.length + (g.adj.length - st.visited.length) < fuel →
      ∃ st' d', bfsLoop g dst fuel st = some st' ∧ g.BfsDone src dst d' st'
  | 0, _, _, _, hlt => by omega
  | fuel + 1, st, d, hst, hlt => by
    unfold bfsLoop
    cases hq : st.queue with
    | nil =>
      refine ⟨st, d, rfl, hst.toTree, fun n hwalk => ?_⟩
      exact hst.walk_bound n (fun x _ _ => by rw [hq]; simp) hwalk (le_refl n)
    | cons u q =>
      by_cases hd : u = dst
      · refine ⟨{ st with queue := q }, d, by simp [hd], hst.toTree.pop_tree hq, fun n hwalk => ?_⟩
        have hdv : dst ∈ st.visited :=
          hst.toTree.base.queueVisited dst (by rw [hq, hd]; exact List.mem_cons_self _ _)
        refine ⟨hdv, ?_⟩
        by_contra hcon
        have hs := hst.sorted
        rw [hq, List.pairwise_cons] at hs
        have hk : ∀ x ∈ st.visited, d x < n → x ∉ st.queue := by
          intro x _ hx e
          rw [hq] at e
          rcases List.mem_cons.mp e with e | e
          · rw [e, hd] at hx; omega
          · have := hs.1 x e
            rw [hd] at this; omega
        have := (hst.walk_bound n hk hwalk (le_refl n)).2
        omega
      · simp only [hd, if_false]
        have hin := hst.pop hq
        obtain ⟨d', h1, _, h3⟩ := visitNeighbors_tree hw (g.neighbors u) _ d hin (fun _ h => h)
        have hout := h1.finish h3
        obtain ⟨_, h5⟩ := visitNeighbors_inv hw (hin.toTree.base.connected u hin.uVisited)
          (g.neighbors u) { st with queue := q } (fun _ h => h) hin.toTree.base
        apply bfsLoop_tree dst hw fuel _ d' hout
        have h6 := hout.toTree.base.length_visited_le
        have h7 := hst.toTree.base.length_visited_le
        simp only [hq, List.length_cons] at hlt
        simp only at h5
        omega

theorem bfsLoop_start_tree {g : Graph} (hw : g.WF) {src : Int} (hs : g.hasUser src = true)
    (dst : Int) :
    ∃ st' d', bfsLoop g dst (g.adj.length + 1)
        { parent := [(src, -1)], queue := [src], visited := [src] } = some st' ∧
      g.BfsDone src dst d' st' := by
  apply bfsLoop_tree dst hw _ _ (fun _ => 0)
  · refine ⟨⟨⟨List.nodup_singleton src, ?_, ?_, fun v hv => hv⟩, List.mem_singleton.mpr rfl,
      by simp [IntMap.find?], rfl, ?_, ?_⟩, List.pairwise_singleton _ _, ?_, ?_⟩
    · intro v hv; rw [List.mem_singleton.mp hv]; exact hs
    · intro v hv; rw [List.mem_singleton.mp hv]; exact Relation.ReflTransGen.refl
    · intro v hv hne; exact absurd (List.mem_singleton.mp hv) hne
    · intro v _; simp
    · intro u _ v _; omega
    · intro x hx hxq; exact absurd hx hxq
  · have := length_pos_of_hasUser hs
    simp only [List.length_singleton]
    omega

theorem walkBack_spec {g : Graph} {src : Int} {d : Int → Nat} {st : BfsState}
    (h : g.BfsTree src d st) (hneg : ∀ x ∈ st.visited, x ≠ -1) :
    ∀ (k : Nat) (v : Int) (acc : List Int) (fuel : Nat), v ∈ st.visited → d v = k →
      k + 2 ≤ fuel →
      ∃ chain, walkBack fuel st.parent v acc = some (acc ++ chain) ∧ chain.length = k + 1 ∧
        chain.head? = some v ∧ chain.getLast? = some src ∧
        chain.Chain' (fun a b => g.Adj b a) ∧ chain.Nodup ∧ ∀ x ∈ chain, d x ≤ k
  | 0, v, acc, fuel, hv, hk, hf => by
    have hvs : v = src := by
      by_contra hne
      obtain ⟨p, _, _, _, h4⟩ := h.tree v hv hne
      omega
    subst hvs
    obtain ⟨f, rfl⟩ : ∃ f, fuel = f + 2 := ⟨fuel - 2, by omega⟩
    refine ⟨[v], ?_, rfl, rfl, rfl, List.chain'_singleton _, List.nodup_singleton _, ?_⟩
    · simp [walkBack, hneg v hv, IntMap.index_of_find? h.srcParent]
    · intro x hx; rw [List.mem_singleton.mp hx, hk]
  | k + 1, v, acc, fuel, hv, hk, hf => by
    have hne : v ≠ src := by
      intro e; rw [e, h.dSrc] at hk; omega
    obtain ⟨p, h1, h2, h3, h4⟩ := h.tree v hv hne
    obtain ⟨f, rfl⟩ : ∃ f, fuel = f + 1 := ⟨fuel - 1, by omega⟩
    obtain ⟨chain, c1, c2, c3, c4, c5, c6, c7⟩ :=
      walkBack_spec h hneg k p (acc ++ [v]) f h2 (by omega) (by omega)
    refine ⟨v :: chain, ?_, by simp [c2], rfl, ?_, ?_, ?_, ?_⟩
    · simp [walkBack, hneg v hv, IntMap.index_of_find? h1, c1]
    · cases chain with
      | nil => simp at c2
      | cons y ys => simpa [List.getLast?_cons_cons] using c4
    · exact List.Chain'.cons' c5 (fun y hy => by
        rw [c3] at hy
        cases hy
        exact h3)
    · exact List.nodup_cons.mpr ⟨fun hm => by have := c7 v hm; omega, c6⟩
    · intro x hx
      rcases List.mem_cons.mp hx with e | e
      · rw [e, hk]
      · have := c7 x e; omega

theorem Walk.head {g : Graph} {a b c : Int} {n : Nat} (hab : g.Adj a b) (h : g.Walk b n c) :
    g.Walk a (n + 1) c := by
  induction h with
  | refl => exact Walk.tail Walk.refl hab
  | tail _ hbc ih => exact Walk.tail ih hbc

theorem walk_of_isPath {g : Graph} :
    ∀ (q : List Int) (a b : Int), g.IsPath q a b → g.Walk a (q.length - 1) b
  | [], a, b, h => by simp [IsPath] at h
  | [x], a, b, h => by
    obtain ⟨h1, h2, _⟩ := h
    simp only [List.head?_cons, Option.some.injEq] at h1
    simp only [List.getLast?_singleton, Option.some.injEq] at h2
    subst h1; subst h2
    exact Walk.refl
  | x :: y :: rest, a, b, h => by
    obtain ⟨h1, h2, h3⟩ := h
    simp only [List.head?_cons, Option.some.injEq] at h1
    subst h1
    rw [List.chain'_cons] at h3
    rw [List.getLast?_cons_cons] at h2
    have ih := walk_of_isPath (y :: rest) y b ⟨rfl, h2, h3.2⟩
    exact Walk.head h3.1 ih

theorem exists_walk_of_connected {g : Graph} {a b : Int} (h : g.Connected a b) :
    ∃ n, g.Walk a n b := by
  induction h with
  | refl => exact ⟨0, Walk.refl⟩
  | tail _ hbc ih =>
    obtain ⟨n, hn⟩ := ih
    exact ⟨n + 1, Walk.tail hn hbc⟩

/-- When `-1` is not a user, the search returns a duplicate-free friendship path from `src`
to `dst` with the least number of edges among all such paths. -/
theorem shortestPath_optimal (g : Graph) (hg : g.Reachable) (hneg : g.hasUser (-1) = false)
    (src dst : Int) (hs : g.hasUser src = true) (hd : g.hasUser dst = true)
    (hc : g.Connected src dst) :
    ∃ p, g.shortestPath src dst = some p ∧ g.IsPath p src dst ∧ p.Nodup ∧
      ∀ q, g.IsPath q src dst → p.length ≤ q.length := by
  obtain ⟨st, d, hst, hdone⟩ := bfsLoop_start_tree hg.wf hs dst
  obtain ⟨n, hn⟩ := exists_walk_of_connected hc
  obtain ⟨hdv, _⟩ := hdone.complete n hn
  have hnv : ∀ x ∈ st.visited, x ≠ -1 := by
    intro x hx e
    have := hdone.toTree.base.known x hx
    rw [e, hneg] at this
    cases this
  have hfuel : d dst + 2 ≤ g.adj.length + 1 := by
    have h1 := hdone.toTree.depthLt dst hdv
    have h2 := hdone.toTree.base.length_visited_le
    omega
  obtain ⟨chain, c1, c2, c3, c4, c5, c6, _⟩ :=
    walkBack_spec hdone.toTree hnv (d dst) dst [] _ hdv rfl hfuel
  refine ⟨chain.reverse, ?_, ⟨?_, ?_, ?_⟩, List.nodup_reverse.mpr c6, ?_⟩
  · unfold shortestPath
    simp [hs, hd, hst, hdv, c1]
  · rw [List.head?_reverse]; exact c4
  · rw [List.getLast?_reverse]; exact c3
  · rw [List.chain'_reverse]; exact c5
  · intro q hq
    have hw := walk_of_isPath q src dst hq
    have h1 := (hdone.complete _ hw).2
    have h2 : 0 < q.length := by
      cases q with
      | nil => simp [IsPath] at hq
      | cons _ _ => simp
    rw [List.length_reverse, c2]
    omega

theorem walkBack_terminates {g : Graph} {src : Int} {d : Int → Nat} {st : BfsState}
    (h : g.BfsTree src d st) :
    ∀ (k : Nat) (v : Int) (acc : List Int) (fuel : Nat), v ∈ st.visited → d v = k →
      k + 2 ≤ fuel → ∃ r, walkBack fuel st.parent v acc = some r
  | 0, v, acc, fuel, hv, hk, hf => by
    have hvs : v = src := by
      by_contra hne
      obtain ⟨p, _, _, _, h4⟩ := h.tree v hv hne
      omega
    subst hvs
    obtain ⟨f, rfl⟩ : ∃ f, fuel = f + 2 := ⟨fuel - 2, by omega⟩
    by_cases e : v = -1
    · exact ⟨acc, by simp [walkBack, e]⟩
    · exact ⟨acc ++ [v], by simp [walkBack, e, IntMap.index_of_find? h.srcParent]⟩
  | k + 1, v, acc, fuel, hv, hk, hf => by
    have hne : v ≠ src := by
      intro e; rw [e, h.dSrc] at hk; omega
    obtain ⟨p, h1, h2, _, h4⟩ := h.tree v hv hne
    obtain ⟨f, rfl⟩ : ∃ f, fuel = f + 1 := ⟨fuel - 1, by omega⟩
    by_cases e : v = -1
    · exact ⟨acc, by simp [walkBack, e]⟩
    · obtain ⟨r, hr⟩ := walkBack_terminates h k p (acc ++ [v]) f h2 (by omega) (by omega)
      exact ⟨r, by simp [walkBack, e, IntMap.index_of_find? h1, hr]⟩

/-- On every reachable graph `shortestPath` terminates, also when `-1` is a user. -/
theorem shortestPath_terminates (g : Graph) (hg : g.Reachable) (src dst : Int) :
    ∃ p, g.shortestPath src dst = some p := by
  unfold shortestPath
  by_cases hs : g.hasUser src = true
  swap
  · exact ⟨[], by simp [hs]⟩
  by_cases hd : g.hasUser dst = true
  swap
  · exact ⟨[], by simp [hd]⟩
  obtain ⟨st, d, hst, hdone⟩ := bfsLoop_start_tree hg.wf hs dst
  by_cases hv : dst ∈ st.visited
  · have hfuel : d dst + 2 ≤ g.adj.length + 1 := by
      have h1 := hdone.toTree.depthLt dst hv
      have h2 := hdone.toTree.base.length_visited_le
      omega
    obtain ⟨r, hr⟩ := walkBack_terminates hdone.toTree (d dst) dst [] _ hv rfl hfuel
    exact ⟨r.reverse, by simp [hs, hd, hst, hv, hr]⟩
  · exact ⟨[], by simp [hs, hd, hst, hv]⟩

/-- For a known user other than `-1`, `shortestPath(src, src)` is `[src]`. -/
theorem shortestPath_self {g : Graph} {src : Int} (hs : g.hasUser src = true)
    (hne : src ≠ -1) : g.shortestPath src src = some [src] := by
  obtain ⟨m, hm⟩ := Nat.exists_eq_succ_of_ne_zero (Nat.pos_iff_ne_zero.mp (length_pos_of_hasUser hs))
  unfold shortestPath
  simp [hs, hm, bfsLoop, walkBack, IntMap.index, IntMap.find?, hne]

end Graph

/-! ## Union-find: lemmas -/

theorem countP_lt_countP_of_imp {α : Type} (P Q : α → Bool) :
    ∀ (l : List α), (∀ a ∈ l, P a = true → Q a = true) →
      (∃ a ∈ l, Q a = true ∧ P a = false) → l.countP P < l.countP Q
  | [], _, ⟨_, ha, _⟩ => by simp at ha
  | b :: l, himp, ⟨a, ha, hq, hp⟩ => by
    have hmono : l.countP P ≤ l.countP Q :=
      List.countP_mono_left fun x hx => himp x (List.mem_cons_of_mem _ hx)
    rw [List.countP_cons, List.countP_cons]
    rcases List.mem_cons.mp ha with e | e
    · subst e
      simp only [hq, hp, if_true]
      simp only [Bool.false_eq_true, if_false]
      omega
    · have ih := countP_lt_countP_of_imp P Q l
        (fun x hx => himp x (List.mem_cons_of_mem _ hx)) ⟨a, e, hq, hp⟩
      have hb := himp b (List.mem_cons_self _ _)
      by_cases hpb : P b = true
      · simp only [hpb, hb hpb, if_true]; omega
      · have hpb2 : P b = false := by simpa using hpb
        by_cases hqb : Q b = true
        · simp only [hpb2, hqb, if_true, Bool.false_eq_true, if_false]; omega
        · have hqb2 : Q b = false := by simpa using hqb
          simp only [hpb2, hqb2, Bool.false_eq_true, if_false]; omega

namespace UnionFind

/-- On an id that is not a key, `find` follows `operator[]`: on the empty structure
`find(5)` inserts `5 → 0`, then `0 → 0`, and returns 0; `rank` is left alone. -/
theorem find_unknown_id :
    UnionFind.empty.find 5 = some (⟨[(5, 0), (0, 0)], []⟩, 0) ∧
    (UnionFind.empty.add 1).find 5 = some (⟨[(1, 1), (5, 0), (0, 0)], [(1, 0)]⟩, 0) ∧
    UnionFind.empty.find 0 = some (⟨[(0, 0)], []⟩, 0) := by
  decide

theorem RootOf.isRoot {uf : UnionFind} {x r : Int} (h : uf.RootOf x r) :
    uf.parent.find? r = some r := by
  induction h with
  | root h => exact h
  | step _ _ _ ih => exact ih

theorem RootOf.known {uf : UnionFind} {x r : Int} (h : uf.RootOf x r) :
    uf.parent.contains x = true := by
  cases h with
  | root h => exact IntMap.contains_of_find? h
  | step h _ _ => exact IntMap.contains_of_find? h

theorem RootOf.unique {uf : UnionFind} {x r r' : Int} (h : uf.RootOf x r) (h' : uf.RootOf x r') :
    r = r' := by
  induction h with
  | root h =>
    cases h' with
    | root _ => rfl
    | step h1 h2 _ => rw [h] at h1; cases h1; exact absurd rfl h2
  | step h1 h2 _ ih =>
    cases h' with
    | root h3 => rw [h3] at h1; cases h1; exact absurd rfl h2
    | step h3 _ h5 => rw [h3] at h1; cases h1; exact ih h5

theorem RootOf.of_isRoot {uf : UnionFind} {x r : Int} (h : uf.RootOf x r)
    (hx : uf.parent.find? x = some x) : r = x :=
  h.unique (RootOf.root hx)

theorem RootOf.rank_le {uf : UnionFind} (hw : uf.WF) {x r : Int} (h : uf.RootOf x r) :
    uf.rank x ≤ uf.rank r ∧ (x ≠ r → uf.rank x < uf.rank r) := by
  induction h with
  | root _ => exact ⟨le_refl _, fun h => absurd rfl h⟩
  | step h1 h2 _ ih =>
    have := hw.rankLt _ _ h1 h2
    exact ⟨by omega, fun _ => by omega⟩

/-- Redirecting `x` to its own root keeps every root. -/
theorem RootOf.set_root {uf : UnionFind} {x r : Int} (hx : uf.RootOf x r) :
    ∀ {y s : Int}, uf.RootOf y s → RootOf ⟨uf.parent.set x r, uf.rankv⟩ y s := by
  intro y s h
  induction h with
  | @root s hs =>
    apply RootOf.root
    show (uf.parent.set x r).find? s = some s
    rw [IntMap.find?_set]
    split
    · rename_i e
      subst e
      rw [hx.of_isRoot hs]
    · exact hs
  | @step y p s h1 h2 h3 ih =>
    by_cases e : x = y
    · subst e
      have hs : s = r := (RootOf.step h1 h2 h3).unique hx
      subst hs
      have hne : s ≠ x := by
        intro e2
        subst e2
        rw [h3.isRoot] at h1
        cases h1
        exact h2 rfl
      refine RootOf.step (p := s) ?_ hne (RootOf.root ?_)
      · show (uf.parent.set x s).find? x = some s
        rw [IntMap.find?_set, if_pos rfl]
      · show (uf.parent.set x s).find? s = some s
        rw [IntMap.find?_set, if_neg (Ne.symm hne)]
        exact h3.isRoot
    · refine RootOf.step (p := p) ?_ h2 ih
      show (uf.parent.set x r).find? y = some p
      rw [IntMap.find?_set, if_neg e]
      exact h1

theorem above_lt {uf : UnionFind} (hw : uf.WF) {x p : Int} (h1 : uf.parent.find? x = some p)
    (h2 : p ≠ x) : uf.above p < uf.above x := by
  unfold above
  apply countP_lt_countP_of_imp
  · intro a _ ha
    have := hw.rankLt x p h1 h2
    simp only [decide_eq_true_eq] at ha ⊢
    omega
  · refine ⟨p, (IntMap.contains_iff _ _).mp (hw.closed x p h1), ?_, ?_⟩
    · simpa using hw.rankLt x p h1 h2
    · simp

theorem above_le (uf : UnionFind) (x : Int) : uf.above x ≤ uf.parent.length := by
  unfold above
  have := List.countP_le_length (fun k => decide (uf.rank x < uf.rank k)) (l := uf.parent.keys)
  simpa [IntMap.keys] using this

theorem Compressed.refl (uf : UnionFind) : uf.Compressed uf := ⟨rfl, rfl, fun _ _ h => h⟩

theorem Compressed.comp {a b c : UnionFind} (h1 : a.Compressed b) (h2 : b.Compressed c) :
    a.Compressed c :=
  ⟨h2.rankv_eq.trans h1.rankv_eq, h2.keys_eq.trans h1.keys_eq,
    fun y s h => h2.rootOf y s (h1.rootOf y s h)⟩

theorem Compressed.contains_eq {uf uf' : UnionFind} (h : uf.Compressed uf') (x : Int) :
    uf'.parent.contains x = uf.parent.contains x :=
  IntMap.contains_eq_of_keys_eq h.keys_eq x

theorem Compressed.rank_eq {uf uf' : UnionFind} (h : uf.Compressed uf') (x : Int) :
    uf'.rank x = uf.rank x := by
  unfold rank; rw [h.rankv_eq]

/-- Path compression of one node: the state after `parent[x] = r`, for `r` the root of `x`. -/
theorem wf_set_root {uf : UnionFind} (hw : uf.WF) {x r : Int} (hx : uf.RootOf x r) :
    WF ⟨uf.parent.set x r, uf.rankv⟩ ∧ uf.Compressed ⟨uf.parent.set x r, uf.rankv⟩ := by
  have hk : (uf.parent.set x r).keys = uf.parent.keys :=
    IntMap.keys_set_of_mem ((IntMap.contains_iff _ _).mp hx.known) r
  refine ⟨⟨?_, hw.nodupRank, ?_, ?_, ?_⟩, ⟨rfl, hk, fun y s h => hx.set_root h⟩⟩
  · show (uf.parent.set x r).keys.Nodup
    rw [hk]; exact hw.nodupParent
  · intro y
    show uf.rankv.contains y = (uf.parent.set x r).contains y
    rw [IntMap.contains_eq_of_keys_eq hk]; exact hw.sameKeys y
  · intro y p hy
    show (uf.parent.set x r).contains p = true
    rw [IntMap.contains_eq_of_keys_eq hk]
    change (uf.parent.set x r).find? y = some p at hy
    rw [IntMap.find?_set] at hy
    split at hy
    · cases hy; exact IntMap.contains_of_find? hx.isRoot
    · exact hw.closed y p hy
  · intro y p hy hne
    change (uf.parent.set x r).find? y = some p at hy
    show uf.rank y < uf.rank p
    rw [IntMap.find?_set] at hy
    split at hy
    · rename_i e
      cases hy
      subst e
      exact (hx.rank_le hw).2 (Ne.symm hne)
    · exact hw.rankLt y p hy hne

theorem findAux_spec : ∀ (fuel : Nat) (uf : UnionFind) (x : Int), uf.WF →
    uf.parent.contains x = true → uf.above x < fuel →
    ∃ uf' r, findAux fuel uf x = some (uf', r) ∧ uf'.WF ∧ uf.Compressed uf' ∧ uf.RootOf x r
  | 0, _, _, _, _, hlt => by omega
  | fuel + 1, uf, x, hw, hx, hlt => by
    obtain ⟨p, hp⟩ := IntMap.find?_isSome_of_contains hx
    by_cases e : p = x
    · subst e
      refine ⟨uf, p, ?_, hw, Compressed.refl uf, RootOf.root hp⟩
      simp [findAux, IntMap.index_of_find? hp]
    · have hlt2 : uf.above p < fuel := by
        have := above_lt hw hp e
        omega
      obtain ⟨uf2, r, h1, h2, h3, h4⟩ := findAux_spec fuel uf p hw (hw.closed x p hp) hlt2
      have hx2 : uf2.RootOf x r := h3.rootOf x r (RootOf.step hp e h4)
      obtain ⟨h5, h6⟩ := wf_set_root h2 hx2
      refine ⟨⟨uf2.parent.set x r, uf2.rankv⟩, r, ?_, h5, h3.comp h6, RootOf.step hp e h4⟩
      simp [findAux, IntMap.index_of_find? hp, e, h1]

theorem find_spec {uf : UnionFind} (hw : uf.WF) {x : Int} (hx : uf.parent.contains x = true) :
    ∃ uf' r, uf.find x = some (uf', r) ∧ uf'.WF ∧ uf.Compressed uf' ∧ uf.RootOf x r := by
  apply findAux_spec _ uf x hw hx
  have := above_le uf x
  omega

theorem exists_rootOf {uf : UnionFind} (hw : uf.WF) {x : Int}
    (hx : uf.parent.contains x = true) : ∃ r, uf.RootOf x r := by
  obtain ⟨_, r, _, _, _, h⟩ := find_spec hw hx
  exact ⟨r, h⟩

theorem Compressed.rootOf_iff {uf uf' : UnionFind} (h : uf.Compressed uf') (hw : uf.WF)
    (y s : Int) : uf'.RootOf y s ↔ uf.RootOf y s := by
  refine ⟨fun h1 => ?_, h.rootOf y s⟩
  have hy : uf.parent.contains y = true := by rw [← h.contains_eq]; exact h1.known
  obtain ⟨s0, hs0⟩ := exists_rootOf hw hy
  rw [h1.unique (h.rootOf y s0 hs0)]
  exact hs0

theorem Compressed.sameClass_iff {uf uf' : UnionFind} (h : uf.Compressed uf') (hw : uf.WF)
    (a b : Int) : uf'.SameClass a b ↔ uf.SameClass a b := by
  unfold SameClass
  simp only [h.rootOf_iff hw]

/-! ### `add` -/

theorem add_of_known {uf : UnionFind} {x : Int} (h : uf.parent.contains x = true) :
    uf.add x = uf := by
  simp [add, h]

theorem add_of_unknown {uf : UnionFind} {x : Int} (h : uf.parent.contains x = false) :
    uf.add x = ⟨uf.parent.set x x, uf.rankv.set x 0⟩ := by
  simp [add, h]

theorem contains_add (uf : UnionFind) (x y : Int) :
    (uf.add x).parent.contains y = true ↔ uf.parent.contains y = true ∨ y = x := by
  by_cases h : uf.parent.contains x = true
  · rw [add_of_known h]
    constructor
    · exact Or.inl
    · rintro (h1 | h1)
      · exact h1
      · subst h1; exact h
  · have h' : uf.parent.contains x = false := by simpa using h
    rw [add_of_unknown h']
    show (uf.parent.set x x).contains y = true ↔ _
    rw [IntMap.contains_iff, IntMap.keys_set, IntMap.contains_iff,
      if_neg ((IntMap.contains_eq_false_iff _ _).mp h')]
    simp

theorem rank_add (uf : UnionFind) (hw : uf.WF) (x y : Int) : (uf.add x).rank y = uf.rank y := by
  by_cases h : uf.parent.contains x = true
  · rw [add_of_known h]
  · have h' : uf.parent.contains x = false := by simpa using h
    rw [add_of_unknown h']
    show ((uf.rankv.set x 0).find? y).getD 0 = (uf.rankv.find? y).getD 0
    rw [IntMap.find?_set]
    split
    · rename_i e
      subst e
      have h2 : uf.rankv.contains x = false := by rw [hw.sameKeys]; exact h'
      have h3 : uf.rankv.find? x = none := by
        simpa [IntMap.contains] using h2
      simp [h3]
    · rfl

theorem find?_add_of_unknown {uf : UnionFind} {x : Int} (h : uf.parent.contains x = false)
    (y : Int) : (uf.add x).parent.find? y = if x = y then some x else uf.parent.find? y := by
  rw [add_of_unknown h]
  exact IntMap.find?_set _ _ _ _

theorem wf_add {uf : UnionFind} (hw : uf.WF) (x : Int) : (uf.add x).WF := by
  by_cases h : uf.parent.contains x = true
  · rw [add_of_known h]; exact hw
  · have h' : uf.parent.contains x = false := by simpa using h
    have hr := rank_add uf hw x
    have hf := find?_add_of_unknown h'
    refine ⟨?_, ?_, ?_, ?_, ?_⟩
    · rw [add_of_unknown h']; exact IntMap.nodup_keys_set hw.nodupParent x x
    · rw [add_of_unknown h']; exact IntMap.nodup_keys_set hw.nodupRank x 0
    · intro y
      rw [Bool.eq_iff_iff, contains_add]
      rw [add_of_unknown h']
      show (uf.rankv.set x 0).contains y = true ↔ _
      have h2 : uf.rankv.contains x = false := by rw [hw.sameKeys]; exact h'
      rw [IntMap.contains_iff, IntMap.keys_set, ← hw.sameKeys, IntMap.contains_iff,
        if_neg ((IntMap.contains_eq_false_iff _ _).mp h2)]
      simp
    · intro y p hy
      rw [contains_add]
      rw [hf] at hy
      split at hy
      · cases hy; exact Or.inr rfl
      · exact Or.inl (hw.closed y p hy)
    · intro y p hy hne
      rw [hr, hr]
      rw [hf] at hy
      split at hy
      · rename_i e
        cases hy
        exact absurd e hne
      · exact hw.rankLt y p hy hne

theorem rootOf_add {uf : UnionFind} (hw : uf.WF) (x y s : Int) :
    (uf.add x).RootOf y s ↔
      uf.RootOf y s ∨ (uf.parent.contains x = false ∧ y = x ∧ s = x) := by
  by_cases h : uf.parent.contains x = true
  · rw [add_of_known h]
    simp [h]
  · have h' : uf.parent.contains x = false := by simpa using h
    have hf := find?_add_of_unknown h'
    constructor
    · intro hr
      induction hr with
      | @root s hs =>
        rw [hf] at hs
        split at hs
        · rename_i e; exact Or.inr ⟨h', e.symm, e.symm⟩
        · exact Or.inl (RootOf.root hs)
      | @step y p s h1 h2 _ ih =>
        rw [hf] at h1
        split at h1
        · rename_i e
          cases h1
          exact absurd e h2
        · rcases ih with ih | ⟨_, ih, _⟩
          · exact Or.inl (RootOf.step h1 h2 ih)
          · subst ih
            have := hw.closed y p h1
            rw [h'] at this
            cases this
    · rintro (hr | ⟨_, e1, e2⟩)
      · induction hr with
        | @root s hs =>
          apply RootOf.root
          rw [hf, if_neg]
          · exact hs
          · intro e; subst e
            rw [IntMap.contains_of_find? hs] at h'; cases h'
        | @step y p s h1 h2 _ ih =>
          refine RootOf.step (p := p) ?_ h2 ih
          rw [hf, if_neg]
          · exact h1
          · intro e; subst e
            rw [IntMap.contains_of_find? h1] at h'; cases h'
      · subst e1; subst e2
        apply RootOf.root
        rw [hf, if_pos rfl]

theorem sameClass_add {uf : UnionFind} (hw : uf.WF) (x a b : Int) :
    (uf.add x).SameClass a b ↔
      uf.SameClass a b ∨ (uf.parent.contains x = false ∧ a = x ∧ b = x) := by
  unfold SameClass
  constructor
  · rintro ⟨r, h1, h2⟩
    rw [rootOf_add hw] at h1 h2
    rcases h1 with h1 | ⟨hx, e1, e2⟩
    · rcases h2 with h2 | ⟨hx, _, e2⟩
      · exact Or.inl ⟨r, h1, h2⟩
      · subst e2
        have := IntMap.contains_of_find? h1.isRoot
        rw [hx] at this; cases this
    · rcases h2 with h2 | ⟨_, e3, _⟩
      · subst e2
        have := IntMap.contains_of_find? h2.isRoot
        rw [hx] at this; cases this
      · exact Or.inr ⟨hx, e1, e3⟩
  · rintro (⟨r, h1, h2⟩ | ⟨hx, e1, e2⟩)
    · exact ⟨r, (rootOf_add hw _ _ _).mpr (Or.inl h1), (rootOf_add hw _ _ _).mpr (Or.inl h2)⟩
    · exact ⟨x, (rootOf_add hw _ _ _).mpr (Or.inr ⟨hx, e1, rfl⟩),
        (rootOf_add hw _ _ _).mpr (Or.inr ⟨hx, e2, rfl⟩)⟩

/-! ### Classes form a partial equivalence -/

theorem SameClass.symm {uf : UnionFind} {a b : Int} (h : uf.SameClass a b) : uf.SameClass b a :=
  let ⟨r, h1, h2⟩ := h
  ⟨r, h2, h1⟩

theorem SameClass.trans {uf : UnionFind} {a b c : Int} (h1 : uf.SameClass a b)
    (h2 : uf.SameClass b c) : uf.SameClass a c := by
  obtain ⟨r, h3, h4⟩ := h1
  obtain ⟨r', h5, h6⟩ := h2
  rw [← h4.unique h5] at h6
  exact ⟨r, h3, h6⟩

theorem sameClass_self {uf : UnionFind} (hw : uf.WF) {a : Int}
    (h : uf.parent.contains a = true) : uf.SameClass a a :=
  let ⟨r, hr⟩ := exists_rootOf hw h
  ⟨r, hr, hr⟩

theorem sameClass_iff_rootOf {uf : UnionFind} {a r : Int} (ha : uf.RootOf a r) (y : Int) :
    uf.SameClass y a ↔ uf.RootOf y r := by
  constructor
  · rintro ⟨s, h1, h2⟩
    rw [← h2.unique ha]; exact h1
  · intro h; exact ⟨r, h, ha⟩

/-! ### `unite` -/

theorem index_rank {uf : UnionFind} {x : Int} (h : uf.rankv.contains x = true) :
    uf.rankv.index x = (uf.rankv, uf.rank x) := by
  obtain ⟨v, hv⟩ := IntMap.find?_isSome_of_contains h
  simp [IntMap.index, hv, rank]

/-- Hanging the root `c` below the root `t`, with ranks adjusted so that `t` outranks `c`. -/
theorem attach_spec {uf uf' : UnionFind} (hw : uf.WF) {c t : Int}
    (hc : uf.parent.find? c = some c) (ht : uf.parent.find? t = some t) (hne : c ≠ t)
    (hp : uf'.parent = uf.parent.set c t) (hkn : uf'.rankv.keys.Nodup)
    (hkc : ∀ x, uf'.rankv.contains x = uf.rankv.contains x)
    (hr1 : ∀ y, y ≠ t → uf'.rank y = uf.rank y) (hr2 : uf.rank t ≤ uf'.rank t)
    (hr3 : uf.rank c < uf'.rank t) :
    uf'.WF ∧ uf'.parent.keys = uf.parent.keys ∧
      ∀ y s, uf.RootOf y s → uf'.RootOf y (if s = c then t else s) := by
  have hk : uf'.parent.keys = uf.parent.keys := by
    rw [hp]
    exact IntMap.keys_set_of_mem ((IntMap.contains_iff _ _).mp (IntMap.contains_of_find? hc)) t
  have hf : ∀ y, uf'.parent.find? y = if c = y then some t else uf.parent.find? y := by
    intro y; rw [hp]; exact IntMap.find?_set _ _ _ _
  have hcont : ∀ y, uf'.parent.contains y = uf.parent.contains y :=
    IntMap.contains_eq_of_keys_eq hk
  refine ⟨⟨?_, hkn, ?_, ?_, ?_⟩, hk, ?_⟩
  · rw [hk]; exact hw.nodupParent
  · intro y; rw [hkc, hcont]; exact hw.sameKeys y
  · intro y p hy
    rw [hcont]
    rw [hf] at hy
    split at hy
    · cases hy; exact IntMap.contains_of_find? ht
    · exact hw.closed y p hy
  · intro y p hy hpy
    rw [hf] at hy
    split at hy
    · rename_i e
      cases hy
      subst e
      rw [hr1 c hne]; exact hr3
    · have hyt : y ≠ t := by
        intro e; subst e
        rw [ht] at hy; cases hy; exact hpy rfl
      have h1 := hw.rankLt y p hy hpy
      rw [hr1 y hyt]
      by_cases e : p = t
      · subst e; omega
      · rw [hr1 p e]; exact h1
  · intro y s h
    induction h with
    | @root s hs =>
      by_cases e : s = c
      · subst e
        rw [if_pos rfl]
        refine RootOf.step (p := t) ?_ (Ne.symm hne) (RootOf.root ?_)
        · rw [hf, if_pos rfl]
        · rw [hf, if_neg hne]; exact ht
      · rw [if_neg e]
        apply RootOf.root
        rw [hf, if_neg (Ne.symm e)]; exact hs
    | @step y p s h1 h2 _ ih =>
      refine RootOf.step (p := p) ?_ h2 ih
      rw [hf, if_neg]
      · exact h1
      · intro e; subst e
        rw [hc] at h1; cases h1; exact h2 rfl

theorem link_spec {uf : UnionFind} (hw : uf.WF) {ra rb : Int}
    (ha : uf.parent.find? ra = some ra) (hb : uf.parent.find? rb = some rb) (hne : ra ≠ rb) :
    ∃ c t, ((c = ra ∧ t = rb) ∨ (c = rb ∧ t = ra)) ∧ c ≠ t ∧ (uf.link ra rb).WF ∧
      (uf.link ra rb).parent.keys = uf.parent.keys ∧
      ∀ y s, uf.RootOf y s → (uf.link ra rb).RootOf y (if s = c then t else s) := by
  have hka : uf.rankv.contains ra = true := by
    rw [hw.sameKeys]; exact IntMap.contains_of_find? ha
  have hkb : uf.rankv.contains rb = true := by
    rw [hw.sameKeys]; exact IntMap.contains_of_find? hb
  have hl : uf.link ra rb =
      if uf.rank ra < uf.rank rb then ⟨uf.parent.set ra rb, uf.rankv⟩
      else if uf.rank ra > uf.rank rb then ⟨uf.parent.set rb ra, uf.rankv⟩
      else ⟨uf.parent.set rb ra, uf.rankv.set ra (uf.rank ra + 1)⟩ := by
    simp only [link, index_rank hka, index_rank hkb]
  rw [hl]
  by_cases h1 : uf.rank ra < uf.rank rb
  · rw [if_pos h1]
    refine ⟨ra, rb, Or.inl ⟨rfl, rfl⟩, hne, ?_⟩
    exact attach_spec hw ha hb hne rfl hw.nodupRank (fun _ => rfl) (fun _ _ => rfl)
      (le_refl _) h1
  · rw [if_neg h1]
    by_cases h2 : uf.rank ra > uf.rank rb
    · rw [if_pos h2]
      refine ⟨rb, ra, Or.inr ⟨rfl, rfl⟩, Ne.symm hne, ?_⟩
      exact attach_spec hw hb ha (Ne.symm hne) rfl hw.nodupRank (fun _ => rfl) (fun _ _ => rfl)
        (le_refl _) h2
    · rw [if_neg h2]
      refine ⟨rb, ra, Or.inr ⟨rfl, rfl⟩, Ne.symm hne, ?_⟩
      have hrk : ∀ y, rank ⟨uf.parent.set rb ra, uf.rankv.set ra (uf.rank ra + 1)⟩ y =
          if ra = y then uf.rank ra + 1 else uf.rank y := by
        intro y
        show ((uf.rankv.set ra (uf.rank ra + 1)).find? y).getD 0 = _
        rw [IntMap.find?_set]
        split <;> rfl
      apply attach_spec hw hb ha (Ne.symm hne) rfl
      · exact IntMap.nodup_keys_set hw.nodupRank _ _
      · intro x
        apply IntMap.contains_eq_of_keys_eq
        exact IntMap.keys_set_of_mem ((IntMap.contains_iff _ _).mp hka) _
      · intro y hy
        rw [hrk, if_neg (Ne.symm hy)]
      · rw [hrk, if_pos rfl]; omega
      · rw [hrk, if_pos rfl]; omega

theorem sameClass_link {uf : UnionFind} (hw : uf.WF) {ra rb : Int}
    (ha : uf.parent.find? ra = some ra) (hb : uf.parent.find? rb = some rb) (hne : ra ≠ rb)
    (y z : Int) :
    (uf.link ra rb).SameClass y z ↔
      uf.SameClass y z ∨
        ((uf.RootOf y ra ∨ uf.RootOf y rb) ∧ (uf.RootOf z ra ∨ uf.RootOf z rb)) := by
  obtain ⟨c, t, hct, hne2, _, hk, hroot⟩ := link_spec hw ha hb hne
  have hcont : ∀ x, (uf.link ra rb).parent.contains x = uf.parent.contains x :=
    IntMap.contains_eq_of_keys_eq hk
  have hra : (uf.link ra rb).RootOf ra t := by
    have := hroot ra ra (RootOf.root ha)
    rcases hct with ⟨e1, e2⟩ | ⟨e1, e2⟩
    · subst e1; subst e2; simpa using this
    · subst e1; subst e2; simpa [hne] using this
  have hrb : (uf.link ra rb).RootOf rb t := by
    have := hroot rb rb (RootOf.root hb)
    rcases hct with ⟨e1, e2⟩ | ⟨e1, e2⟩
    · subst e1; subst e2; simpa [Ne.symm hne] using this
    · subst e1; subst e2; simpa using this
  have hlift : ∀ {x r : Int}, uf.RootOf x r → r = ra ∨ r = rb → (uf.link ra rb).RootOf x t := by
    intro x r hx hr
    have := hroot x r hx
    rcases hct with ⟨e1, e2⟩ | ⟨e1, e2⟩ <;> rcases hr with e | e <;> subst e1 <;> subst e2 <;>
      subst e
    · simpa using this
    · simpa [Ne.symm hne] using this
    · simpa [hne] using this
    · simpa using this
  constructor
  · rintro ⟨r, h1, h2⟩
    obtain ⟨s, hs⟩ := exists_rootOf hw (by rw [← hcont]; exact h1.known)
    obtain ⟨s', hs'⟩ := exists_rootOf hw (by rw [← hcont]; exact h2.known)
    have e1 := h1.unique (hroot y s hs)
    have e2 := h2.unique (hroot z s' hs')
    have e : (if s = c then t else s) = (if s' = c then t else s') := by rw [← e1, ← e2]
    have hcab : c = ra ∨ c = rb := by
      rcases hct with ⟨e1, _⟩ | ⟨e1, _⟩
      · exact Or.inl e1
      · exact Or.inr e1
    have htab : t = ra ∨ t = rb := by
      rcases hct with ⟨_, e1⟩ | ⟨_, e1⟩
      · exact Or.inr e1
      · exact Or.inl e1
    have hyc : ∀ {x : Int}, uf.RootOf x c → uf.RootOf x ra ∨ uf.RootOf x rb := by
      intro x hx
      rcases hcab with e | e
      · exact Or.inl (e ▸ hx)
      · exact Or.inr (e ▸ hx)
    have hyt : ∀ {x : Int}, uf.RootOf x t → uf.RootOf x ra ∨ uf.RootOf x rb := by
      intro x hx
      rcases htab with e | e
      · exact Or.inl (e ▸ hx)
      · exact Or.inr (e ▸ hx)
    by_cases c1 : s = c
    · by_cases c2 : s' = c
      · rw [c1] at hs; rw [c2] at hs'
        exact Or.inl ⟨c, hs, hs'⟩
      · rw [if_pos c1, if_neg c2] at e
        rw [c1] at hs; rw [← e] at hs'
        exact Or.inr ⟨hyc hs, hyt hs'⟩
    · by_cases c2 : s' = c
      · rw [if_neg c1, if_pos c2] at e
        rw [c2] at hs'; rw [e] at hs
        exact Or.inr ⟨hyt hs, hyc hs'⟩
      · rw [if_neg c1, if_neg c2] at e
        rw [e] at hs
        exact Or.inl ⟨s', hs, hs'⟩
  · rintro (⟨s, h1, h2⟩ | ⟨h1, h2⟩)
    · exact ⟨_, hroot y s h1, hroot z s h2⟩
    · refine ⟨t, ?_, ?_⟩
      · rcases h1 with h1 | h1
        · exact hlift h1 (Or.inl rfl)
        · exact hlift h1 (Or.inr rfl)
      · rcases h2 with h2 | h2
        · exact hlift h2 (Or.inl rfl)
        · exact hlift h2 (Or.inr rfl)

/-- The effect of `unite(a, b)`: it terminates, keeps the invariant, makes `a` and `b`
known, and merges the classes of `a` and `b`. -/
theorem unite_spec {uf : UnionFind} (hw : uf.WF) (a b : Int) :
    ∃ uf', uf.unite a b = some uf' ∧ uf'.WF ∧
      (∀ x, uf'.parent.contains x = ((uf.add a).add b).parent.contains x) ∧
      ∀ y z, uf'.SameClass y z ↔
        ((uf.add a).add b).SameClass y z ∨
          ((((uf.add a).add b).SameClass y a ∨ ((uf.add a).add b).SameClass y b) ∧
           (((uf.add a).add b).SameClass z a ∨ ((uf.add a).add b).SameClass z b)) := by
  have hw0 : ((uf.add a).add b).WF := wf_add (wf_add hw a) b
  have hka : ((uf.add a).add b).parent.contains a = true := by
    rw [contains_add, contains_add]; exact Or.inl (Or.inr rfl)
  have hkb : ((uf.add a).add b).parent.contains b = true := by
    rw [contains_add]; exact Or.inr rfl
  obtain ⟨uf1, ra, hf1, hw1, hc1, hra⟩ := find_spec hw0 hka
  obtain ⟨uf2, rb, hf2, hw2, hc2, hrb⟩ := find_spec hw1 (by rw [hc1.contains_eq]; exact hkb)
  have hc := hc1.comp hc2
  have hra0 : ((uf.add a).add b).RootOf a ra := hra
  have hrb0 : ((uf.add a).add b).RootOf b rb := (hc1.rootOf_iff hw0 b rb).mp hrb
  have hra2 : uf2.RootOf a ra := hc.rootOf a ra hra0
  have hrb2 : uf2.RootOf b rb := hc.rootOf b rb hrb0
  by_cases e : ra = rb
  · refine ⟨uf2, ?_, hw2, hc.contains_eq, ?_⟩
    · simp [unite, hf1, hf2, e]
    · intro y z
      rw [hc.sameClass_iff hw0]
      have hab : ((uf.add a).add b).SameClass a b := ⟨ra, hra0, e ▸ hrb0⟩
      constructor
      · exact Or.inl
      · rintro (h | ⟨h1 | h1, h2 | h2⟩)
        · exact h
        · exact h1.trans h2.symm
        · exact (h1.trans hab).trans h2.symm
        · exact (h1.trans hab.symm).trans h2.symm
        · exact h1.trans h2.symm
  · have hl := link_spec hw2 hra2.isRoot hrb2.isRoot e
    obtain ⟨c, t, _, _, hw3, hk3, _⟩ := hl
    refine ⟨uf2.link ra rb, ?_, hw3, ?_, ?_⟩
    · simp [unite, hf1, hf2, e]
    · intro x
      rw [IntMap.contains_eq_of_keys_eq hk3, hc.contains_eq]
    · intro y z
      rw [sameClass_link hw2 hra2.isRoot hrb2.isRoot e, hc.sameClass_iff hw0,
        hc.rootOf_iff hw0, hc.rootOf_iff hw0, hc.rootOf_iff hw0, hc.rootOf_iff hw0,
        sameClass_iff_rootOf hra0, sameClass_iff_rootOf hrb0, sameClass_iff_rootOf hra0,
        sameClass_iff_rootOf hrb0]

/-! ### `getCommunities` -/

theorem mem_members_set (groups : IntMap (List Int)) (root node r x : Int) :
    x ∈ members (groups.set root (members groups root ++ [node])) r ↔
      x ∈ members groups r ∨ (r = root ∧ x = node) := by
  unfold members
  rw [IntMap.find?_set]
  by_cases e : root = r
  · subst e
    simp
  · have e2 : ¬ r = root := Ne.symm e
    simp [e, e2]

theorem communitiesLoop_spec {uf0 : UnionFind} (hw0 : uf0.WF) :
    ∀ (rest pre : List Int) (uf : UnionFind) (groups : IntMap (List Int)),
      uf.WF → uf0.Compressed uf → (∀ x ∈ rest, uf0.parent.contains x = true) →
      groups.keys.Nodup → (∀ r ms, groups.find? r = some ms → ms ≠ []) →
      (∀ r x, x ∈ members groups r ↔ (x ∈ pre ∧ uf0.RootOf x r)) →
      ∃ uf' groups', communitiesLoop rest uf groups = some (uf', groups') ∧ uf'.WF ∧
        uf0.Compressed uf' ∧ groups'.keys.Nodup ∧
        (∀ r ms, groups'.find? r = some ms → ms ≠ []) ∧
        (∀ r x, x ∈ members groups' r ↔ (x ∈ pre ++ rest ∧ uf0.RootOf x r))
  | [], pre, uf, groups, hw, hc, _, hn, hne, hm =>
    ⟨uf, groups, rfl, hw, hc, hn, hne, by simpa using hm⟩
  | node :: rest, pre, uf, groups, hw, hc, hk, hn, hne, hm => by
    have hnode : uf.parent.contains node = true := by
      rw [hc.contains_eq]; exact hk node (List.mem_cons_self _ _)
    obtain ⟨uf1, root, hf, hw1, hc1, hroot⟩ := find_spec hw hnode
    have hroot0 : uf0.RootOf node root := (hc.rootOf_iff hw0 node root).mp hroot
    have ih := communitiesLoop_spec hw0 rest (pre ++ [node]) uf1
      (groups.set root (members groups root ++ [node])) hw1 (hc.comp hc1)
      (fun x hx => hk x (List.mem_cons_of_mem _ hx)) (IntMap.nodup_keys_set hn _ _)
      (by
        intro r ms hms
        rw [IntMap.find?_set] at hms
        split at hms
        · cases hms; simp
        · exact hne r ms hms)
      (by
        intro r x
        rw [mem_members_set, hm, List.mem_append, List.mem_singleton]
        constructor
        · rintro (⟨h1, h2⟩ | ⟨h1, h2⟩)
          · exact ⟨Or.inl h1, h2⟩
          · subst h1; subst h2; exact ⟨Or.inr rfl, hroot0⟩
        · rintro ⟨h1 | h1, h2⟩
          · exact Or.inl ⟨h1, h2⟩
          · subst h1; exact Or.inr ⟨h2.unique hroot0, rfl⟩)
    obtain ⟨uf', groups', h1, h2, h3, h4, h5, h6⟩ := ih
    refine ⟨uf', groups', ?_, h2, h3, h4, h5, ?_⟩
    · simp only [communitiesLoop, hf]
      exact h1
    · intro r x
      rw [h6, List.append_assoc, List.singleton_append]

/-- The effect of `getCommunities`: it terminates, only compresses paths, and lists under
each root exactly the ids having that root; no group is empty. -/
theorem getCommunities_spec {uf : UnionFind} (hw : uf.WF) :
    ∃ uf' groups, uf.getCommunities = some (uf', groups) ∧ uf'.WF ∧ uf.Compressed uf' ∧
      groups.keys.Nodup ∧ (∀ r ms, groups.find? r = some ms → ms ≠ []) ∧
      (∀ r x, x ∈ members groups r ↔ uf.RootOf x r) := by
  obtain ⟨uf', groups', h1, h2, h3, h4, h5, h6⟩ :=
    communitiesLoop_spec hw uf.parent.keys [] uf [] hw (Compressed.refl uf)
      (fun x hx => (IntMap.contains_iff _ _).mpr hx) (by simp [IntMap.keys])
      (by intro r ms h; simp [IntMap.find?] at h)
      (by intro r x; simp [members, IntMap.find?])
  refine ⟨uf', groups', h1, h2, h3, h4, h5, fun r x => ?_⟩
  rw [h6, List.nil_append]
  constructor
  · exact fun h => h.2
  · exact fun h => ⟨(IntMap.contains_iff _ _).mp h.known, h⟩

theorem same_group_iff {groups : IntMap (List Int)} (hn : groups.keys.Nodup) (a b : Int) :
    (∃ p ∈ groups, a ∈ p.2 ∧ b ∈ p.2) ↔ ∃ r, a ∈ members groups r ∧ b ∈ members groups r := by
  constructor
  · rintro ⟨⟨r, ms⟩, hp, ha, hb⟩
    have := IntMap.find?_of_mem hn hp
    exact ⟨r, by simpa [members, this] using ha, by simpa [members, this] using hb⟩
  · rintro ⟨r, ha, hb⟩
    unfold members at ha hb
    cases hf : groups.find? r with
    | none => simp [hf] at ha
    | some ms =>
      rw [hf] at ha hb
      exact ⟨(r, ms), IntMap.mem_of_find? hf, ha, hb⟩

/-! ### Iteration order -/

theorem Reorder.reorder_symm {uf uf' : UnionFind} (h : uf.Reorder uf') : uf'.Reorder uf :=
  ⟨h.1.symm, h.2.symm⟩

theorem Reorder.find?_parent {uf uf' : UnionFind} (h : uf.Reorder uf') (hw : uf.WF) (x : Int) :
    uf'.parent.find? x = uf.parent.find? x :=
  (IntMap.find?_perm hw.nodupParent h.1 x).symm

theorem Reorder.rank_reorder {uf uf' : UnionFind} (h : uf.Reorder uf') (hw : uf.WF) (x : Int) :
    uf'.rank x = uf.rank x := by
  unfold rank
  rw [IntMap.find?_perm hw.nodupRank h.2 x]

theorem Reorder.uf_wf {uf uf' : UnionFind} (h : uf.Reorder uf') (hw : uf.WF) : uf'.WF := by
  have hf := h.find?_parent hw
  have hc : ∀ x, uf'.parent.contains x = uf.parent.contains x := by
    intro x; simp only [IntMap.contains, hf]
  refine ⟨(h.1.map Prod.fst).nodup_iff.mp hw.nodupParent,
    (h.2.map Prod.fst).nodup_iff.mp hw.nodupRank, ?_, ?_, ?_⟩
  · intro x
    rw [hc, ← hw.sameKeys]
    simp only [IntMap.contains, IntMap.find?_perm hw.nodupRank h.2 x]
  · intro x p hx
    rw [hc]; rw [hf] at hx; exact hw.closed x p hx
  · intro x p hx hne
    rw [h.rank_reorder hw, h.rank_reorder hw]; rw [hf] at hx; exact hw.rankLt x p hx hne

theorem Reorder.rootOf {uf uf' : UnionFind} (h : uf.Reorder uf') (hw : uf.WF) {y s : Int}
    (hr : uf.RootOf y s) : uf'.RootOf y s := by
  induction hr with
  | root hs => exact RootOf.root (by rw [h.find?_parent hw]; exact hs)
  | step h1 h2 _ ih => exact RootOf.step (by rw [h.find?_parent hw]; exact h1) h2 ih

theorem Reorder.sameClass_reorder {uf uf' : UnionFind} (h : uf.Reorder uf') (hw : uf.WF)
    (a b : Int) : uf'.SameClass a b ↔ uf.SameClass a b := by
  constructor
  · rintro ⟨r, h1, h2⟩
    exact ⟨r, h.reorder_symm.rootOf (h.uf_wf hw) h1, h.reorder_symm.rootOf (h.uf_wf hw) h2⟩
  · rintro ⟨r, h1, h2⟩
    exact ⟨r, h.rootOf hw h1, h.rootOf hw h2⟩

/-- A second `unite` of two ids of one class only compresses paths. -/
theorem unite_of_sameClass {uf : UnionFind} (hw : uf.WF) {a b : Int} (h : uf.SameClass a b) :
    ∃ uf', uf.unite a b = some uf' ∧ uf'.WF ∧ uf.Compressed uf' := by
  obtain ⟨r, hra, hrb⟩ := h
  have ha : uf.add a = uf := add_of_known hra.known
  have hb : uf.add b = uf := add_of_known hrb.known
  obtain ⟨uf1, ra, hf1, hw1, hc1, hra1⟩ := find_spec hw hra.known
  obtain ⟨uf2, rb, hf2, hw2, hc2, hrb2⟩ := find_spec hw1 (by rw [hc1.contains_eq]; exact hrb.known)
  have e1 : ra = r := hra1.unique hra
  have e2 : rb = r := ((hc1.rootOf_iff hw b rb).mp hrb2).unique hrb
  refine ⟨uf2, ?_, hw2, hc1.comp hc2⟩
  simp [unite, ha, hb, hf1, hf2, e1, e2]

theorem find?_toFinset_congr {c1 c2 : IntMap (List Int)}
    (h1 : ∀ r ms, c1.find? r = some ms → ms ≠ [])
    (h2 : ∀ r ms, c2.find? r = some ms → ms ≠ [])
    (h : ∀ r x, x ∈ members c1 r ↔ x ∈ members c2 r) (r : Int) :
    (c1.find? r).map List.toFinset = (c2.find? r).map List.toFinset := by
  have hr := h r
  unfold members at hr
  cases e1 : c1.find? r with
  | none =>
    cases e2 : c2.find? r with
    | none => rfl
    | some ms =>
      obtain ⟨x, hx⟩ := List.exists_mem_of_ne_nil ms (h2 r ms e2)
      have := (hr x).mpr (by simpa [e2] using hx)
      simp [e1] at this
  | some ms =>
    cases e2 : c2.find? r with
    | none =>
      obtain ⟨x, hx⟩ := List.exists_mem_of_ne_nil ms (h1 r ms e1)
      have := (hr x).mp (by simpa [e1] using hx)
      simp [e2] at this
    | some ms' =>
      simp only [Option.map_some', Option.some.injEq]
      ext x
      have := hr x
      simpa [e1, e2] using this

/-! ### Reachable states and the number of roots -/

theorem wf_empty_uf : UnionFind.empty.WF := by
  refine ⟨by simp [UnionFind.empty, IntMap.keys], by simp [UnionFind.empty, IntMap.keys],
    fun _ => rfl, ?_, ?_⟩
  · intro x p h; simp [UnionFind.empty, IntMap.find?] at h
  · intro x p h; simp [UnionFind.empty, IntMap.find?] at h

theorem Reachable.reachable_wf {uf : UnionFind} (h : uf.Reachable) : uf.WF := by
  induction h with
  | empty => exact wf_empty_uf
  | add x _ ih => exact wf_add ih x
  | unite a b _ he ih =>
    obtain ⟨uf1, h1, h2, _⟩ := unite_spec ih a b
    rw [h1] at he; cases he; exact h2
  | find x r _ hx he ih =>
    obtain ⟨uf1, r1, h1, h2, _⟩ := find_spec ih hx
    rw [h1] at he; cases he; exact h2
  | getCommunities _ he ih =>
    obtain ⟨uf1, g1, h1, h2, _⟩ := getCommunities_spec ih
    rw [h1] at he; cases he; exact h2
  | reorder _ hr ih => exact hr.uf_wf ih

theorem RootIn.to_rootOf {uf : UnionFind} {x r : Int} {n : Nat} (h : uf.RootIn x r n) :
    uf.RootOf x r := by
  induction h with
  | root h => exact RootOf.root h
  | step h1 h2 _ ih => exact RootOf.step h1 h2 ih

theorem RootOf.exists_rootIn {uf : UnionFind} {x r : Int} (h : uf.RootOf x r) :
    ∃ n, uf.RootIn x r n := by
  induction h with
  | root h => exact ⟨0, RootIn.root h⟩
  | step h1 h2 _ ih =>
    obtain ⟨n, hn⟩ := ih
    exact ⟨n + 1, RootIn.step h1 h2 hn⟩

theorem isRoot_iff_rootOf_self (uf : UnionFind) (k : Int) :
    uf.parent.find? k = some k ↔ uf.RootOf k k :=
  ⟨RootOf.root, fun h => h.isRoot⟩

theorem Compressed.numRoots_eq {uf uf' : UnionFind} (h : uf.Compressed uf') (hw : uf.WF) :
    uf'.numRoots = uf.numRoots := by
  unfold numRoots
  rw [h.keys_eq]
  apply List.countP_congr
  intro k _
  simp only [decide_eq_true_eq]
  rw [isRoot_iff_rootOf_self, isRoot_iff_rootOf_self, h.rootOf_iff hw]

theorem link_parent (uf : UnionFind) (ra rb : Int) :
    (uf.link ra rb).parent = uf.parent.set ra rb ∨ (uf.link ra rb).parent = uf.parent.set rb ra := by
  unfold link
  simp only
  split
  · exact Or.inl rfl
  · split
    · exact Or.inr rfl
    · exact Or.inr rfl

theorem numRoots_set_le {uf uf' : UnionFind} {c t : Int}
    (hc : uf.parent.find? c = some c) (hne : c ≠ t) (hp : uf'.parent = uf.parent.set c t) :
    uf'.numRoots + 1 ≤ uf.numRoots := by
  have hck : c ∈ uf.parent.keys := (IntMap.contains_iff _ _).mp (IntMap.contains_of_find? hc)
  unfold numRoots
  rw [hp, IntMap.keys_set_of_mem hck]
  have := countP_lt_countP_of_imp
    (fun k => decide ((uf.parent.set c t).find? k = some k))
    (fun k => decide (uf.parent.find? k = some k)) uf.parent.keys
    (by
      intro k _ hk
      simp only [decide_eq_true_eq] at hk ⊢
      rw [IntMap.find?_set] at hk
      split at hk
      · rename_i e
        subst e
        exact hc
      · exact hk)
    ⟨c, hck, by simpa using hc, by
      rw [decide_eq_false_iff_not, IntMap.find?_set, if_pos rfl]
      intro e
      cases e
      exact hne rfl⟩
  omega

theorem numRoots_add (uf : UnionFind) (x : Int) :
    (uf.add x).numRoots = uf.numRoots + if uf.parent.contains x = true then 0 else 1 := by
  by_cases h : uf.parent.contains x = true
  · rw [add_of_known h, if_pos h, Nat.add_zero]
  · have h' : uf.parent.contains x = false := by simpa using h
    have hx : x ∉ uf.parent.keys := (IntMap.contains_eq_false_iff _ _).mp h'
    rw [if_neg h]
    unfold numRoots
    rw [add_of_unknown h']
    show (uf.parent.set x x).keys.countP _ = _
    rw [IntMap.keys_set, if_neg hx, List.countP_append]
    have h1 : uf.parent.keys.countP (fun k => decide ((uf.parent.set x x).find? k = some k)) =
        uf.parent.keys.countP (fun k => decide (uf.parent.find? k = some k)) := by
      apply List.countP_congr
      intro k hk
      have hne : ¬ x = k := fun e => hx (e ▸ hk)
      simp only [decide_eq_true_eq, IntMap.find?_set, if_neg hne]
    rw [h1]
    simp [IntMap.find?_set]

theorem unite_numRoots_le {uf : UnionFind} (hw : uf.WF) (a b : Int) :
    ∃ uf', uf.unite a b = some uf' ∧ uf'.numRoots ≤ ((uf.add a).add b).numRoots := by
  have hw0 : ((uf.add a).add b).WF := wf_add (wf_add hw a) b
  have hka : ((uf.add a).add b).parent.contains a = true := by
    rw [contains_add, contains_add]; exact Or.inl (Or.inr rfl)
  have hkb : ((uf.add a).add b).parent.contains b = true := by
    rw [contains_add]; exact Or.inr rfl
  obtain ⟨uf1, ra, hf1, hw1, hc1, hra⟩ := find_spec hw0 hka
  obtain ⟨uf2, rb, hf2, hw2, hc2, hrb⟩ := find_spec hw1 (by rw [hc1.contains_eq]; exact hkb)
  have hn2 : uf2.numRoots = ((uf.add a).add b).numRoots := by
    rw [hc2.numRoots_eq hw1, hc1.numRoots_eq hw0]
  have hra2 : uf2.RootOf a ra := hc2.rootOf a ra (hc1.rootOf a ra hra)
  by_cases e : ra = rb
  · exact ⟨uf2, by simp [unite, hf1, hf2, e], le_of_eq hn2⟩
  · refine ⟨uf2.link ra rb, by simp [unite, hf1, hf2, e], ?_⟩
    rw [← hn2]
    rcases link_parent uf2 ra rb with hp | hp
    · have := numRoots_set_le hra2.isRoot e hp
      omega
    · have := numRoots_set_le (hc2.rootOf b rb hrb).isRoot (Ne.symm e) hp
      omega

/-! ### Path compression -/

theorem RootIn.depth_unique {uf : UnionFind} {x r r' : Int} {n n' : Nat}
    (h : uf.RootIn x r n) (h' : uf.RootIn x r' n') : n = n' := by
  induction h generalizing n' with
  | root h =>
    cases h' with
    | root _ => rfl
    | step h1 h2 _ => rw [h] at h1; cases h1; exact absurd rfl h2
  | step h1 h2 _ ih =>
    cases h' with
    | root h3 => rw [h3] at h1; cases h1; exact absurd rfl h2
    | step h3 _ h5 => rw [h3] at h1; cases h1; rw [ih h5]

/-- The nodes of a parent chain of `n` links are `n + 1` distinct keys. -/
theorem RootIn.chain {uf : UnionFind} {x r : Int} {n : Nat} (h : uf.RootIn x r n) :
    ∃ chain : List Int, chain.length = n + 1 ∧ chain.Nodup ∧
      ∀ y ∈ chain, y ∈ uf.parent.keys ∧ ∃ m, m ≤ n ∧ uf.RootIn y r m := by
  induction h with
  | @root r hr =>
    refine ⟨[r], rfl, List.nodup_singleton r, fun y hy => ?_⟩
    rw [List.mem_singleton.mp hy]
    exact ⟨(IntMap.contains_iff _ _).mp (IntMap.contains_of_find? hr), 0, le_refl 0,
      RootIn.root hr⟩
  | @step x p r n h1 h2 h3 ih =>
    obtain ⟨chain, c1, c2, c3⟩ := ih
    refine ⟨x :: chain, by simp [c1], List.nodup_cons.mpr ⟨?_, c2⟩, fun y hy => ?_⟩
    · intro hx
      obtain ⟨_, m, hm, hxm⟩ := c3 x hx
      have := hxm.depth_unique (RootIn.step h1 h2 h3)
      omega
    · rcases List.mem_cons.mp hy with e | e
      · rw [e]
        exact ⟨(IntMap.contains_iff _ _).mp (IntMap.contains_of_find? h1), n + 1, le_refl _,
          RootIn.step h1 h2 h3⟩
      · obtain ⟨k1, m, hm, k2⟩ := c3 y e
        exact ⟨k1, m, by omega, k2⟩

theorem RootIn.depth_lt {uf : UnionFind} {x r : Int} {n : Nat} (h : uf.RootIn x r n) :
    n < uf.parent.length := by
  obtain ⟨chain, c1, c2, c3⟩ := h.chain
  have hsub : chain ⊆ uf.parent.keys := fun y hy => (c3 y hy).1
  have := (List.subperm_of_subset c2 hsub).length_le
  simp only [IntMap.keys, List.length_map] at this
  omega

theorem OnPath.eq_of_isRoot {uf : UnionFind} {r y : Int} (hr : uf.parent.find? r = some r)
    (h : uf.OnPath r y) : y = r := by
  cases h with
  | here _ => rfl
  | next h1 h2 _ => rw [hr] at h1; cases h1; exact absurd rfl h2

/-- Undoing the redirection of `x` to its root: roots of the new state are roots of the old. -/
theorem RootOf.of_set_root {uf : UnionFind} {x r : Int} (hx : uf.RootOf x r) :
    ∀ {y s : Int}, RootOf ⟨uf.parent.set x r, uf.rankv⟩ y s → uf.RootOf y s := by
  intro y s h
  induction h with
  | @root s hs =>
    change (uf.parent.set x r).find? s = some s at hs
    rw [IntMap.find?_set] at hs
    split at hs
    · rename_i e
      cases hs
      subst e
      exact RootOf.root hx.isRoot
    · exact RootOf.root hs
  | @step y p s h1 h2 _ ih =>
    change (uf.parent.set x r).find? y = some p at h1
    rw [IntMap.find?_set] at h1
    split at h1
    · rename_i e
      cases h1
      subst e
      rw [ih.of_isRoot hx.isRoot]
      exact hx
    · exact RootOf.step h1 h2 ih

theorem findAux_of_rootIn {uf : UnionFind} {x r : Int} {n : Nat} (h : uf.RootIn x r n) :
    ∀ fuel, n < fuel → ∃ uf', findAux fuel uf x = some (uf', r) ∧ uf.FindPost x uf' r := by
  induction h with
  | @root r hr =>
    intro fuel hf
    obtain ⟨f, rfl⟩ : ∃ f, fuel = f + 1 := ⟨fuel - 1, by omega⟩
    refine ⟨uf, by simp [findAux, IntMap.index_of_find? hr], rfl, rfl, ?_, fun _ _ => rfl,
      fun _ _ => Iff.rfl⟩
    intro y hy
    rw [hy.eq_of_isRoot hr]
    exact hr
  | @step x p r n h1 h2 h3 ih =>
    intro fuel hf
    obtain ⟨f, rfl⟩ : ∃ f, fuel = f + 1 := ⟨fuel - 1, by omega⟩
    obtain ⟨uf2, e2, post⟩ := ih f (by omega)
    have hx0 : uf.RootOf x r := RootOf.step h1 h2 h3.to_rootOf
    have hx2 : uf2.RootOf x r := (post.rootOf x r).mpr hx0
    have hxk : x ∈ uf2.parent.keys := by
      rw [post.keys_eq]
      exact (IntMap.contains_iff _ _).mp (IntMap.contains_of_find? h1)
    refine ⟨⟨uf2.parent.set x r, uf2.rankv⟩, by simp [findAux, IntMap.index_of_find? h1, h2, e2],
      post.rankv_eq, ?_, ?_, ?_, ?_⟩
    · show (uf2.parent.set x r).keys = _
      rw [IntMap.keys_set_of_mem hxk, post.keys_eq]
    · intro y hy
      show (uf2.parent.set x r).find? y = some r
      rw [IntMap.find?_set]
      split
      · rfl
      · rename_i e
        cases hy with
        | here _ => exact absurd rfl e
        | next h4 _ h6 =>
          rw [h1] at h4
          cases h4
          exact post.onPath y h6
    · intro y hy
      show (uf2.parent.set x r).find? y = _
      have hyx : ¬ x = y := by
        intro e
        subst e
        exact hy (OnPath.here (IntMap.contains_of_find? h1))
      rw [IntMap.find?_set, if_neg hyx]
      exact post.offPath y fun h => hy (OnPath.next h1 h2 h)
    · intro y s
      rw [← post.rootOf y s]
      exact ⟨fun h => hx2.of_set_root h, fun h => hx2.set_root h⟩

/-- Termination and effect of `find(x)` whenever the parent chain of `x` reaches a root. -/
theorem find_of_rootOf {uf : UnionFind} {x r : Int} (h : uf.RootOf x r) :
    ∃ uf', uf.find x = some (uf', r) ∧ uf.FindPost x uf' r := by
  obtain ⟨n, hn⟩ := h.exists_rootIn
  exact findAux_of_rootIn hn _ (by have := hn.depth_lt; omega)

theorem FindPost.preserves_acyclic {uf uf' : UnionFind} {x r : Int} (h : uf.FindPost x uf' r)
    (ha : uf.Acyclic) : uf'.Acyclic := by
  intro y hy
  rw [IntMap.contains_eq_of_keys_eq h.keys_eq] at hy
  obtain ⟨s, hs⟩ := ha y hy
  exact ⟨s, (h.rootOf y s).mpr hs⟩

theorem WF.acyclic {uf : UnionFind} (hw : uf.WF) : uf.Acyclic :=
  fun _ hx => exists_rootOf hw hx

theorem members_set (groups : IntMap (List Int)) (root node r : Int) :
    members (groups.set root (members groups root ++ [node])) r =
      if root = r then members groups root ++ [node] else members groups r := by
  unfold members
  rw [IntMap.find?_set]
  split
  · rename_i e; subst e; rfl
  · rfl

theorem communitiesLoop_acyclic {uf0 : UnionFind} (ha0 : uf0.Acyclic) :
    ∀ (rest pre : List Int) (uf : UnionFind) (groups : IntMap (List Int)),
      uf.parent.keys = uf0.parent.keys → (∀ y s, uf.RootOf y s ↔ uf0.RootOf y s) →
      uf.rankv = uf0.rankv →
      (∀ x ∈ rest, uf0.parent.contains x = true) →
      groups.keys.Nodup → (∀ r ms, groups.find? r = some ms → ms ≠ []) →
      (∀ r x, x ∈ members groups r → uf0.RootOf x r) →
      (∀ r x, uf0.RootOf x r → (members groups r).count x = pre.count x) →
      ∃ uf' groups', communitiesLoop rest uf groups = some (uf', groups') ∧
        uf'.parent.keys = uf0.parent.keys ∧ (∀ y s, uf'.RootOf y s ↔ uf0.RootOf y s) ∧
        uf'.rankv = uf0.rankv ∧
        groups'.keys.Nodup ∧ (∀ r ms, groups'.find? r = some ms → ms ≠ []) ∧
        (∀ r x, x ∈ members groups' r → uf0.RootOf x r) ∧
        (∀ r x, uf0.RootOf x r → (members groups' r).count x = (pre ++ rest).count x)
  | [], pre, uf, groups, hk, hr, hrk, _, hn, hne, hm, hc =>
    ⟨uf, groups, rfl, hk, hr, hrk, hn, hne, hm, by simpa using hc⟩
  | node :: rest, pre, uf, groups, hk, hr, hrk, hkn, hn, hne, hm, hc => by
    have hnode : uf0.parent.contains node = true := hkn node (List.mem_cons_self _ _)
    obtain ⟨root, hroot0⟩ := ha0 node hnode
    obtain ⟨uf1, hf, post⟩ := find_of_rootOf ((hr node root).mpr hroot0)
    have ih := communitiesLoop_acyclic ha0 rest (pre ++ [node]) uf1
      (groups.set root (members groups root ++ [node]))
      (post.keys_eq.trans hk) (fun y s => (post.rootOf y s).trans (hr y s))
      (post.rankv_eq.trans hrk)
      (fun x hx => hkn x (List.mem_cons_of_mem _ hx)) (IntMap.nodup_keys_set hn _ _)
      (by
        intro r ms hms
        rw [IntMap.find?_set] at hms
        split at hms
        · cases hms; simp
        · exact hne r ms hms)
      (by
        intro r x hx
        rw [members_set] at hx
        split at hx
        · rename_i e
          subst e
          rcases List.mem_append.mp hx with h1 | h1
          · exact hm root x h1
          · rw [List.mem_singleton.mp h1]; exact hroot0
        · exact hm r x hx)
      (by
        intro r x hx
        rw [members_set, List.count_append]
        split
        · rename_i e
          subst e
          rw [List.count_append, hc root x hx]
        · rename_i e
          have hxn : x ≠ node := by
            intro e2
            subst e2
            exact e (hroot0.unique hx)
          rw [hc r x hx, List.count_singleton, beq_false_of_ne (Ne.symm hxn)]
          rfl)
    obtain ⟨uf', groups', h1, h2, h3, h4, h5, h6, h7, h8⟩ := ih
    refine ⟨uf', groups', ?_, h2, h3, h4, h5, h6, h7, ?_⟩
    · simp only [communitiesLoop, hf]
      exact h1
    · intro r x hx
      rw [h8 r x hx, List.append_assoc, List.singleton_append]

theorem members_of_mem {groups : IntMap (List Int)} (hn : groups.keys.Nodup)
    {p : Int × List Int} (hp : p ∈ groups) : members groups p.1 = p.2 := by
  unfold members
  rw [IntMap.find?_of_mem hn hp]
  rfl

/-- The result of `getCommunities` on a state with an acyclic parent map and unique keys. -/
theorem getCommunities_acyclic {uf : UnionFind} (ha : uf.Acyclic) (hn : uf.parent.keys.Nodup) :
    ∃ uf' groups, uf.getCommunities = some (uf', groups) ∧
      uf'.parent.keys = uf.parent.keys ∧ (∀ y s, uf'.RootOf y s ↔ uf.RootOf y s) ∧
      uf'.rankv = uf.rankv ∧
      groups.keys.Nodup ∧ (∀ r ms, groups.find? r = some ms → ms ≠ []) ∧
      (∀ r x, x ∈ members groups r → uf.RootOf x r) ∧
      (∀ r x, uf.RootOf x r → (members groups r).count x = 1) := by
  obtain ⟨uf', groups, h1, h2, h3, h4, h5, h6, h7, h8⟩ :=
    communitiesLoop_acyclic ha uf.parent.keys [] uf [] rfl (fun _ _ => Iff.rfl) rfl
      (fun x hx => (IntMap.contains_iff _ _).mpr hx) (by simp [IntMap.keys])
      (by intro r ms h; simp [IntMap.find?] at h)
      (by intro r x h; simp [members, IntMap.find?] at h)
      (by intro r x _; simp [members, IntMap.find?])
  refine ⟨uf', groups, h1, h2, h3, h4, h5, h6, h7, fun r x hx => ?_⟩
  rw [h8 r x hx, List.nil_append]
  exact List.count_eq_one_of_mem hn ((IntMap.contains_iff _ _).mp hx.known)

/-! ### Union by rank -/

theorem rank_of_unknown {uf : UnionFind} (hw : uf.WF) {x : Int}
    (h : uf.parent.contains x = false) : uf.rank x = 0 := by
  have h2 : uf.rankv.contains x = false := by rw [hw.sameKeys]; exact h
  have h3 : uf.rankv.find? x = none := by simpa [IntMap.contains] using h2
  simp [rank, h3]

theorem balanced_empty : UnionFind.empty.Balanced :=
  ⟨fun _ => le_refl _, fun r hr => by simp [UnionFind.empty, IntMap.find?] at hr⟩

theorem balanced_add {uf : UnionFind} (hw : uf.WF) (hb : uf.Balanced) (x : Int) :
    (uf.add x).Balanced := by
  by_cases h : uf.parent.contains x = true
  · rw [add_of_known h]; exact hb
  · have h' : uf.parent.contains x = false := by simpa using h
    refine ⟨fun y => by rw [rank_add uf hw]; exact hb.rankNonneg y, fun r hr => ?_⟩
    rw [find?_add_of_unknown h'] at hr
    rw [rank_add uf hw]
    split at hr
    · rename_i e
      subst e
      refine ⟨{x}, fun y hy => ?_, ?_⟩
      · rw [Finset.mem_singleton.mp hy]
        exact (rootOf_add hw x x x).mpr (Or.inr ⟨h', rfl, rfl⟩)
      · rw [rank_of_unknown hw h']; simp
    · obtain ⟨S, h1, h2⟩ := hb.size r hr
      exact ⟨S, fun y hy => (rootOf_add hw x y r).mpr (Or.inl (h1 y hy)), h2⟩

theorem balanced_compressed {uf uf' : UnionFind} (hc : uf.Compressed uf') (hw : uf.WF)
    (hb : uf.Balanced) : uf'.Balanced := by
  refine ⟨fun y => by rw [hc.rank_eq]; exact hb.rankNonneg y, fun r hr => ?_⟩
  have hr0 : uf.parent.find? r = some r :=
    ((hc.rootOf_iff hw r r).mp (RootOf.root hr)).isRoot
  obtain ⟨S, h1, h2⟩ := hb.size r hr0
  exact ⟨S, fun y hy => hc.rootOf y r (h1 y hy), by rw [hc.rank_eq]; exact h2⟩

theorem balanced_attach {uf uf' : UnionFind} (hb : uf.Balanced) {c t : Int}
    (ht : uf.parent.find? t = some t) (hc : uf.parent.find? c = some c) (hne : c ≠ t)
    (hp : uf'.parent = uf.parent.set c t)
    (hr1 : ∀ y, y ≠ t → uf'.rank y = uf.rank y)
    (hr2 : uf'.rank t = uf.rank t ∨ (uf'.rank t = uf.rank t + 1 ∧ uf.rank c = uf.rank t))
    (hroot : ∀ y s, uf.RootOf y s → uf'.RootOf y (if s = c then t else s)) :
    uf'.Balanced := by
  have hnt := hb.rankNonneg t
  refine ⟨fun y => ?_, fun r hr => ?_⟩
  · by_cases e : y = t
    · subst e
      rcases hr2 with h | ⟨h, _⟩ <;> omega
    · rw [hr1 y e]; exact hb.rankNonneg y
  · rw [hp, IntMap.find?_set] at hr
    split at hr
    · rename_i e
      cases hr
      exact absurd e hne
    · rename_i hcr
      have hrc : ¬ r = c := fun e => hcr e.symm
      obtain ⟨S, h1, h2⟩ := hb.size r hr
      have hS : ∀ x ∈ S, uf'.RootOf x r := fun x hx => by
        have := hroot x r (h1 x hx)
        rwa [if_neg hrc] at this
      by_cases e : r = t
      · subst e
        rcases hr2 with h | ⟨h, hct⟩
        · exact ⟨S, hS, by rw [h]; exact h2⟩
        · obtain ⟨Sc, h3, h4⟩ := hb.size c hc
          have hdis : Disjoint S Sc := by
            rw [Finset.disjoint_left]
            intro x hx1 hx2
            exact hne ((h3 x hx2).unique (h1 x hx1))
          refine ⟨S ∪ Sc, fun x hx => ?_, ?_⟩
          · rcases Finset.mem_union.mp hx with hx | hx
            · exact hS x hx
            · have := hroot x c (h3 x hx)
              rwa [if_pos rfl] at this
          · rw [Finset.card_union_of_disjoint hdis, h]
            have e1 : (uf.rank r + 1).toNat = (uf.rank r).toNat + 1 := by omega
            rw [e1, pow_succ]
            rw [hct] at h4
            omega
      · exact ⟨S, hS, by rw [hr1 r e]; exact h2⟩

theorem balanced_link {uf : UnionFind} (hw : uf.WF) (hb : uf.Balanced) {ra rb : Int}
    (ha : uf.parent.find? ra = some ra) (hb2 : uf.parent.find? rb = some rb) (hne : ra ≠ rb) :
    (uf.link ra rb).Balanced := by
  have hka : uf.rankv.contains ra = true := by
    rw [hw.sameKeys]; exact IntMap.contains_of_find? ha
  have hkb : uf.rankv.contains rb = true := by
    rw [hw.sameKeys]; exact IntMap.contains_of_find? hb2
  have hl : uf.link ra rb =
      if uf.rank ra < uf.rank rb then ⟨uf.parent.set ra rb, uf.rankv⟩
      else if uf.rank ra > uf.rank rb then ⟨uf.parent.set rb ra, uf.rankv⟩
      else ⟨uf.parent.set rb ra, uf.rankv.set ra (uf.rank ra + 1)⟩ := by
    simp only [link, index_rank hka, index_rank hkb]
  rw [hl]
  by_cases h1 : uf.rank ra < uf.rank rb
  · rw [if_pos h1]
    obtain ⟨_, _, h3⟩ := @attach_spec uf ⟨uf.parent.set ra rb, uf.rankv⟩ hw ra rb ha hb2 hne rfl
      hw.nodupRank (fun _ => rfl) (fun _ _ => rfl) (le_refl _) h1
    exact balanced_attach hb hb2 ha hne rfl (fun _ _ => rfl) (Or.inl rfl) h3
  · rw [if_neg h1]
    by_cases h2 : uf.rank ra > uf.rank rb
    · rw [if_pos h2]
      obtain ⟨_, _, h3⟩ := @attach_spec uf ⟨uf.parent.set rb ra, uf.rankv⟩ hw rb ra hb2 ha
        (Ne.symm hne) rfl hw.nodupRank (fun _ => rfl) (fun _ _ => rfl) (le_refl _) h2
      exact balanced_attach hb ha hb2 (Ne.symm hne) rfl (fun _ _ => rfl) (Or.inl rfl) h3
    · rw [if_neg h2]
      have hrk : ∀ y, rank ⟨uf.parent.set rb ra, uf.rankv.set ra (uf.rank ra + 1)⟩ y =
          if ra = y then uf.rank ra + 1 else uf.rank y := by
        intro y
        show ((uf.rankv.set ra (uf.rank ra + 1)).find? y).getD 0 = _
        rw [IntMap.find?_set]
        split <;> rfl
      obtain ⟨_, _, h3⟩ := @attach_spec uf
        ⟨uf.parent.set rb ra, uf.rankv.set ra (uf.rank ra + 1)⟩ hw rb ra hb2 ha
        (Ne.symm hne) rfl (IntMap.nodup_keys_set hw.nodupRank _ _)
        (fun x => IntMap.contains_eq_of_keys_eq
          (IntMap.keys_set_of_mem ((IntMap.contains_iff _ _).mp hka) _) x)
        (fun y hy => by rw [hrk, if_neg (Ne.symm hy)])
        (by rw [hrk, if_pos rfl]; omega) (by rw [hrk, if_pos rfl]; omega)
      refine balanced_attach hb ha hb2 (Ne.symm hne) rfl
        (fun y hy => by rw [hrk, if_neg (Ne.symm hy)]) (Or.inr ⟨?_, ?_⟩) h3
      · rw [hrk, if_pos rfl]
      · omega

theorem balanced_unite {uf uf' : UnionFind} (hw : uf.WF) (hb : uf.Balanced) {a b : Int}
    (he : uf.unite a b = some uf') : uf'.Balanced := by
  have hw0 : ((uf.add a).add b).WF := wf_add (wf_add hw a) b
  have hb0 : ((uf.add a).add b).Balanced := balanced_add (wf_add hw a) (balanced_add hw hb a) b
  have hka : ((uf.add a).add b).parent.contains a = true := by
    rw [contains_add, contains_add]; exact Or.inl (Or.inr rfl)
  have hkb : ((uf.add a).add b).parent.contains b = true := by
    rw [contains_add]; exact Or.inr rfl
  obtain ⟨uf1, ra, hf1, hw1, hc1, hra⟩ := find_spec hw0 hka
  obtain ⟨uf2, rb, hf2, hw2, hc2, hrb⟩ := find_spec hw1 (by rw [hc1.contains_eq]; exact hkb)
  have hb2 : uf2.Balanced := balanced_compressed hc2 hw1 (balanced_compressed hc1 hw0 hb0)
  have hra2 : uf2.RootOf a ra := hc2.rootOf a ra (hc1.rootOf a ra hra)
  have hrb2 : uf2.RootOf b rb := hc2.rootOf b rb hrb
  by_cases e : ra = rb
  · simp only [unite, hf1, hf2, e, if_true, Option.some.injEq] at he
    rw [← he]; exact hb2
  · simp only [unite, hf1, hf2, e, if_false, Option.some.injEq] at he
    rw [← he]
    exact balanced_link hw2 hb2 hra2.isRoot hrb2.isRoot e

theorem Reorder.balanced {uf uf' : UnionFind} (h : uf.Reorder uf') (hw : uf.WF)
    (hb : uf.Balanced) : uf'.Balanced := by
  refine ⟨fun y => by rw [h.rank_reorder hw]; exact hb.rankNonneg y, fun r hr => ?_⟩
  rw [h.find?_parent hw] at hr
  obtain ⟨S, h1, h2⟩ := hb.size r hr
  exact ⟨S, fun x hx => h.rootOf hw (h1 x hx), by rw [h.rank_reorder hw]; exact h2⟩

theorem RootIn.rank_add_le {uf : UnionFind} (hw : uf.WF) {x r : Int} {n : Nat}
    (h : uf.RootIn x r n) : (n : Int) + uf.rank x ≤ uf.rank r := by
  induction h with
  | root _ => simp
  | step h1 h2 _ ih =>
    have := hw.rankLt _ _ h1 h2
    push_cast
    omega

theorem rootOf_of_find {uf : UnionFind} (hw : uf.WF) {x r : Int}
    (hx : uf.parent.contains x = true) (h : (uf.find x).map Prod.snd = some r) :
    uf.RootOf x r := by
  obtain ⟨uf', r', h1, _, _, h4⟩ := find_spec hw hx
  rw [h1] at h
  simp only [Option.map_some', Option.some.injEq] at h
  rw [← h]; exact h4

theorem Reachable.reachable_balanced {uf : UnionFind} (h : uf.Reachable) : uf.Balanced := by
  induction h with
  | empty => exact balanced_empty
  | add x h0 ih => exact balanced_add h0.reachable_wf ih x
  | unite a b h0 he ih => exact balanced_unite h0.reachable_wf ih he
  | find x r h0 hx he ih =>
    obtain ⟨uf1, r1, h1, _, h3, _⟩ := find_spec h0.reachable_wf hx
    rw [h1] at he; cases he
    exact balanced_compressed h3 h0.reachable_wf ih
  | getCommunities h0 he ih =>
    obtain ⟨uf1, g1, h1, _, h3, _⟩ := getCommunities_spec h0.reachable_wf
    rw [h1] at he; cases he
    exact balanced_compressed h3 h0.reachable_wf ih
  | reorder h0 hr ih => exact hr.balanced h0.reachable_wf ih

end UnionFind

/-! ## Connectivity -/

namespace Graph

theorem connected_congr {g g' : Graph}
    (h : ∀ x y, y ∈ g'.neighbors x ↔ y ∈ g.neighbors x) (a b : Int) :
    g'.Connected a b ↔ g.Connected a b :=
  ⟨Relation.ReflTransGen.mono fun x y hxy => (h x y).mp hxy,
    Relation.ReflTransGen.mono fun x y hxy => (h x y).mpr hxy⟩

theorem connected_addUser (g : Graph) (u a b : Int) :
    (g.addUser u).Connected a b ↔ g.Connected a b :=
  connected_congr (fun x y => by rw [neighbors_addUser]) a b

theorem Reorder.connected_iff {g g' : Graph} (h : g.Reorder g') (a b : Int) :
    g'.Connected a b ↔ g.Connected a b :=
  connected_congr (fun x y => h.mem_neighbors x y) a b

theorem connected_of_not_hasUser {g : Graph} {a : Int} (h : ¬ g.hasUser a = true) (b : Int) :
    g.Connected a b ↔ a = b := by
  constructor
  · intro hc
    rcases Relation.ReflTransGen.cases_head hc with e | ⟨c, hac, _⟩
    · exact e
    · have : c ∈ g.neighbors a := hac
      rw [neighbors_of_not_hasUser h] at this
      simp at this
  · rintro rfl
    exact Relation.ReflTransGen.refl

theorem WF.connected_symm {g : Graph} (hw : g.WF) {a b : Int} (h : g.Connected a b) :
    g.Connected b a :=
  Relation.ReflTransGen.symmetric (fun x y hxy => hw.symm x y hxy) h

theorem WF.hasUser_of_connected {g : Graph} (hw : g.WF) {a b : Int}
    (ha : g.hasUser a = true) (h : g.Connected a b) : g.hasUser b = true := by
  induction h with
  | refl => exact ha
  | tail _ hbc _ => exact hw.closed _ _ hbc

theorem connected_addFriendship (g : Graph) (u v y z : Int) :
    (g.addFriendship u v).Connected y z ↔
      g.Connected y z ∨ (g.Connected y u ∧ g.Connected v z) ∨
        (g.Connected y v ∧ g.Connected u z) := by
  constructor
  · intro h
    induction h with
    | refl => exact Or.inl Relation.ReflTransGen.refl
    | @tail b c _ hbc ih =>
      have hbc' := (mem_neighbors_addFriendship g u v b c).mp hbc
      rcases hbc' with hbc' | ⟨e1, e2⟩ | ⟨e1, e2⟩
      · have hstep : g.Connected b c := Relation.ReflTransGen.single hbc'
        rcases ih with ih | ⟨h1, h2⟩ | ⟨h1, h2⟩
        · exact Or.inl (ih.trans hstep)
        · exact Or.inr (Or.inl ⟨h1, h2.trans hstep⟩)
        · exact Or.inr (Or.inr ⟨h1, h2.trans hstep⟩)
      · subst e1; subst e2
        rcases ih with ih | ⟨h1, _⟩ | ⟨h1, _⟩
        · exact Or.inr (Or.inl ⟨ih, Relation.ReflTransGen.refl⟩)
        · exact Or.inr (Or.inl ⟨h1, Relation.ReflTransGen.refl⟩)
        · exact Or.inl h1
      · subst e1; subst e2
        rcases ih with ih | ⟨h1, _⟩ | ⟨h1, _⟩
        · exact Or.inr (Or.inr ⟨ih, Relation.ReflTransGen.refl⟩)
        · exact Or.inl h1
        · exact Or.inr (Or.inr ⟨h1, Relation.ReflTransGen.refl⟩)
  · have hmono : ∀ {a b : Int}, g.Connected a b → (g.addFriendship u v).Connected a b :=
      Relation.ReflTransGen.mono fun x y hxy =>
        (mem_neighbors_addFriendship g u v x y).mpr (Or.inl hxy)
    have huv : (g.addFriendship u v).Connected u v :=
      Relation.ReflTransGen.single
        ((mem_neighbors_addFriendship g u v u v).mpr (Or.inr (Or.inl ⟨rfl, rfl⟩)))
    have hvu : (g.addFriendship u v).Connected v u :=
      Relation.ReflTransGen.single
        ((mem_neighbors_addFriendship g u v v u).mpr (Or.inr (Or.inr ⟨rfl, rfl⟩)))
    rintro (h | ⟨h1, h2⟩ | ⟨h1, h2⟩)
    · exact hmono h
    · exact ((hmono h1).trans huv).trans (hmono h2)
    · exact ((hmono h1).trans hvu).trans (hmono h2)

end Graph

/-! ## Facade: the invariant -/

namespace Network

theorem inv_empty : Network.empty.WF where
  graph := Graph.wf_empty
  uf := by
    refine ⟨by simp [Network.empty, UnionFind.empty, IntMap.keys],
      by simp [Network.empty, UnionFind.empty, IntMap.keys], fun _ => rfl, ?_, ?_⟩
    · intro x p h; simp [Network.empty, UnionFind.empty, IntMap.find?] at h
    · intro x p h; simp [Network.empty, UnionFind.empty, IntMap.find?] at h
  sameUsers := fun _ => rfl
  classes := by
    intro a b
    constructor
    · rintro ⟨r, h, _⟩
      have := h.known
      simp [Network.empty, UnionFind.empty, IntMap.contains, IntMap.find?] at this
    · rintro ⟨h, _⟩
      simp [Network.empty, Graph.empty, Graph.hasUser, IntMap.contains, IntMap.find?] at h

theorem inv_addUser {s : Network} (hw : s.WF) (u : Int) : (s.addUser u).WF where
  graph := Graph.wf_addUser hw.graph u
  uf := UnionFind.wf_add hw.uf u
  sameUsers := by
    intro x
    rw [Bool.eq_iff_iff]
    show (s.uf.add u).parent.contains x = true ↔ (s.graph.addUser u).hasUser x = true
    rw [UnionFind.contains_add, Graph.hasUser_addUser, hw.sameUsers]
  classes := by
    intro a b
    show (s.uf.add u).SameClass a b ↔
      ((s.graph.addUser u).hasUser a = true ∧ (s.graph.addUser u).Connected a b)
    rw [UnionFind.sameClass_add hw.uf, Graph.hasUser_addUser, Graph.connected_addUser,
      hw.classes, hw.sameUsers]
    constructor
    · rintro (⟨h1, h2⟩ | ⟨_, h2, h3⟩)
      · exact ⟨Or.inl h1, h2⟩
      · subst h2; subst h3
        exact ⟨Or.inr rfl, Relation.ReflTransGen.refl⟩
    · rintro ⟨h1 | h1, h2⟩
      · exact Or.inl ⟨h1, h2⟩
      · subst h1
        by_cases hk : s.graph.hasUser a = true
        · exact Or.inl ⟨hk, h2⟩
        · have := (Graph.connected_of_not_hasUser hk b).mp h2
          exact Or.inr ⟨by simpa using hk, rfl, this.symm⟩

/-- The facade call `addFriendship(u, v)` terminates and keeps the invariant. -/
theorem inv_addFriendship {s : Network} (hw : s.WF) (u v : Int) :
    ∃ s', s.addFriendship u v = some s' ∧ s'.WF ∧ s'.graph = s.graph.addFriendship u v := by
  obtain ⟨uf', hu, hwf, hcont, hcls⟩ := UnionFind.unite_spec hw.uf u v
  have hw1 : ((s.addUser u).addUser v).WF := inv_addUser (inv_addUser hw u) v
  have hg1 := hw1.graph
  have hcl1 : ∀ a b, ((s.uf.add u).add v).SameClass a b ↔
      (((s.graph.addUser u).addUser v).hasUser a = true ∧
        ((s.graph.addUser u).addUser v).Connected a b) := hw1.classes
  have hK : ∀ x, (s.graph.addFriendship u v).hasUser x = true ↔
      ((s.graph.addUser u).addUser v).hasUser x = true := by
    intro x
    rw [Graph.hasUser_addFriendship, Graph.hasUser_addUser, Graph.hasUser_addUser, or_assoc]
  have hC : ∀ a b, ((s.graph.addUser u).addUser v).Connected a b ↔ s.graph.Connected a b := by
    intro a b
    rw [Graph.connected_addUser, Graph.connected_addUser]
  have hKu : ((s.graph.addUser u).addUser v).hasUser u = true := by
    rw [Graph.hasUser_addUser, Graph.hasUser_addUser]; exact Or.inl (Or.inr rfl)
  have hKv : ((s.graph.addUser u).addUser v).hasUser v = true := by
    rw [Graph.hasUser_addUser]; exact Or.inr rfl
  refine ⟨⟨s.graph.addFriendship u v, uf'⟩, by simp [addFriendship, hu], ?_, rfl⟩
  refine ⟨Graph.wf_addFriendship hw.graph u v, hwf, ?_, ?_⟩
  · intro x
    show uf'.parent.contains x = (s.graph.addFriendship u v).hasUser x
    rw [hcont, Bool.eq_iff_iff, hK]
    exact Bool.eq_iff_iff.mp (hw1.sameUsers x)
  · intro y z
    show uf'.SameClass y z ↔
      ((s.graph.addFriendship u v).hasUser y = true ∧ (s.graph.addFriendship u v).Connected y z)
    rw [hcls, hcl1, hcl1, hcl1, hcl1, hcl1, hK, Graph.connected_addFriendship,
      ← hC y z, ← hC y u, ← hC v z, ← hC y v, ← hC u z]
    constructor
    · rintro (⟨h1, h2⟩ | ⟨⟨h1, h2⟩ | ⟨h1, h2⟩, ⟨_, h4⟩ | ⟨_, h4⟩⟩)
      · exact ⟨h1, Or.inl h2⟩
      · exact ⟨h1, Or.inl (h2.trans (hg1.connected_symm h4))⟩
      · exact ⟨h1, Or.inr (Or.inl ⟨h2, hg1.connected_symm h4⟩)⟩
      · exact ⟨h1, Or.inr (Or.inr ⟨h2, hg1.connected_symm h4⟩)⟩
      · exact ⟨h1, Or.inl (h2.trans (hg1.connected_symm h4))⟩
    · rintro ⟨hy, h | ⟨h1, h2⟩ | ⟨h1, h2⟩⟩
      · exact Or.inl ⟨hy, h⟩
      · exact Or.inr ⟨Or.inl ⟨hy, h1⟩,
          Or.inr ⟨hg1.hasUser_of_connected hKv h2, hg1.connected_symm h2⟩⟩
      · exact Or.inr ⟨Or.inr ⟨hy, h1⟩,
          Or.inl ⟨hg1.hasUser_of_connected hKu h2, hg1.connected_symm h2⟩⟩

theorem wf_of_compressed {s : Network} (hw : s.WF) {uf' : UnionFind} (hwf : uf'.WF)
    (hc : s.uf.Compressed uf') : WF ⟨s.graph, uf'⟩ where
  graph := hw.graph
  uf := hwf
  sameUsers := by
    intro x
    show uf'.parent.contains x = s.graph.hasUser x
    rw [hc.contains_eq, hw.sameUsers]
  classes := by
    intro a b
    show uf'.SameClass a b ↔ _
    rw [hc.sameClass_iff hw.uf, hw.classes]

theorem wf_communities {s s' : Network} {groups : IntMap (List Int)} (hw : s.WF)
    (h : s.communities = some (s', groups)) : s'.WF := by
  obtain ⟨uf', groups', h1, h2, h3, _⟩ := UnionFind.getCommunities_spec hw.uf
  simp only [communities, h1, Option.map_some', Option.some.injEq, Prod.mk.injEq] at h
  rw [← h.1]
  exact wf_of_compressed hw h2 h3

theorem wf_reorder {s : Network} (hw : s.WF) {g : Graph} {uf : UnionFind}
    (hg : s.graph.Reorder g) (hu : s.uf.Reorder uf) : WF ⟨g, uf⟩ where
  graph := hg.graph_wf hw.graph
  uf := hu.uf_wf hw.uf
  sameUsers := by
    intro x
    show uf.parent.contains x = g.hasUser x
    rw [hg.hasUser_eq, ← hw.sameUsers]
    simp only [IntMap.contains, hu.find?_parent hw.uf]
  classes := by
    intro a b
    show uf.SameClass a b ↔ (g.hasUser a = true ∧ g.Connected a b)
    rw [hu.sameClass_reorder hw.uf, hg.hasUser_eq, hg.connected_iff, hw.classes]

theorem Reachable.network_wf {s : Network} (h : s.Reachable) : s.WF := by
  induction h with
  | empty => exact inv_empty
  | addUser u _ ih => exact inv_addUser ih u
  | addFriendship u v _ he ih =>
    obtain ⟨s1, h1, h2, _⟩ := inv_addFriendship ih u v
    rw [h1] at he
    cases he
    exact h2
  | communities _ hc ih => exact wf_communities ih hc
  | reorder _ hg hu ih => exact wf_reorder ih hg hu

/-- The result of `communities()`: it terminates, and two ids are listed in one group
exactly when they have the same root. -/
theorem communities_spec {s : Network} (hw : s.WF) :
    ∃ s' groups, s.communities = some (s', groups) ∧ s'.WF ∧ s'.graph = s.graph ∧
      groups.keys.Nodup ∧ (∀ r ms, groups.find? r = some ms → ms ≠ []) ∧
      (∀ r x, x ∈ UnionFind.members groups r ↔ s.uf.RootOf x r) := by
  obtain ⟨uf', groups, h1, h2, h3, h4, h5, h6⟩ := UnionFind.getCommunities_spec hw.uf
  exact ⟨⟨s.graph, uf'⟩, groups, by simp [communities, h1], wf_of_compressed hw h2 h3, rfl,
    h4, h5, h6⟩

/-! ### The sample dataset -/

theorem Reachable.graph_reachable {s : Network} (h : s.Reachable) : s.graph.Reachable := by
  induction h with
  | empty => exact Graph.Reachable.empty
  | addUser u _ ih => exact Graph.Reachable.addUser u ih
  | @addFriendship s s' u v _ he ih =>
    unfold Network.addFriendship at he
    obtain ⟨uf1, _, e⟩ := Option.map_eq_some'.mp he
    rw [← e]
    exact Graph.Reachable.addFriendship u v ih
  | @communities s s' groups _ he ih =>
    unfold Network.communities at he
    obtain ⟨r, _, e⟩ := Option.map_eq_some'.mp he
    simp only [Prod.mk.injEq] at e
    rw [← e.1]
    exact ih
  | reorder _ hg _ ih => exact Graph.Reachable.reorder ih hg

theorem reachable_foldl_addUser {s : Network} (h : s.Reachable) (l : List Int) :
    (l.foldl Network.addUser s).Reachable := by
  induction l generalizing s with
  | nil => exact h
  | cons u l ih => exact ih (Reachable.addUser u h)

theorem reachable_addFriendships {s s' : Network} (h : s.Reachable) (es : List (Int × Int))
    (he : s.addFriendships es = some s') : s'.Reachable := by
  induction es generalizing s with
  | nil =>
    simp only [addFriendships, Option.some.injEq] at he
    rw [← he]; exact h
  | cons e es ih =>
    obtain ⟨u, v⟩ := e
    cases h1 : s.addFriendship u v with
    | none => simp [addFriendships, h1] at he
    | some s1 =>
      simp only [addFriendships, h1, Option.some_bind] at he
      exact ih (Reachable.addFriendship u v h h1) he

theorem reachable_sample {s : Network} (h : sampleNetwork = some s) : s.Reachable :=
  reachable_addFriendships (reachable_foldl_addUser Reachable.empty _) _ h

end Network

theorem length_eq_two_of_mem_iff {l : List Int} (hn : l.Nodup)
    (h : ∀ r, r ∈ l ↔ r = 1 ∨ r = 6) : l.length = 2 := by
  have : l.toFinset = ({1, 6} : Finset Int) := by
    ext r
    simp [h]
  rw [← List.toFinset_card_of_nodup hn, this]
  rfl

/-! ## Claims -/

/-- C1 (failing input): with the users `-1` and `2` joined by a friendship, both ids are
known and connected, yet `shortestPath(2, -1)` is empty and `shortestPath(-1, 2)` is `[2]`,
because `-1` is also the end-of-chain marker of the parent map. -/
theorem shortestPath_sentinel_user :
    (Graph.empty.addFriendship (-1) 2).Reachable ∧
    (Graph.empty.addFriendship (-1) 2).hasUser 2 = true ∧
    (Graph.empty.addFriendship (-1) 2).hasUser (-1) = true ∧
    (Graph.empty.addFriendship (-1) 2).Connected 2 (-1) ∧
    (Graph.empty.addFriendship (-1) 2).Connected (-1) 2 ∧
    (Graph.empty.addFriendship (-1) 2).shortestPath 2 (-1) = some [] ∧
    (Graph.empty.addFriendship (-1) 2).shortestPath (-1) 2 = some [2] := by
  refine ⟨Graph.Reachable.addFriendship _ _ Graph.Reachable.empty, by decide, by decide,
    Relation.ReflTransGen.single ?_, Relation.ReflTransGen.single ?_, by decide, by decide⟩
  · show (-1 : Int) ∈ (Graph.empty.addFriendship (-1) 2).neighbors 2
    decide
  · show (2 : Int) ∈ (Graph.empty.addFriendship (-1) 2).neighbors (-1)
    decide

/-- C2: in every reachable state of the facade, `communities()` terminates and a known
user `a` and any id `b` (in particular a known user) are listed in the same group exactly
when a friendship path of zero or more edges connects them. -/
theorem communities_iff_connected (s : Network) (hs : s.Reachable) (a b : Int)
    (ha : s.graph.hasUser a = true) :
    ∃ s' groups, s.communities = some (s', groups) ∧
      ((∃ p ∈ groups, a ∈ p.2 ∧ b ∈ p.2) ↔ s.graph.Connected a b) := by
  obtain ⟨s', groups, h1, _, _, h4, _, h6⟩ := Network.communities_spec hs.network_wf
  refine ⟨s', groups, h1, ?_⟩
  rw [UnionFind.same_group_iff h4]
  simp only [h6]
  have := hs.network_wf.classes a b
  unfold UnionFind.SameClass at this
  rw [this]
  exact ⟨fun h => h.2, fun h => ⟨ha, h⟩⟩

/-- C2 (instance): after `addFriendship(1, 2)` the users 1 and 2 share a group exactly when
they are connected. -/
theorem communities_iff_connected_witness :
    pairNetwork.Reachable ∧ pairNetwork.graph.hasUser 1 = true ∧
    ∃ s' groups, pairNetwork.communities = some (s', groups) ∧
      ((∃ p ∈ groups, (1 : Int) ∈ p.2 ∧ (2 : Int) ∈ p.2) ↔ pairNetwork.graph.Connected 1 2) :=
  ⟨Network.Reachable.addFriendship 1 2 Network.Reachable.empty (by decide), by decide,
    communities_iff_connected pairNetwork
      (Network.Reachable.addFriendship 1 2 Network.Reachable.empty (by decide)) 1 2 (by decide)⟩

/-- C3 (as stated, refuted): on the sample dataset `recommendFriends(4, 5)` is not
`[(1,1),(3,1),(5,1)]`. -/
theorem sample_recommend_user4_not_three :
    sampleNetwork.map (fun s => s.recommendFriends 4 5) ≠
      some (.ok [(1, 1), (3, 1), (5, 1)]) := by
  decide

/-- C3 (amended): on the sample dataset, under every iteration order of the containers,
`recommendFriends(4, 5)` is exactly `[(1,1),(3,1)]`; user 5 has no friend in common with
user 4 and is not recommended. -/
theorem sample_recommend_user4 :
    ∃ s, sampleNetwork = some s ∧ s.recommendFriends 4 5 = .ok [(1, 1), (3, 1)] ∧
      s.graph.mutualFriendsCount 4 5 = 0 ∧
      ∀ g, s.graph.Reorder g → g.recommendFriends 4 5 = .ok [(1, 1), (3, 1)] := by
  have hs : sampleNetwork.isSome = true := by decide
  obtain ⟨s, hs⟩ := Option.isSome_iff_exists.mp hs
  have h1 : sampleNetwork.map (fun s => s.recommendFriends 4 5) =
      some (.ok [(1, 1), (3, 1)]) := by decide
  have h2 : sampleNetwork.map (fun s => s.graph.mutualFriendsCount 4 5) = some 0 := by decide
  have h3 : sampleNetwork.map (fun s => decide s.graph.Valid) = some true := by decide
  rw [hs] at h1 h2 h3
  simp only [Option.map_some', Option.some.injEq] at h1 h2 h3
  refine ⟨s, hs, h1, h2, fun g hg => ?_⟩
  rw [hg.recommendFriends_eq (of_decide_eq_true h3)]
  exact h1

/-- C3 (instance of the amended statement at the iteration order of the model). -/
theorem sample_recommend_user4_witness :
    ∃ s, sampleNetwork = some s ∧ s.graph.recommendFriends 4 5 = .ok [(1, 1), (3, 1)] := by
  obtain ⟨s, hs, _, _, h⟩ := sample_recommend_user4
  exact ⟨s, hs, h s.graph (Graph.Reorder.reorder_refl _)⟩

/-- C4 (as stated, refuted): on the sample dataset `recommendFriends(6, 5)` is not empty. -/
theorem sample_recommend_user6_not_empty :
    sampleNetwork.map (fun s => s.recommendFriends 6 5) ≠ some (.ok []) := by
  decide

/-- C4 (amended): on the sample dataset, under every iteration order of the containers,
`recommendFriends(6, 5)` is exactly `[(8,1)]`: user 8 shares the neighbour 7 with user 6. -/
theorem sample_recommend_user6 :
    ∃ s, sampleNetwork = some s ∧ s.recommendFriends 6 5 = .ok [(8, 1)] ∧
      (7 ∈ s.graph.neighbors 6 ∧ 7 ∈ s.graph.neighbors 8) ∧
      ∀ g, s.graph.Reorder g → g.recommendFriends 6 5 = .ok [(8, 1)] := by
  have hs : sampleNetwork.isSome = true := by decide
  obtain ⟨s, hs⟩ := Option.isSome_iff_exists.mp hs
  have h1 : sampleNetwork.map (fun s => s.recommendFriends 6 5) = some (.ok [(8, 1)]) := by
    decide
  have h2 : sampleNetwork.map
      (fun s => decide (7 ∈ s.graph.neighbors 6 ∧ 7 ∈ s.graph.neighbors 8)) = some true := by
    decide
  have h3 : sampleNetwork.map (fun s => decide s.graph.Valid) = some true := by decide
  rw [hs] at h1 h2 h3
  simp only [Option.map_some', Option.some.injEq] at h1 h2 h3
  refine ⟨s, hs, h1, of_decide_eq_true h2, fun g hg => ?_⟩
  rw [hg.recommendFriends_eq (of_decide_eq_true h3)]
  exact h1

/-- C4 (instance of the amended statement at the iteration order of the model). -/
theorem sample_recommend_user6_witness :
    ∃ s, sampleNetwork = some s ∧ s.graph.recommendFriends 6 5 = .ok [(8, 1)] := by
  obtain ⟨s, hs, _, _, h⟩ := sample_recommend_user6
  exact ⟨s, hs, h s.graph (Graph.Reorder.reorder_refl _)⟩

/-- C5 (failing input): for a known user and `K = -1` the call `recommendFriends(u, K)`
ends in `std::length_error` raised by `resize`, on a one-user graph and on the sample
dataset alike; `K = 0` gives the empty list. -/
theorem recommendFriends_negative_K_throws :
    (Graph.empty.addUser 1).hasUser 1 = true ∧
    (Graph.empty.addUser 1).recommendFriends 1 (-1) = .error Error.lengthError ∧
    sampleNetwork.map (fun s => s.recommendFriends 4 (-1)) = some (.error Error.lengthError) ∧
    sampleNetwork.map (fun s => s.recommendFriends 4 0) = some (.ok []) := by
  decide

/-- C6 (failing input): the user `-1` is known, yet `shortestPath(-1, -1)` is empty
instead of `[-1]`. -/
theorem shortestPath_self_sentinel :
    (Graph.empty.addUser (-1)).Reachable ∧
    (Graph.empty.addUser (-1)).hasUser (-1) = true ∧
    (Graph.empty.addUser (-1)).shortestPath (-1) (-1) = some [] :=
  ⟨Graph.Reachable.addUser _ Graph.Reachable.empty, by decide, by decide⟩

/-- C7: for every reachable graph, `shortestPath(src, dst)` terminates with the empty
sequence whenever `src` is unknown, `dst` is unknown, or no friendship path leads from
`src` to `dst`. -/
theorem shortestPath_empty_of_unreachable (g : Graph) (hg : g.Reachable) (src dst : Int)
    (h : g.hasUser src = false ∨ g.hasUser dst = false ∨ ¬ g.Connected src dst) :
    g.shortestPath src dst = some [] := by
  unfold Graph.shortestPath
  by_cases hs : g.hasUser src = true
  swap
  · simp [hs]
  by_cases hd : g.hasUser dst = true
  swap
  · simp [hd]
  have hc : ¬ g.Connected src dst := by
    rcases h with h | h | h
    · rw [hs] at h; cases h
    · rw [hd] at h; cases h
    · exact h
  obtain ⟨st, hst, hinv⟩ := Graph.bfsLoop_start hg.wf hs dst
  have hnot : dst ∉ st.visited := fun hm => hc (hinv.connected dst hm)
  simp [hs, hd, hst, hnot]

/-- C7 (instance): in the graph with the single friendship `1 - 2` and the isolated user `3`,
no path leads from `1` to `3` and the search returns the empty sequence. -/
theorem shortestPath_empty_of_unreachable_witness :
    ((Graph.empty.addFriendship 1 2).addUser 3).Reachable ∧
    ¬ ((Graph.empty.addFriendship 1 2).addUser 3).Connected 1 3 ∧
    ((Graph.empty.addFriendship 1 2).addUser 3).shortestPath 1 3 = some [] := by
  have hr : ((Graph.empty.addFriendship 1 2).addUser 3).Reachable :=
    Graph.Reachable.addUser 3 (Graph.Reachable.addFriendship 1 2 Graph.Reachable.empty)
  have key : ∀ x, ((Graph.empty.addFriendship 1 2).addUser 3).Connected 1 x → x = 1 ∨ x = 2 := by
    intro x hx
    induction hx with
    | refl => exact Or.inl rfl
    | @tail y z _ hyz ih =>
      rcases ih with e | e
      · subst e
        have h1 : z ∈ ((Graph.empty.addFriendship 1 2).addUser 3).neighbors 1 := hyz
        have h2 : ((Graph.empty.addFriendship 1 2).addUser 3).neighbors 1 = [2] := by decide
        rw [h2] at h1
        exact Or.inr (List.mem_singleton.mp h1)
      · subst e
        have h1 : z ∈ ((Graph.empty.addFriendship 1 2).addUser 3).neighbors 2 := hyz
        have h2 : ((Graph.empty.addFriendship 1 2).addUser 3).neighbors 2 = [1] := by decide
        rw [h2] at h1
        exact Or.inl (List.mem_singleton.mp h1)
  have hn : ¬ ((Graph.empty.addFriendship 1 2).addUser 3).Connected 1 3 := by
    intro h
    rcases key 3 h with e | e <;> omega
  exact ⟨hr, hn, shortestPath_empty_of_unreachable _ hr 1 3 (Or.inr (Or.inr hn))⟩

/-- C8: in every reachable state of the graph adjacency is symmetric, and after
`addFriendship(a, b)` each endpoint is a neighbour of the other (self-friendships included). -/
theorem symmetry_invariant (g : Graph) (h : g.Reachable) :
    (∀ a b : Int, b ∈ g.neighbors a ↔ a ∈ g.neighbors b) ∧
    (∀ a b : Int, b ∈ (g.addFriendship a b).neighbors a ∧
      a ∈ (g.addFriendship a b).neighbors b) := by
  refine ⟨fun a b => ⟨h.wf.symm a b, h.wf.symm b a⟩, fun a b => ⟨?_, ?_⟩⟩
  · rw [Graph.mem_neighbors_addFriendship]; exact Or.inr (Or.inl ⟨rfl, rfl⟩)
  · rw [Graph.mem_neighbors_addFriendship]; exact Or.inr (Or.inr ⟨rfl, rfl⟩)

/-- C8 (instance): the graph after the self-friendship `addFriendship(1, 1)`. -/
theorem symmetry_invariant_witness :
    (Graph.empty.addFriendship 1 1).Reachable ∧
    (∀ a b : Int, b ∈ (Graph.empty.addFriendship 1 1).neighbors a ↔
      a ∈ (Graph.empty.addFriendship 1 1).neighbors b) ∧
    (∀ a b : Int, b ∈ ((Graph.empty.addFriendship 1 1).addFriendship a b).neighbors a ∧
      a ∈ ((Graph.empty.addFriendship 1 1).addFriendship a b).neighbors b) :=
  ⟨Graph.Reachable.addFriendship 1 1 Graph.Reachable.empty,
    symmetry_invariant _ (Graph.Reachable.addFriendship 1 1 Graph.Reachable.empty)⟩

/-- C9: in every reachable state of the facade a repeated `addUser(a)` changes nothing at
all, and a repeated `addFriendship(a, b)` terminates and leaves the user set, every
neighbour set and the mapping from root to member set returned by `communities()` as they
were after the first call. -/
theorem idempotence (s : Network) (hs : s.Reachable) (a b : Int) :
    (s.addUser a).addUser a = s.addUser a ∧
    ∃ s1 s2, s.addFriendship a b = some s1 ∧ s1.addFriendship a b = some s2 ∧
      (∀ x, s2.graph.hasUser x = s1.graph.hasUser x) ∧
      (∀ x, (s2.graph.neighbors x).toFinset = (s1.graph.neighbors x).toFinset) ∧
      ∃ t1 c1 t2 c2, s1.communities = some (t1, c1) ∧ s2.communities = some (t2, c2) ∧
        ∀ r, (c1.find? r).map List.toFinset = (c2.find? r).map List.toFinset := by
  constructor
  · have h1 : (s.graph.addUser a).hasUser a = true :=
      (Graph.hasUser_addUser _ _ _).mpr (Or.inr rfl)
    have h2 : (s.uf.add a).parent.contains a = true :=
      (UnionFind.contains_add _ _ _).mpr (Or.inr rfl)
    show Network.mk ((s.graph.addUser a).addUser a) ((s.uf.add a).add a) =
      Network.mk (s.graph.addUser a) (s.uf.add a)
    have h3 : ∀ g : Graph, g.hasUser a = true → g.addUser a = g := fun g hg => by
      simp [Graph.addUser, hg]
    rw [UnionFind.add_of_known h2, h3 _ h1]
  · obtain ⟨s1, e1, hw1, hg1⟩ := Network.inv_addFriendship hs.network_wf a b
    obtain ⟨s2, e2, hw2, hg2⟩ := Network.inv_addFriendship hw1 a b
    have hab : b ∈ s1.graph.neighbors a := by
      rw [hg1, Graph.mem_neighbors_addFriendship]; exact Or.inr (Or.inl ⟨rfl, rfl⟩)
    have hba : a ∈ s1.graph.neighbors b := by
      rw [hg1, Graph.mem_neighbors_addFriendship]; exact Or.inr (Or.inr ⟨rfl, rfl⟩)
    have hka : s1.graph.hasUser a = true := Graph.hasUser_of_mem_neighbors hab
    have hkb : s1.graph.hasUser b = true := Graph.hasUser_of_mem_neighbors hba
    have hcls : s1.uf.SameClass a b :=
      (hw1.classes a b).mpr ⟨hka, Relation.ReflTransGen.single hab⟩
    obtain ⟨uf', hu, _, hc⟩ := UnionFind.unite_of_sameClass hw1.uf hcls
    have hs2 : s2.uf = uf' := by
      have e3 := e2
      simp only [Network.addFriendship, hu, Option.map_some', Option.some.injEq] at e3
      rw [← e3]
    obtain ⟨t1, c1, hc1, _, _, _, hne1, hm1⟩ := Network.communities_spec hw1
    obtain ⟨t2, c2, hc2, _, _, _, hne2, hm2⟩ := Network.communities_spec hw2
    refine ⟨s1, s2, e1, e2, ?_, ?_, t1, c1, t2, c2, hc1, hc2, ?_⟩
    · intro x
      rw [Bool.eq_iff_iff, hg2, Graph.hasUser_addFriendship]
      constructor
      · rintro (h | h | h)
        · exact h
        · rw [h]; exact hka
        · rw [h]; exact hkb
      · exact Or.inl
    · intro x
      ext y
      rw [List.mem_toFinset, List.mem_toFinset, hg2, Graph.mem_neighbors_addFriendship]
      constructor
      · rintro (h | ⟨h1, h2⟩ | ⟨h1, h2⟩)
        · exact h
        · rw [h1, h2]; exact hab
        · rw [h1, h2]; exact hba
      · exact Or.inl
    · apply UnionFind.find?_toFinset_congr hne1 hne2
      intro r x
      rw [hm1, hm2, hs2, hc.rootOf_iff hw1.uf]

/-- C9 (instance): the calls repeated on the state reached by `addFriendship(1, 2)`. -/
theorem idempotence_witness :
    pairNetwork.Reachable ∧
    ((pairNetwork.addUser 2).addUser 2 = pairNetwork.addUser 2 ∧
    ∃ s1 s2, pairNetwork.addFriendship 2 3 = some s1 ∧ s1.addFriendship 2 3 = some s2 ∧
      (∀ x, s2.graph.hasUser x = s1.graph.hasUser x) ∧
      (∀ x, (s2.graph.neighbors x).toFinset = (s1.graph.neighbors x).toFinset) ∧
      ∃ t1 c1 t2 c2, s1.communities = some (t1, c1) ∧ s2.communities = some (t2, c2) ∧
        ∀ r, (c1.find? r).map List.toFinset = (c2.find? r).map List.toFinset) :=
  ⟨Network.Reachable.addFriendship 1 2 Network.Reachable.empty (by decide),
    idempotence pairNetwork
      (Network.Reachable.addFriendship 1 2 Network.Reachable.empty (by decide)) 2 3⟩

/-- C11: for `K ≥ 0` the result of `recommendFriends(u, K)` is sorted by mutual count
descending with ties broken by identifier ascending: each entry stands before the next
(indeed before every later one) in that order, and no identifier appears twice. -/
theorem recommendFriends_sorted (g : Graph) (hv : g.Valid) (u K : Int) (hK : 0 ≤ K) :
    ∃ res, g.recommendFriends u K = .ok res ∧
      res.Chain' (fun a b => a.2 > b.2 ∨ (a.2 = b.2 ∧ a.1 < b.1)) ∧
      res.Pairwise (fun a b => a.2 > b.2 ∨ (a.2 = b.2 ∧ a.1 < b.1)) ∧
      (res.map Prod.fst).Nodup := by
  by_cases hu : g.hasUser u = true
  · obtain ⟨n, hn, _⟩ := Graph.recommendFriends_eq_take g u hu K hK
    have hp : ((g.ranked u).take n).Pairwise Graph.Before :=
      (Graph.pairwise_before_ranked hv u).sublist (List.take_sublist n _)
    refine ⟨_, hn, List.Pairwise.chain' hp, hp, ?_⟩
    exact (Graph.nodup_fst_ranked hv u).sublist ((List.take_sublist n _).map Prod.fst)
  · exact ⟨[], Graph.recommendFriends_unknown g u hu K, List.chain'_nil, List.Pairwise.nil,
      List.nodup_nil⟩

/-- C11 (instance): in `rankingGraph` the candidates of user 1 are met in the order 6, 5, 4
and returned as `[(4, 2), (5, 1), (6, 1)]`: the larger count first, the tie between 5 and 6
broken by the smaller identifier. -/
theorem recommendFriends_sorted_witness :
    rankingGraph.Valid ∧ (0 : Int) ≤ 5 ∧
    rankingGraph.getUsers = [6, 3, 5, 2, 4, 1] ∧
    rankingGraph.recommendFriends 1 5 = .ok [(4, 2), (5, 1), (6, 1)] ∧
    ∃ res, rankingGraph.recommendFriends 1 5 = .ok res ∧
      res.Chain' (fun a b => a.2 > b.2 ∨ (a.2 = b.2 ∧ a.1 < b.1)) ∧
      res.Pairwise (fun a b => a.2 > b.2 ∨ (a.2 = b.2 ∧ a.1 < b.1)) ∧
      (res.map Prod.fst).Nodup :=
  ⟨by decide, by decide, by decide, by decide,
    recommendFriends_sorted rankingGraph (by decide) 1 5 (by decide)⟩

/-- C12: for `K ≥ 0` every entry `(v, m)` of `recommendFriends(u, K)` is a known user other
than `u`, not a neighbour of `u`, with `m = mutualFriendsCount(u, v)` and `m > 0`
(self-friendships in the graph included). -/
theorem recommendFriends_entries (g : Graph) (u K : Int) (hK : 0 ≤ K) :
    ∃ res, g.recommendFriends u K = .ok res ∧
      ∀ p ∈ res, g.hasUser p.1 = true ∧ p.1 ≠ u ∧ p.1 ∉ g.neighbors u ∧
        p.2 = g.mutualFriendsCount u p.1 ∧ 0 < p.2 := by
  by_cases hu : g.hasUser u = true
  · obtain ⟨n, hn, _⟩ := Graph.recommendFriends_eq_take g u hu K hK
    exact ⟨_, hn, fun p hp => Graph.mem_ranked (List.mem_of_mem_take hp)⟩
  · exact ⟨[], Graph.recommendFriends_unknown g u hu K, fun p hp => by simp at hp⟩

/-- C12 (instance): the graph with the self-friendship `1 - 1` and the friendships `1 - 2`,
`3 - 2`, user 1, `K = 5`. -/
theorem recommendFriends_entries_witness :
    (0 : Int) ≤ 5 ∧
    ∃ res, (((Graph.empty.addFriendship 1 1).addFriendship 1 2).addFriendship 3 2).recommendFriends
        1 5 = .ok res ∧
      ∀ p ∈ res,
        (((Graph.empty.addFriendship 1 1).addFriendship 1 2).addFriendship 3 2).hasUser p.1 = true ∧
        p.1 ≠ 1 ∧
        p.1 ∉ (((Graph.empty.addFriendship 1 1).addFriendship 1 2).addFriendship 3 2).neighbors 1 ∧
        p.2 = (((Graph.empty.addFriendship 1 1).addFriendship 1 2).addFriendship 3
          2).mutualFriendsCount 1 p.1 ∧ 0 < p.2 :=
  ⟨by decide,
    recommendFriends_entries (((Graph.empty.addFriendship 1 1).addFriendship 1 2).addFriendship 3 2)
      1 5 (by decide)⟩

/-- C13 (failing input): on the star built by `addFriendship(0, 1)` and
`addFriendship(t, 1)` for `t = -2^31, …, -1`, user 0 is known and has exactly the `2^31`
qualifying candidates `-2^31, …, -1`; the cast `(int)candidates.size()` is then negative,
nothing is truncated, and `recommendFriends(0, 5)` returns all `2^31` entries instead of
`min(5, 2^31) = 5`. -/
theorem recommendFriends_overflow_returns_all :
    (starGraph (2 ^ 31)).Reachable ∧ (starGraph (2 ^ 31)).hasUser 0 = true ∧
    (∀ v, v ∈ (starGraph (2 ^ 31)).qualifying 0 ↔ (-2 ^ 31 ≤ v ∧ v < 0)) ∧
    ((starGraph (2 ^ 31)).qualifying 0).length = 2 ^ 31 ∧
    ∃ res, (starGraph (2 ^ 31)).recommendFriends 0 5 = .ok res ∧ res.length = 2 ^ 31 ∧
      res.length ≠ min 5 ((starGraph (2 ^ 31)).qualifying 0).length := by
  have hl := Graph.length_qualifying_starGraph (2 ^ 31)
  have hr := Graph.length_ranked (starGraph (2 ^ 31)) 0
  have hu : (starGraph (2 ^ 31)).hasUser 0 = true :=
    (Graph.hasUser_starGraph _ 0).mpr (Or.inl rfl)
  refine ⟨Graph.reachable_starGraph _, hu, ?_, hl, (starGraph (2 ^ 31)).ranked 0, ?_, ?_, ?_⟩
  · intro v
    rw [Graph.mem_qualifying_starGraph]
    norm_num
  · exact Graph.recommendFriends_of_wrap _ 0 hu 5 (by decide) (by rw [hr, hl])
      (by rw [hr, hl]; norm_num)
  · rw [hr, hl]
  · rw [hr, hl]
    norm_num

/-- C14 (as stated, refuted): on the empty structure `unite(1, 2)` raises the number of
roots from 0 to 1, and after `add(1)` the call `unite(2, 3)` raises it from 1 to 2. -/
theorem unite_unknown_adds_root :
    UnionFind.empty.Reachable ∧ (UnionFind.empty.add 1).Reachable ∧
    UnionFind.empty.numRoots = 0 ∧
    (UnionFind.empty.unite 1 2).map UnionFind.numRoots = some 1 ∧
    (UnionFind.empty.add 1).numRoots = 1 ∧
    ((UnionFind.empty.add 1).unite 2 3).map UnionFind.numRoots = some 2 :=
  ⟨UnionFind.Reachable.empty, UnionFind.Reachable.add 1 UnionFind.Reachable.empty,
    by decide, by decide, by decide, by decide⟩

/-- C14 (amended): in every reachable state `unite(a, b)` terminates; when `a` and `b` are
both known the number of roots does not grow; in general it is at most the number of roots
after `add(a); add(b)`, that is the number before plus one for each unknown id among
`a`, `b`. -/
theorem unite_numRoots (uf : UnionFind) (h : uf.Reachable) (a b : Int) :
    ∃ uf', uf.unite a b = some uf' ∧
      (uf.parent.contains a = true → uf.parent.contains b = true →
        uf'.numRoots ≤ uf.numRoots) ∧
      uf'.numRoots ≤ ((uf.add a).add b).numRoots ∧
      ((uf.add a).add b).numRoots = uf.numRoots +
        (if uf.parent.contains a = true then 0 else 1) +
        (if (uf.add a).parent.contains b = true then 0 else 1) := by
  obtain ⟨uf', h1, h2⟩ := UnionFind.unite_numRoots_le h.reachable_wf a b
  refine ⟨uf', h1, ?_, h2, ?_⟩
  · intro ha hb
    rw [UnionFind.add_of_known ha, UnionFind.add_of_known hb] at h2
    exact h2
  · rw [UnionFind.numRoots_add, UnionFind.numRoots_add]

/-- C14 (instance): `unite(1, 2)` after `add(1); add(2)` lowers the number of roots from 2
to 1. -/
theorem unite_numRoots_witness :
    ((UnionFind.empty.add 1).add 2).Reachable ∧
    ∃ uf', ((UnionFind.empty.add 1).add 2).unite 1 2 = some uf' ∧
      uf'.numRoots ≤ ((UnionFind.empty.add 1).add 2).numRoots := by
  have hr : ((UnionFind.empty.add 1).add 2).Reachable :=
    UnionFind.Reachable.add 2 (UnionFind.Reachable.add 1 UnionFind.Reachable.empty)
  obtain ⟨uf', h1, h2, _⟩ := unite_numRoots _ hr 1 2
  exact ⟨hr, uf', h1, h2 (by decide) (by decide)⟩

/-- C15: in every reachable state of the disjoint-set structure `parent` and `rankv` have
the same keys, every parent value is a key, every key reaches a root after finitely many
parent links (fewer than the number of entries), and `find` terminates on every known id
with that root. -/
theorem reachable_wellformed (uf : UnionFind) (h : uf.Reachable) :
    (∀ x, x ∈ uf.parent.keys ↔ x ∈ uf.rankv.keys) ∧
    (∀ x p, uf.parent.find? x = some p → p ∈ uf.parent.keys) ∧
    (∀ x ∈ uf.parent.keys, ∃ r n, uf.RootIn x r n ∧ uf.parent.find? r = some r) ∧
    (∀ x ∈ uf.parent.keys, ∃ uf' r, uf.find x = some (uf', r) ∧ uf.RootOf x r) := by
  have hw := h.reachable_wf
  refine ⟨?_, ?_, ?_, ?_⟩
  · intro x
    rw [← IntMap.contains_iff, ← IntMap.contains_iff, hw.sameKeys]
  · intro x p hx
    exact (IntMap.contains_iff _ _).mp (hw.closed x p hx)
  · intro x hx
    obtain ⟨r, hr⟩ := UnionFind.exists_rootOf hw ((IntMap.contains_iff _ _).mpr hx)
    obtain ⟨n, hn⟩ := hr.exists_rootIn
    exact ⟨r, n, hn, hr.isRoot⟩
  · intro x hx
    obtain ⟨uf', r, h1, _, _, h4⟩ := UnionFind.find_spec hw ((IntMap.contains_iff _ _).mpr hx)
    exact ⟨uf', r, h1, h4⟩

/-- C15 (instance): the state after `unite(1, 2)`. -/
theorem reachable_wellformed_witness :
    pairNetwork.uf.Reachable ∧
    (∀ x ∈ pairNetwork.uf.parent.keys, ∃ uf' r, pairNetwork.uf.find x = some (uf', r) ∧
      pairNetwork.uf.RootOf x r) :=
  ⟨UnionFind.Reachable.unite 1 2 UnionFind.Reachable.empty (by decide),
    (reachable_wellformed pairNetwork.uf
      (UnionFind.Reachable.unite 1 2 UnionFind.Reachable.empty (by decide))).2.2.2⟩

/-- C16: on the sample dataset, under every iteration order of the containers,
`shortestPath(1, 5)` is exactly `[1, 3, 5]` and `communities()` returns exactly two groups,
with member sets `{1,2,3,4,5}` and `{6,7,8}`. -/
theorem sample_path_and_communities :
    ∃ s, sampleNetwork = some s ∧
      ∀ g uf, s.graph.Reorder g → s.uf.Reorder uf →
        (Network.mk g uf).shortestPath 1 5 = some [1, 3, 5] ∧
        ∃ t groups, (Network.mk g uf).communities = some (t, groups) ∧ groups.length = 2 ∧
          (∃ p ∈ groups, p.2.toFinset = {1, 2, 3, 4, 5}) ∧
          (∃ q ∈ groups, q.2.toFinset = {6, 7, 8}) := by
  have hsome : sampleNetwork.isSome = true := by decide
  obtain ⟨s, hs⟩ := Option.isSome_iff_exists.mp hsome
  have hreach := Network.reachable_sample hs
  have hw := hreach.network_wf
  have hfacts : sampleNetwork.map (fun s : Network => decide (
      s.graph.neighbors 1 = [2, 3] ∧ s.graph.neighbors 2 = [1, 3, 4] ∧
      s.graph.neighbors 3 = [1, 2, 5] ∧ s.graph.hasUser 1 = true ∧
      s.graph.hasUser 5 = true ∧ s.graph.hasUser (-1) = false ∧
      s.uf.parent.keys = [1, 2, 3, 4, 5, 6, 7, 8] ∧
      (∀ x ∈ ([1, 2, 3, 4, 5] : List Int), (s.uf.find x).map Prod.snd = some 1) ∧
      (∀ x ∈ ([6, 7, 8] : List Int), (s.uf.find x).map Prod.snd = some 6))) = some true := by
    decide
  rw [hs] at hfacts
  simp only [Option.map_some', Option.some.injEq] at hfacts
  obtain ⟨n1, n2, n3, k1, k5, kneg, hkeys, hr1, hr6⟩ := of_decide_eq_true hfacts
  refine ⟨s, hs, fun g uf hg hu => ⟨?_, ?_⟩⟩
  · have hgr : g.Reachable := Graph.Reachable.reorder hreach.graph_reachable hg
    have hmem := hg.mem_neighbors
    have a13 : g.Adj 1 3 := (hmem 1 3).mpr (by rw [n1]; decide)
    have a35 : g.Adj 3 5 := (hmem 3 5).mpr (by rw [n3]; decide)
    have hc : g.Connected 1 5 := Relation.ReflTransGen.tail (Relation.ReflTransGen.single a13) a35
    obtain ⟨p, hp, ⟨h1, h2, h3⟩, _, hmin⟩ := Graph.shortestPath_optimal g hgr
      (by rw [hg.hasUser_eq]; exact kneg) 1 5 (by rw [hg.hasUser_eq]; exact k1)
      (by rw [hg.hasUser_eq]; exact k5) hc
    have hlen : p.length ≤ 3 :=
      hmin [1, 3, 5] ⟨rfl, rfl, List.chain'_cons.mpr ⟨a13, List.chain'_cons.mpr
        ⟨a35, List.chain'_singleton _⟩⟩⟩
    show g.shortestPath 1 5 = some [1, 3, 5]
    rw [hp]
    congr 1
    match p, h1, h2, h3, hlen with
    | [], h1, _, _, _ => simp at h1
    | [a], h1, h2, _, _ =>
      simp only [List.head?_cons, Option.some.injEq] at h1
      simp only [List.getLast?_singleton, Option.some.injEq] at h2
      omega
    | [a, b], h1, h2, h3, _ =>
      simp only [List.head?_cons, Option.some.injEq] at h1
      simp only [List.getLast?_cons_cons, List.getLast?_singleton, Option.some.injEq] at h2
      subst h1; subst h2
      have h4 : (5 : Int) ∈ s.graph.neighbors 1 := (hmem 1 5).mp (List.chain'_cons.mp h3).1
      rw [n1] at h4
      exact absurd h4 (by decide)
    | [a, b, c], h1, h2, h3, _ =>
      simp only [List.head?_cons, Option.some.injEq] at h1
      simp only [List.getLast?_cons_cons, List.getLast?_singleton, Option.some.injEq] at h2
      subst h1; subst h2
      have h4 : b ∈ s.graph.neighbors 1 := (hmem 1 b).mp (List.chain'_cons.mp h3).1
      have h5 : (5 : Int) ∈ s.graph.neighbors b :=
        (hmem b 5).mp (List.chain'_cons.mp (List.chain'_cons.mp h3).2).1
      rw [n1] at h4
      simp only [List.mem_cons, List.mem_singleton, List.not_mem_nil, or_false] at h4
      rcases h4 with e | e
      · subst e
        rw [n2] at h5
        exact absurd h5 (by decide)
      · subst e
        rfl
    | _ :: _ :: _ :: _ :: _, _, _, _, hlen =>
      simp only [List.length_cons] at hlen
      omega
  · have hwu : uf.WF := hu.uf_wf hw.uf
    have hknown : ∀ x, x ∈ [1, 2, 3, 4, 5, 6, 7, 8] → s.uf.parent.contains x = true := by
      intro x hx
      rw [IntMap.contains_iff, hkeys]; exact hx
    have hfwd1 : ∀ x ∈ [1, 2, 3, 4, 5], s.uf.RootOf x 1 := fun x hx =>
      UnionFind.rootOf_of_find hw.uf (hknown x (by
        simp only [List.mem_cons, List.mem_singleton, List.not_mem_nil, or_false] at hx ⊢
        omega)) (hr1 x hx)
    have hfwd6 : ∀ x ∈ [6, 7, 8], s.uf.RootOf x 6 := fun x hx =>
      UnionFind.rootOf_of_find hw.uf (hknown x (by
        simp only [List.mem_cons, List.mem_singleton, List.not_mem_nil, or_false] at hx ⊢
        omega)) (hr6 x hx)
    have hroot : ∀ x r, uf.RootOf x r ↔
        (x ∈ [1, 2, 3, 4, 5] ∧ r = 1) ∨ (x ∈ [6, 7, 8] ∧ r = 6) := by
      intro x r
      constructor
      · intro h
        have h0 : s.uf.RootOf x r := hu.reorder_symm.rootOf hwu h
        have hx : x ∈ [1, 2, 3, 4, 5, 6, 7, 8] := by
          rw [← hkeys]; exact (IntMap.contains_iff _ _).mp h0.known
        by_cases hx1 : x ∈ [1, 2, 3, 4, 5]
        · exact Or.inl ⟨hx1, h0.unique (hfwd1 x hx1)⟩
        · have hx6 : x ∈ [6, 7, 8] := by
            simp only [List.mem_cons, List.mem_singleton, List.not_mem_nil, or_false] at hx hx1 ⊢
            omega
          exact Or.inr ⟨hx6, h0.unique (hfwd6 x hx6)⟩
      · rintro (⟨hx, rfl⟩ | ⟨hx, rfl⟩)
        · exact hu.rootOf hw.uf (hfwd1 x hx)
        · exact hu.rootOf hw.uf (hfwd6 x hx)
    obtain ⟨uf', groups, h1, _, _, h4, h5, h6⟩ := UnionFind.getCommunities_spec hwu
    have hgroup : ∀ r, (∃ x, uf.RootOf x r) → ∃ ms, (r, ms) ∈ groups ∧
        ∀ x, x ∈ ms ↔ uf.RootOf x r := by
      intro r ⟨x, hx⟩
      have hm := (h6 r x).mpr hx
      cases hf : groups.find? r with
      | none => simp [UnionFind.members, hf] at hm
      | some ms =>
        refine ⟨ms, IntMap.mem_of_find? hf, fun y => ?_⟩
        rw [← h6 r y]
        simp [UnionFind.members, hf]
    have hkeysG : ∀ r, r ∈ groups.keys ↔ r = 1 ∨ r = 6 := by
      intro r
      constructor
      · intro hr
        obtain ⟨p, hp, e⟩ := List.mem_map.mp hr
        have hne := h5 p.1 p.2 (IntMap.find?_of_mem h4 hp)
        obtain ⟨x, hx⟩ := List.exists_mem_of_ne_nil _ hne
        have hx' : x ∈ UnionFind.members groups p.1 := by
          simp [UnionFind.members, IntMap.find?_of_mem h4 hp, hx]
        rcases (hroot x p.1).mp ((h6 p.1 x).mp hx') with ⟨_, e1⟩ | ⟨_, e1⟩
        · exact Or.inl (e ▸ e1)
        · exact Or.inr (e ▸ e1)
      · rintro (rfl | rfl)
        · obtain ⟨ms, hms, _⟩ := hgroup 1 ⟨1, (hroot 1 1).mpr (Or.inl ⟨by decide, rfl⟩)⟩
          exact List.mem_map.mpr ⟨_, hms, rfl⟩
        · obtain ⟨ms, hms, _⟩ := hgroup 6 ⟨6, (hroot 6 6).mpr (Or.inr ⟨by decide, rfl⟩)⟩
          exact List.mem_map.mpr ⟨_, hms, rfl⟩
    refine ⟨⟨g, uf'⟩, groups, by simp [Network.communities, h1], ?_, ?_, ?_⟩
    · have := length_eq_two_of_mem_iff h4 hkeysG
      simpa [IntMap.keys] using this
    · obtain ⟨ms, hms, hx⟩ := hgroup 1 ⟨1, (hroot 1 1).mpr (Or.inl ⟨by decide, rfl⟩)⟩
      refine ⟨(1, ms), hms, ?_⟩
      ext x
      rw [List.mem_toFinset, hx, hroot]
      simp
    · obtain ⟨ms, hms, hx⟩ := hgroup 6 ⟨6, (hroot 6 6).mpr (Or.inr ⟨by decide, rfl⟩)⟩
      refine ⟨(6, ms), hms, ?_⟩
      ext x
      rw [List.mem_toFinset, hx, hroot]
      simp

/-- C16 (instance of the statement at the iteration order of the model). -/
theorem sample_path_and_communities_witness :
    ∃ s, sampleNetwork = some s ∧ s.shortestPath 1 5 = some [1, 3, 5] ∧
      ∃ t groups, s.communities = some (t, groups) ∧ groups.length = 2 := by
  obtain ⟨s, hs, h⟩ := sample_path_and_communities
  obtain ⟨h1, t, groups, h2, h3, _⟩ := h s.graph s.uf (Graph.Reorder.reorder_refl _)
    ⟨List.Perm.refl _, List.Perm.refl _⟩
  exact ⟨s, hs, h1, t, groups, h2, h3⟩

/-- C17: in a state whose parent map is acyclic, `find(x)` on a known id terminates and
returns the root of `x`; afterwards every node on the parent chain from `x` to the root has
the root as its parent, every other parent entry and every rank entry is unchanged, the
keys are the same, and every id has the same root as before. -/
theorem find_compresses_path (uf : UnionFind) (hw : uf.Acyclic) (x : Int)
    (hx : uf.parent.contains x = true) :
    ∃ uf' r, uf.find x = some (uf', r) ∧ uf.RootOf x r ∧
      (∀ y, uf.OnPath x y → uf'.parent.find? y = some r) ∧
      (∀ y, ¬ uf.OnPath x y → uf'.parent.find? y = uf.parent.find? y) ∧
      uf'.rankv = uf.rankv ∧ uf'.parent.keys = uf.parent.keys ∧
      (∀ y s, uf'.RootOf y s ↔ uf.RootOf y s) := by
  obtain ⟨r, hr⟩ := hw x hx
  obtain ⟨uf', h1, post⟩ := UnionFind.find_of_rootOf hr
  exact ⟨uf', r, h1, hr, post.onPath, post.offPath, post.rankv_eq, post.keys_eq, post.rootOf⟩

/-- C17 (instance): `find(3)` on the chain `3 → 2 → 1` returns 1 and redirects 2 to 1. -/
theorem find_compresses_path_witness :
    chainUF.Acyclic ∧ chainUF.parent.contains 3 = true ∧
    ∃ uf' r, chainUF.find 3 = some (uf', r) ∧ chainUF.RootOf 3 r ∧
      uf'.parent.find? 3 = some r ∧ uf'.parent.find? 2 = some r ∧ uf'.rankv = chainUF.rankv := by
  have h1 : chainUF.RootOf 1 1 := UnionFind.RootOf.root (by decide)
  have h2 : chainUF.RootOf 2 1 := UnionFind.RootOf.step (p := 1) (by decide) (by decide) h1
  have h3 : chainUF.RootOf 3 1 := UnionFind.RootOf.step (p := 2) (by decide) (by decide) h2
  have ha : chainUF.Acyclic := by
    intro x hx
    have hk : x ∈ ([1, 2, 3] : List Int) := (IntMap.contains_iff _ _).mp hx
    simp only [List.mem_cons, List.mem_singleton, List.not_mem_nil, or_false] at hk
    rcases hk with e | e | e <;> subst e
    · exact ⟨1, h1⟩
    · exact ⟨1, h2⟩
    · exact ⟨1, h3⟩
  obtain ⟨uf', r, e1, e2, e3, _, e5, _, _⟩ := find_compresses_path chainUF ha 3 (by decide)
  have p3 : chainUF.OnPath 3 3 := UnionFind.OnPath.here (by decide)
  have p2 : chainUF.OnPath 3 2 :=
    UnionFind.OnPath.next (p := 2) (by decide) (by decide) (UnionFind.OnPath.here (by decide))
  exact ⟨ha, by decide, uf', r, e1, e2, e3 3 p3, e3 2 p2, e5⟩

/-- C18: on a state with an acyclic parent map, `getCommunities()` terminates with a mapping
whose keys are unique and are exactly the roots; every known id is listed exactly once, in
the group keyed by its own root and in no other; every key is a member of its own group,
no group is empty, members are listed once, and every listed id is known. -/
theorem getCommunities_groups (uf : UnionFind) (ha : uf.Acyclic) (hn : uf.parent.keys.Nodup) :
    ∃ uf' groups, uf.getCommunities = some (uf', groups) ∧
      groups.keys.Nodup ∧
      (∀ r, r ∈ groups.keys ↔ uf.parent.find? r = some r) ∧
      (∀ x, uf.parent.contains x = true →
        ∃ p ∈ groups, uf.RootOf x p.1 ∧ p.2.count x = 1 ∧ ∀ q ∈ groups, x ∈ q.2 → q = p) ∧
      (∀ p ∈ groups, p.1 ∈ p.2 ∧ p.2 ≠ [] ∧ p.2.Nodup) ∧
      (∀ p ∈ groups, ∀ x ∈ p.2, uf.parent.contains x = true ∧ uf.RootOf x p.1) := by
  obtain ⟨uf', groups, h1, _, _, _, h5, h6, h7, h8⟩ := UnionFind.getCommunities_acyclic ha hn
  have hmem : ∀ p ∈ groups, ∀ x ∈ p.2, uf.RootOf x p.1 := by
    intro p hp x hx
    apply h7
    rw [UnionFind.members_of_mem h5 hp]
    exact hx
  have hown : ∀ r, uf.parent.find? r = some r →
      ∃ ms, (r, ms) ∈ groups ∧ r ∈ ms := by
    intro r hr
    have hc := h8 r r (UnionFind.RootOf.root hr)
    have hm : r ∈ UnionFind.members groups r := List.count_pos_iff.mp (by omega)
    unfold UnionFind.members at hm
    cases hf : groups.find? r with
    | none => simp [hf] at hm
    | some ms =>
      rw [hf] at hm
      exact ⟨ms, IntMap.mem_of_find? hf, hm⟩
  have hroot : ∀ p ∈ groups, uf.parent.find? p.1 = some p.1 := by
    intro p hp
    have hne : p.2 ≠ [] := h6 p.1 p.2 (IntMap.find?_of_mem h5 hp)
    obtain ⟨x, hx⟩ := List.exists_mem_of_ne_nil _ hne
    exact (hmem p hp x hx).isRoot
  refine ⟨uf', groups, h1, h5, ?_, ?_, ?_, ?_⟩
  · intro r
    constructor
    · intro hr
      obtain ⟨p, hp, e⟩ := List.mem_map.mp hr
      rw [← e]
      exact hroot p hp
    · intro hr
      obtain ⟨ms, hms, _⟩ := hown r hr
      exact List.mem_map.mpr ⟨(r, ms), hms, rfl⟩
  · intro x hx
    obtain ⟨r, hr⟩ := ha x hx
    obtain ⟨ms, hms, _⟩ := hown r hr.isRoot
    have hc := h8 r x hr
    rw [UnionFind.members_of_mem h5 hms] at hc
    refine ⟨(r, ms), hms, hr, hc, fun q hq hxq => ?_⟩
    have e1 : q.1 = r := (hmem q hq x hxq).unique hr
    have e2 := IntMap.find?_of_mem h5 hq
    rw [e1, IntMap.find?_of_mem h5 hms] at e2
    cases e2
    exact Prod.ext e1 rfl
  · intro p hp
    obtain ⟨ms, hms, hr⟩ := hown p.1 (hroot p hp)
    have e2 := IntMap.find?_of_mem h5 hp
    rw [IntMap.find?_of_mem h5 hms] at e2
    cases e2
    refine ⟨hr, List.ne_nil_of_mem hr, List.nodup_iff_count_le_one.mpr fun x => ?_⟩
    by_cases hx : x ∈ p.2
    · have := h8 p.1 x (hmem p hp x hx)
      rw [UnionFind.members_of_mem h5 hp] at this
      omega
    · rw [List.count_eq_zero_of_not_mem hx]
      omega
  · intro p hp x hx
    exact ⟨(hmem p hp x hx).known, hmem p hp x hx⟩

/-- C18 (instance): the groups of the chain `3 → 2 → 1`. -/
theorem getCommunities_groups_witness :
    chainUF.Acyclic ∧ chainUF.parent.keys.Nodup ∧
    ∃ uf' groups, chainUF.getCommunities = some (uf', groups) ∧ groups.keys.Nodup ∧
      (∀ r, r ∈ groups.keys ↔ chainUF.parent.find? r = some r) := by
  have h1 : chainUF.RootOf 1 1 := UnionFind.RootOf.root (by decide)
  have h2 : chainUF.RootOf 2 1 := UnionFind.RootOf.step (p := 1) (by decide) (by decide) h1
  have h3 : chainUF.RootOf 3 1 := UnionFind.RootOf.step (p := 2) (by decide) (by decide) h2
  have ha : chainUF.Acyclic := by
    intro x hx
    have hk : x ∈ ([1, 2, 3] : List Int) := (IntMap.contains_iff _ _).mp hx
    simp only [List.mem_cons, List.mem_singleton, List.not_mem_nil, or_false] at hk
    rcases hk with e | e | e <;> subst e
    · exact ⟨1, h1⟩
    · exact ⟨1, h2⟩
    · exact ⟨1, h3⟩
  obtain ⟨uf', groups, e1, e2, e3, _⟩ := getCommunities_groups chainUF ha (by decide)
  exact ⟨ha, by decide, uf', groups, e1, e2, e3⟩

/-- C19: in every reachable state, the class of a root `r` has at least `2^rank[r]` members,
and a parent chain of `n` links ending in `r` has `n ≤ rank[r]`, hence `2^n` is at most the
size of the class. -/
theorem union_by_rank_bounds (uf : UnionFind) (h : uf.Reachable) (r : Int)
    (hr : uf.parent.find? r = some r) :
    ∃ S : Finset Int, (∀ x, x ∈ S ↔ uf.RootOf x r) ∧ 0 ≤ uf.rank r ∧
      2 ^ (uf.rank r).toNat ≤ S.card ∧
      ∀ x n, uf.RootIn x r n → (n : Int) ≤ uf.rank r ∧ 2 ^ n ≤ S.card := by
  classical
  have hw := h.reachable_wf
  have hb := h.reachable_balanced
  obtain ⟨S0, h1, h2⟩ := hb.size r hr
  have hmem : ∀ x, x ∈ uf.parent.keys.toFinset.filter (fun x => uf.RootOf x r) ↔
      uf.RootOf x r := by
    intro x
    rw [Finset.mem_filter, List.mem_toFinset]
    exact ⟨fun h => h.2, fun h => ⟨(IntMap.contains_iff _ _).mp h.known, h⟩⟩
  have hsub : S0 ⊆ uf.parent.keys.toFinset.filter (fun x => uf.RootOf x r) :=
    fun x hx => (hmem x).mpr (h1 x hx)
  have hcard := Finset.card_le_card hsub
  refine ⟨_, hmem, hb.rankNonneg r, le_trans h2 hcard, fun x n hn => ?_⟩
  have h3 := hn.rank_add_le hw
  have h4 := hb.rankNonneg x
  have h5 : n ≤ (uf.rank r).toNat := by omega
  exact ⟨by omega, le_trans (Nat.pow_le_pow_right (by decide) h5) (le_trans h2 hcard)⟩

/-- C19 (instance): after `unite(1, 2)` the root 1 has rank 1 and a class of two ids. -/
theorem union_by_rank_bounds_witness :
    pairNetwork.uf.Reachable ∧ pairNetwork.uf.parent.find? 1 = some 1 ∧
    pairNetwork.uf.rank 1 = 1 ∧
    ∃ S : Finset Int, (∀ x, x ∈ S ↔ pairNetwork.uf.RootOf x 1) ∧ 2 ≤ S.card := by
  have hr : pairNetwork.uf.Reachable :=
    UnionFind.Reachable.unite 1 2 UnionFind.Reachable.empty (by decide)
  obtain ⟨S, h1, _, h3, _⟩ := union_by_rank_bounds pairNetwork.uf hr 1 (by decide)
  have e : pairNetwork.uf.rank 1 = 1 := by decide
  rw [e] at h3
  exact ⟨hr, by decide, e, S, h1, h3⟩

/-- C20: when `-1` is not a user, for known and connected `src`, `dst` the search returns a
non-empty sequence that starts with `src`, ends with `dst`, joins consecutive elements by
friendship edges and repeats no element. -/
theorem shortestPath_is_simple_path (g : Graph) (hg : g.Reachable)
    (hneg : g.hasUser (-1) = false) (src dst : Int) (hs : g.hasUser src = true)
    (hd : g.hasUser dst = true) (hc : g.Connected src dst) :
    ∃ p, g.shortestPath src dst = some p ∧ p ≠ [] ∧ p.head? = some src ∧
      p.getLast? = some dst ∧ p.Chain' (fun a b => b ∈ g.neighbors a) ∧ p.Nodup := by
  obtain ⟨p, h1, ⟨h2, h3, h4⟩, h5, _⟩ := Graph.shortestPath_optimal g hg hneg src dst hs hd hc
  refine ⟨p, h1, ?_, h2, h3, h4, h5⟩
  intro e
  rw [e] at h2
  simp at h2

/-- C20 (instance): the chain `1 - 2 - 3`, searched from 1 to 3. -/
theorem shortestPath_is_simple_path_witness :
    ((Graph.empty.addFriendship 1 2).addFriendship 2 3).Reachable ∧
    ((Graph.empty.addFriendship 1 2).addFriendship 2 3).hasUser (-1) = false ∧
    ((Graph.empty.addFriendship 1 2).addFriendship 2 3).Connected 1 3 ∧
    ∃ p, ((Graph.empty.addFriendship 1 2).addFriendship 2 3).shortestPath 1 3 = some p ∧
      p ≠ [] ∧ p.head? = some 1 ∧ p.getLast? = some 3 ∧
      p.Chain' (fun a b => b ∈ ((Graph.empty.addFriendship 1 2).addFriendship 2 3).neighbors a) ∧
      p.Nodup := by
  have hr : ((Graph.empty.addFriendship 1 2).addFriendship 2 3).Reachable :=
    Graph.Reachable.addFriendship 2 3 (Graph.Reachable.addFriendship 1 2 Graph.Reachable.empty)
  have h12 : ((Graph.empty.addFriendship 1 2).addFriendship 2 3).Adj 1 2 := by
    show (2 : Int) ∈ ((Graph.empty.addFriendship 1 2).addFriendship 2 3).neighbors 1
    decide
  have h23 : ((Graph.empty.addFriendship 1 2).addFriendship 2 3).Adj 2 3 := by
    show (3 : Int) ∈ ((Graph.empty.addFriendship 1 2).addFriendship 2 3).neighbors 2
    decide
  have hc : ((Graph.empty.addFriendship 1 2).addFriendship 2 3).Connected 1 3 :=
    Relation.ReflTransGen.tail (Relation.ReflTransGen.single h12) h23
  exact ⟨hr, by decide, hc,
    shortestPath_is_simple_path _ hr (by decide) 1 3 (by decide) (by decide) hc⟩

end SocialNetwork
